import Mathlib

/-!
# The LL(k) expression parser of `src/parser.c`

A shallow embedding of the recursive-descent parser

    S    -> Expr
    Expr -> MD ("+" MD | "-" MD)*
    MD   -> AS ("*" AS | "/" AS)*
    AS   -> "(" Expr ")" | num

The C globals `token`, `root` and `node_num` become the fields of `State`, which every
function receives and returns.  The token list is an immutable singly linked list, so the
pointer `token` is modelled by the list of tokens that starts at the cursor: `[]` is the
`NULL` that follows the last token, and `token = token->next` is `List.tail`.

The calls `error_at` and `report` abort the parse; a run therefore ends either with a value
and a state, or with an error and the state in which it was raised.
-/

namespace Vcc

/-! ## Data model -/

/-- Modelled from the spec: `TokenKind` is declared in `vcc.h`, which is not part of the
sources. The spec lists the kinds integer, operator (punctuation) and end-of-input; the
constructor names are the ones `parser.c` uses. -/
inductive TokenKind where
  | TK_PUNC
  | TK_INTEGER
  | TK_EOF
  deriving DecidableEq, Repr

open TokenKind

/-- Modelled from the spec: `Token` is declared in `vcc.h`; these are the fields `parser.c`
reads (`next` is the tail of the list the token sits in). `code` is a `char *` into the
NUL-terminated source text: the list holds the characters from that address up to, and not
including, the terminating NUL. `len` is the length of the raw text `code[0..len)`. -/
structure Token where
  kind : TokenKind
  val : Int
  code : List Char
  len : Nat
  deriving DecidableEq, Repr

/-- Modelled from the spec: `NodeKind` is declared in `parser.h`; the constructors are the
kinds `parser.c` uses. -/
inductive NodeKind where
  | ND_ADD
  | ND_SUB
  | ND_MUL
  | ND_DIV
  | ND_NUM
  deriving DecidableEq, Repr

open NodeKind

/-- The union `content` of a node: an integer value, an operator string, or the bytes
`malloc` returned when nothing was stored. -/
inductive Content where
  | val (v : Int)
  | op (s : List Char)
  | uninit
  deriving DecidableEq, Repr

/-- A value of type `Node *`: `NULL`, or the address of a node with its four fields. -/
inductive Node where
  | NULL
  | node (kind : NodeKind) (content : Content) (left right : Node)
  deriving DecidableEq, Repr

/-- The globals the parser works on. `token` is the linked list from the cursor on.
`node_num` is a C `int`: every `node_num++` stores its result through `wrap_int`. -/
structure State where
  token : List Token
  root : Node
  node_num : Int
  deriving DecidableEq, Repr

/-- How a run is aborted. `error_at` and `report` are the two reporters of `error.h`;
`null_deref` is a read through a `NULL` token pointer; `out_of_fuel` belongs to the
embedding only (the recursion budget of the model was used up). -/
inductive Err where
  | error_at (loc : List Char) (msg : String)
  | report (msg : String)
  | null_deref
  | out_of_fuel
  deriving DecidableEq, Repr

/-- Outcome of a call: a value, or an error together with the globals at the abort. A
function that writes the globals returns them next to its value. -/
abbrev Exec := Except (Err × State)

/-! ## C library -/

/-- C `strncpy(dst, src, n)`: the `n` bytes written to `dst`: the bytes of `src` up to its
NUL, cut at `n`, then NUL padding. -/
def strncpy (src : List Char) (n : Nat) : List Char :=
  let s := (src.takeWhile (fun ch => ch ≠ '\x00')).take n
  s ++ List.replicate (n - s.length) '\x00'

/-- C `strncmp(s1, s2, n)`: compares at most `n` bytes and stops after a NUL. A list that
has ended reads as its terminating NUL. -/
def strncmp : List Char → List Char → Nat → Int
  | _, _, 0 => 0
  | s1, s2, n + 1 =>
    let a := s1.headD '\x00'
    let b := s2.headD '\x00'
    if a ≠ b then (a.toNat : Int) - (b.toNat : Int)
    else if a = '\x00' then 0
    else strncmp s1.tail s2.tail n

/-! ## Cursor -/

/-- Read through the global pointer `token`. -/
def cur (s : State) : Exec Token :=
  match s.token with
  | [] => .error (.null_deref, s)
  | t :: _ => .ok t

/-- `static bool _at_end() { return token->kind == TK_EOF; }` -/
def _at_end (s : State) : Exec Bool := do
  let t ← cur s
  pure (decide (t.kind = TK_EOF))

/-- The loop of `_at_end_k`. The call `_at_end(token_copy)` passes an argument to a
function defined without parameters: the argument is dropped and the global `token` is
tested. `copy` is `token_copy`. -/
def _at_end_k_loop (s : State) : Nat → List Token → Exec Bool
  | 0, _ => pure false
  | _ + 1, [] => .error (.null_deref, s)
  | k + 1, _ :: copy => do
    if (← _at_end s) then pure true
    else _at_end_k_loop s k copy

/-- `static int _at_end_k(int k)`, for `k ≥ 0`. -/
def _at_end_k (k : Nat) (s : State) : Exec Bool :=
  _at_end_k_loop s k s.token

/-- `static bool _is_op() { return token->kind == TK_PUNC; }` -/
def _is_op (s : State) : Exec Bool := do
  let t ← cur s
  pure (decide (t.kind = TK_PUNC))

/-- `static bool _is_integer() { return token->kind == TK_INTEGER; }` -/
def _is_integer (s : State) : Exec Bool := do
  let t ← cur s
  pure (decide (t.kind = TK_INTEGER))

/-- `_is_op(token) && token->code[0] == '('`; `code[0]` of an empty string is its NUL. -/
def _is_open_bracket (s : State) : Exec Bool := do
  if (← _is_op s) then
    let t ← cur s
    pure (decide (t.code.headD '\x00' = '('))
  else pure false

/-- `_is_op(token) && token->code[0] == ')'` -/
def _is_closed_bracket (s : State) : Exec Bool := do
  if (← _is_op s) then
    let t ← cur s
    pure (decide (t.code.headD '\x00' = ')'))
  else pure false

/-- `static void _expect_closed_bracket()` -/
def _expect_closed_bracket (s : State) : Exec Unit := do
  if !(← _is_closed_bracket s) then
    let t ← cur s
    .error (.error_at t.code "Expect )", s)
  else pure ()

/-- `static void _expect_number()` -/
def _expect_number (s : State) : Exec Unit := do
  if !(← _is_integer s) then
    let t ← cur s
    .error (.error_at t.code "Expect a number", s)
  else pure ()

/-- `static void _expect_not_at_end()` -/
def _expect_not_at_end (s : State) : Exec Unit := do
  if (← _at_end s) then .error (.report "Should not be at end", s)
  else pure ()

/-- `static void _eat() { token = token->next; }` -/
def _eat (s : State) : Exec State :=
  match s.token with
  | [] => .error (.null_deref, s)
  | _ :: next => .ok { s with token := next }

/-- `static void _eat_op()` -/
def _eat_op (s : State) : Exec State := do
  if !(← _is_op s) then
    let t ← cur s
    .error (.error_at t.code "Expect an operator", s)
  else _eat s

/-- `static void _eat_integer()` -/
def _eat_integer (s : State) : Exec State := do
  if !(← _is_integer s) then
    let t ← cur s
    .error (.error_at t.code "Expect an integer", s)
  else _eat s

/-! ## lookahead -/

/-- First loop of `lookahead`: sums the `len` of `k` tokens from `tmp_token` on and calls
`_expect_not_at_end()` (a test of the global `token`) after each step. Returns `siz`. -/
def lookahead_siz (s : State) : Nat → List Token → Nat → Exec Nat
  | 0, _, siz => pure siz
  | _ + 1, [], _ => .error (.null_deref, s)
  | k + 1, t :: tmp, siz => do
    _expect_not_at_end s
    lookahead_siz s k tmp (siz + t.len)

/-- Second loop of `lookahead`: the buffer `text`, the `strncpy` images of `code[0..len)`
of `k` tokens one after the other. -/
def lookahead_text (s : State) : Nat → List Token → Exec (List Char)
  | 0, _ => pure []
  | _ + 1, [] => .error (.null_deref, s)
  | k + 1, t :: tmp => do
    let r ← lookahead_text s k tmp
    pure (strncpy t.code t.len ++ r)

/-- `while (k--) _eat();` -/
def _eat_k : Nat → State → Exec State
  | 0, s => pure s
  | k + 1, s => do
    let s1 ← _eat s
    _eat_k k s1

/-- `bool lookahead(int k, char *c)`, for `k ≥ 0`; `c` holds the bytes before its NUL. -/
def lookahead (k : Nat) (c : List Char) (s : State) : Exec (Bool × State) := do
  let siz ← lookahead_siz s k s.token 0
  let text ← lookahead_text s k s.token
  if (!(← _at_end_k k s)) && decide (strncmp text c siz = 0) then
    let s1 ← _eat_k k s
    pure (true, s1)
  else pure (false, s)

/-! ## AST creation -/

/-- The value a C `int` holds after an arithmetic result `x`: `x` reduced modulo `2^32` to
the 32-bit two's complement range from `INT_MIN = -2147483648` to `INT_MAX = 2147483647`.
`node_num` is an `int` (`int node_num = 0;`), and `node_num++` at `INT_MAX` gives
`INT_MIN`. -/
def wrap_int (x : Int) : Int := (x + 2147483648) % 4294967296 - 2147483648

/-- `static Node *_new_number_node(int val)` -/
def _new_number_node (val : Int) (s : State) : Node × State :=
  (.node ND_NUM (.val val) .NULL .NULL, { s with node_num := wrap_int (s.node_num + 1) })

/-- The `switch` of `_new_binary`: the operator string stored for a kind. -/
def _new_binary_op : NodeKind → Content
  | ND_ADD => .op ['+']
  | ND_SUB => .op ['-']
  | ND_DIV => .op ['/']
  | ND_MUL => .op ['*']
  | _ => .uninit

/-- `static Node *_new_binary(NodeKind kind, Node *left, Node *right)` -/
def _new_binary (kind : NodeKind) (left right : Node) (s : State) : Node × State :=
  (.node kind (_new_binary_op kind) left right, { s with node_num := wrap_int (s.node_num + 1) })

/-! ## The grammar -/

mutual
/-- `static Node *_num_or_bracket()` -/
def _num_or_bracket : Nat → State → Exec (Node × State)
  | 0, s => .error (.out_of_fuel, s)
  | fuel + 1, s => do
    if (← _is_open_bracket s) then
      let s1 ← _eat s
      let (node, s2) ← _add_or_sub fuel s1
      _expect_closed_bracket s2
      let s3 ← _eat s2
      pure (node, s3)
    else
      _expect_number s
      let t ← cur s
      let (node, s1) := _new_number_node t.val s
      let s2 ← _eat s1
      pure (node, s2)
/-- The `while (!_at_end())` loop of `_mul_or_div`, entered with the local `node`. -/
def _mul_or_div_loop : Nat → Node → State → Exec (Node × State)
  | 0, _, s => .error (.out_of_fuel, s)
  | fuel + 1, node, s => do
    if !(← _at_end s) then
      let (b1, s1) ← lookahead 1 ['*'] s
      if b1 then
        let (r, s2) ← _num_or_bracket fuel s1
        let (node1, s3) := _new_binary ND_MUL node r s2
        _mul_or_div_loop fuel node1 s3
      else
        let (b2, s2) ← lookahead 1 ['/'] s1
        if b2 then
          let (r, s3) ← _num_or_bracket fuel s2
          let (node1, s4) := _new_binary ND_DIV node r s3
          _mul_or_div_loop fuel node1 s4
        else pure (node, s2)
    else pure (node, s)
/-- `static Node *_mul_or_div()` -/
def _mul_or_div : Nat → State → Exec (Node × State)
  | 0, s => .error (.out_of_fuel, s)
  | fuel + 1, s => do
    let (node, s1) ← _num_or_bracket fuel s
    _mul_or_div_loop fuel node s1
/-- The `while (!_at_end())` loop of `_add_or_sub`, entered with the local `node`. -/
def _add_or_sub_loop : Nat → Node → State → Exec (Node × State)
  | 0, _, s => .error (.out_of_fuel, s)
  | fuel + 1, node, s => do
    if !(← _at_end s) then
      let (b1, s1) ← lookahead 1 ['+'] s
      if b1 then
        let (r, s2) ← _mul_or_div fuel s1
        let (node1, s3) := _new_binary ND_ADD node r s2
        _add_or_sub_loop fuel node1 s3
      else
        let (b2, s2) ← lookahead 1 ['-'] s1
        if b2 then
          let (r, s3) ← _mul_or_div fuel s2
          let (node1, s4) := _new_binary ND_SUB node r s3
          _add_or_sub_loop fuel node1 s4
        else pure (node, s2)
    else pure (node, s)
/-- `static Node *_add_or_sub()` -/
def _add_or_sub : Nat → State → Exec (Node × State)
  | 0, s => .error (.out_of_fuel, s)
  | fuel + 1, s => do
    let (node, s1) ← _mul_or_div fuel s
    _add_or_sub_loop fuel node s1
end

/-- `void AST() { root = _add_or_sub(token); }`. The recursion budget handed to the model
is three per remaining token plus three; `AST_fuel_enough` shows it is never used up. -/
def AST (s : State) : Exec State := do
  let (node, s1) ← _add_or_sub (3 * s.token.length + 3) s
  pure { s1 with root := node }

/-! ## Auxiliary definitions used to state and prove the properties -/

/-- The test `_is_open_bracket` makes on the current token `t`. -/
def isOpen (t : Token) : Bool :=
  decide (t.kind = TK_PUNC) && decide (t.code.headD '\x00' = '(')

/-- The test `_is_closed_bracket` makes on the current token `t`. -/
def isClosed (t : Token) : Bool :=
  decide (t.kind = TK_PUNC) && decide (t.code.headD '\x00' = ')')

/-- The test `lookahead(1, c)` makes on the current token `t`: `strncmp` of the copied text
against `c` over `len` bytes. -/
def tokMatch (t : Token) (c : List Char) : Bool :=
  decide (strncmp (strncpy t.code t.len) c t.len = 0)

/-- What `_num_or_bracket` does once the bracketed expression has been parsed:
`_expect_closed_bracket(); _eat(); return node;`. -/
def closeBracket (p : Node × State) : Exec (Node × State) :=
  match p.2.token with
  | [] => .error (.null_deref, p.2)
  | t :: rest =>
    if isClosed t then .ok (p.1, { p.2 with token := rest })
    else .error (.error_at t.code "Expect )", p.2)

/-- The five recursive functions of the model; a loop carries its local `node`. -/
inductive Call where
  | nob
  | md
  | as
  | mdLoop (node : Node)
  | asLoop (node : Node)

/-- Runs the function named by a `Call`. -/
def exec : Call → Nat → State → Exec (Node × State)
  | .nob, fuel, s => _num_or_bracket fuel s
  | .md, fuel, s => _mul_or_div fuel s
  | .as, fuel, s => _add_or_sub fuel s
  | .mdLoop node, fuel, s => _mul_or_div_loop fuel node s
  | .asLoop node, fuel, s => _add_or_sub_loop fuel node s

/-- Successful runs, without the recursion budget: `Run c s n s1` says that the call `c`
started with globals `s` returns the node `n` and leaves the globals `s1`. One rule per
path through the C functions that reaches a `return`. -/
inductive Run : Call → State → Node → State → Prop
  | num {s : State} {t : Token} {rest : List Token} :
      s.token = t :: rest → isOpen t = false → t.kind = TK_INTEGER →
      Run .nob s (.node ND_NUM (.val t.val) .NULL .NULL)
        { s with token := rest, node_num := wrap_int (s.node_num + 1) }
  | bracket {s s2 : State} {t t2 : Token} {rest rest2 : List Token} {n : Node} :
      s.token = t :: rest → isOpen t = true →
      Run .as { s with token := rest } n s2 →
      s2.token = t2 :: rest2 → isClosed t2 = true →
      Run .nob s n { s2 with token := rest2 }
  | md {s s1 s2 : State} {n n1 : Node} :
      Run .nob s n s1 → Run (.mdLoop n) s1 n1 s2 → Run .md s n1 s2
  | mdEnd {s : State} {t : Token} {rest : List Token} {node : Node} :
      s.token = t :: rest → t.kind = TK_EOF → Run (.mdLoop node) s node s
  | mdBreak {s : State} {t : Token} {rest : List Token} {node : Node} :
      s.token = t :: rest → t.kind ≠ TK_EOF →
      tokMatch t ['*'] = false → tokMatch t ['/'] = false → Run (.mdLoop node) s node s
  | mdMul {s s2 s3 : State} {t : Token} {rest : List Token} {node r n1 : Node} :
      s.token = t :: rest → t.kind ≠ TK_EOF → tokMatch t ['*'] = true →
      Run .nob { s with token := rest } r s2 →
      Run (.mdLoop (.node ND_MUL (.op ['*']) node r))
        { s2 with node_num := wrap_int (s2.node_num + 1) } n1 s3 →
      Run (.mdLoop node) s n1 s3
  | mdDiv {s s2 s3 : State} {t : Token} {rest : List Token} {node r n1 : Node} :
      s.token = t :: rest → t.kind ≠ TK_EOF →
      tokMatch t ['*'] = false → tokMatch t ['/'] = true →
      Run .nob { s with token := rest } r s2 →
      Run (.mdLoop (.node ND_DIV (.op ['/']) node r))
        { s2 with node_num := wrap_int (s2.node_num + 1) } n1 s3 →
      Run (.mdLoop node) s n1 s3
  | as {s s1 s2 : State} {n n1 : Node} :
      Run .md s n s1 → Run (.asLoop n) s1 n1 s2 → Run .as s n1 s2
  | asEnd {s : State} {t : Token} {rest : List Token} {node : Node} :
      s.token = t :: rest → t.kind = TK_EOF → Run (.asLoop node) s node s
  | asBreak {s : State} {t : Token} {rest : List Token} {node : Node} :
      s.token = t :: rest → t.kind ≠ TK_EOF →
      tokMatch t ['+'] = false → tokMatch t ['-'] = false → Run (.asLoop node) s node s
  | asAdd {s s2 s3 : State} {t : Token} {rest : List Token} {node r n1 : Node} :
      s.token = t :: rest → t.kind ≠ TK_EOF → tokMatch t ['+'] = true →
      Run .md { s with token := rest } r s2 →
      Run (.asLoop (.node ND_ADD (.op ['+']) node r))
        { s2 with node_num := wrap_int (s2.node_num + 1) } n1 s3 →
      Run (.asLoop node) s n1 s3
  | asSub {s s2 s3 : State} {t : Token} {rest : List Token} {node r n1 : Node} :
      s.token = t :: rest → t.kind ≠ TK_EOF →
      tokMatch t ['+'] = false → tokMatch t ['-'] = true →
      Run .md { s with token := rest } r s2 →
      Run (.asLoop (.node ND_SUB (.op ['-']) node r))
        { s2 with node_num := wrap_int (s2.node_num + 1) } n1 s3 →
      Run (.asLoop node) s n1 s3

/-- The outcome is not the exhaustion of the recursion budget. -/
def NotOOF {α : Type} (r : Exec α) : Prop := ∀ s1, r ≠ .error (.out_of_fuel, s1)

/-- The two loops, as opposed to the three grammar functions. -/
def Call.isLoop : Call → Bool
  | .mdLoop _ => true
  | .asLoop _ => true
  | _ => false

/-- Budget that is enough for a call with `n` tokens from the cursor on. -/
def Call.need : Call → Nat → Nat
  | .nob, n => 3 * n + 1
  | .md, n => 3 * n + 2
  | .as, n => 3 * n + 3
  | .mdLoop _, n => 3 * n + 1
  | .asLoop _, n => 3 * n + 2

/-! ## Vocabulary of the specification -/

/-- Raw text `code[0..len)` of a token. -/
def Token.text (t : Token) : List Char := t.code.take t.len

/-- The leaf `Number { value }` of the specification: what `_new_number_node` builds. -/
def Number (v : Int) : Node := .node ND_NUM (.val v) .NULL .NULL

/-- The internal node `BinaryOp` of the specification: what `_new_binary` builds. -/
def BinaryOp (kind : NodeKind) (left right : Node) : Node :=
  .node kind (_new_binary_op kind) left right

/-- Operator text of a binary kind, as a token carries it. -/
def opText : NodeKind → List Char
  | ND_ADD => ['+']
  | ND_SUB => ['-']
  | ND_MUL => ['*']
  | ND_DIV => ['/']
  | ND_NUM => []

/-- Modelled from the spec: evaluation of a tree is done by a consumer that is not part of
the sources; the spec asks for standard arithmetic on the children's values. Division is the
truncating division of C and has no value on a zero divisor. -/
def eval : Node → Option Int
  | .NULL => none
  | .node kind content left right =>
    match kind, content with
    | ND_NUM, .val v => some v
    | ND_NUM, _ => none
    | ND_ADD, _ => do
      let a ← eval left
      let b ← eval right
      pure (a + b)
    | ND_SUB, _ => do
      let a ← eval left
      let b ← eval right
      pure (a - b)
    | ND_MUL, _ => do
      let a ← eval left
      let b ← eval right
      pure (a * b)
    | ND_DIV, _ => do
      let a ← eval left
      let b ← eval right
      if b = 0 then none else pure (Int.tdiv a b)

/-- The token `o` is the operator token of the binary kind `k`: a punctuation token whose
raw text is the operator. -/
def IsOpTok (k : NodeKind) (o : Token) : Prop :=
  k ≠ ND_NUM ∧ o.kind = TK_PUNC ∧ o.text = opText k

/-- Tokens of a list of (operator kind, operator token, integer token) triples, in order:
the input `op_1 n_1 ... op_k n_k`. -/
def opSeq : List (NodeKind × Token × Token) → List Token
  | [] => []
  | (_, o, n) :: ps => o :: n :: opSeq ps

/-- Left fold of the operands onto `acc`:
`BinaryOp(op_k, ... BinaryOp(op_1, acc, n_1) ..., n_k)`. -/
def leftFold (acc : Node) (ps : List (NodeKind × Token × Token)) : Node :=
  ps.foldl (fun a p => BinaryOp p.1 a (Number p.2.2.val)) acc

/-! ## Tokens of the examples -/

/-- An integer token of one digit, at the address `code` of the source text. -/
def intTok (v : Int) (code : List Char) : Token := ⟨TK_INTEGER, v, code, 1⟩

/-- A punctuation token of one character, at the address `code` of the source text. -/
def puncTok (code : List Char) : Token := ⟨TK_PUNC, 0, code, 1⟩

/-- The end-of-input token, at the NUL that ends the source text. -/
def eofTok : Token := ⟨TK_EOF, 0, [], 0⟩

/-- Contents of the buffer `text` of `lookahead` over the tokens `ts`. -/
def lookText (ts : List Token) : List Char :=
  (ts.map (fun t => strncpy t.code t.len)).flatten

/-- Value of `siz` in `lookahead` over the tokens `ts`. -/
def lookSiz (ts : List Token) : Nat := (ts.map (fun t => t.len)).sum

/-- Concatenation of the raw texts `code[0..len)` of the tokens `ts`. -/
def rawTexts (ts : List Token) : List Char := (ts.map Token.text).flatten

/-- The token `t` is the punctuation token whose raw text is the single character `ch`. -/
def IsPunc (ch : Char) (t : Token) : Prop := t.kind = TK_PUNC ∧ t.text = [ch]

/-- A token in front of which both loops stop: `lookahead(1, c)` matches it with none of the
four operators. -/
def NoOp (t : Token) : Prop :=
  tokMatch t ['+'] = false ∧ tokMatch t ['-'] = false ∧
    tokMatch t ['*'] = false ∧ tokMatch t ['/'] = false

/-- Where a successful call leaves the cursor: on a token that is the end-of-input token or
that the loop of `_mul_or_div` does not match. -/
def StopsMd (s : State) : Prop :=
  ∃ t rest, s.token = t :: rest ∧
    (t.kind = TK_EOF ∨ (tokMatch t ['*'] = false ∧ tokMatch t ['/'] = false))

/-- Where `_add_or_sub` leaves the cursor: on the end-of-input token or on a token that
matches none of the four operators. -/
def StopsAs (s : State) : Prop :=
  ∃ t rest, s.token = t :: rest ∧ (t.kind = TK_EOF ∨ NoOp t)

/-- What a call guarantees about the cursor it leaves, given the cursor it starts from. -/
def Call.stops : Call → State → State → Prop
  | .nob, _, _ => True
  | .md, _, s1 => StopsMd s1
  | .mdLoop _, _, s1 => StopsMd s1
  | .as, _, s1 => StopsAs s1
  | .asLoop _, s, s1 => StopsMd s → StopsAs s1

/-- Number of `ND_NUM` nodes of a tree. -/
def numLeaves : Node → Nat
  | .NULL => 0
  | .node kind _ left right =>
    (if kind = ND_NUM then 1 else 0) + numLeaves left + numLeaves right

/-- Number of binary nodes (`ND_ADD`, `ND_SUB`, `ND_MUL`, `ND_DIV`) of a tree. -/
def numBinary : Node → Nat
  | .NULL => 0
  | .node kind _ left right =>
    (if kind = ND_ADD ∨ kind = ND_SUB ∨ kind = ND_MUL ∨ kind = ND_DIV then 1 else 0)
      + numBinary left + numBinary right

/-- The token is an integer token. -/
def isIntegerTok (t : Token) : Bool := decide (t.kind = TK_INTEGER)

/-- The token is a `+`, `-`, `*` or `/` token: its raw text is that character. -/
def isOperatorTok (t : Token) : Bool :=
  decide (t.text = ['+'] ∨ t.text = ['-'] ∨ t.text = ['*'] ∨ t.text = ['/'])

/-- Modelled from the spec: the tokens come from a lexer that is not part of the sources. A
token of the sequence has its raw text `code[0..len)` inside the NUL-terminated source; the
text of a token other than end-of-input is not empty, and the text of an integer token is
made of decimal digits. -/
def Token.wf (t : Token) : Prop :=
  '\x00' ∉ t.code ∧ t.len ≤ t.code.length ∧ (t.kind ≠ TK_EOF → t.len ≠ 0) ∧
    (t.kind = TK_INTEGER → ∀ ch ∈ t.text, ch.isDigit = true)

/-- Leaves a loop starts with: those of its local `node`. -/
def Call.leaves : Call → Nat
  | .mdLoop node => numLeaves node
  | .asLoop node => numLeaves node
  | _ => 0

/-- Binary nodes a loop starts with: those of its local `node`. -/
def Call.binaries : Call → Nat
  | .mdLoop node => numBinary node
  | .asLoop node => numBinary node
  | _ => 0

instance (t : Token) : Decidable t.wf := by
  unfold Token.wf
  infer_instance

instance (k : NodeKind) (o : Token) : Decidable (IsOpTok k o) := by
  unfold IsOpTok
  infer_instance

instance (ch : Char) (t : Token) : Decidable (IsPunc ch t) := by
  unfold IsPunc
  infer_instance

/-- A well-formed tree: every node is a leaf of kind `ND_NUM` that holds a value and has two
`NULL` children, or a node of kind `ND_ADD`, `ND_SUB`, `ND_MUL` or `ND_DIV` that holds the
operator string of its kind and has two well-formed children. -/
def WellFormed : Node → Prop
  | .NULL => False
  | .node kind content left right =>
    (kind = ND_NUM ∧ (∃ v, content = .val v) ∧ left = .NULL ∧ right = .NULL) ∨
    ((kind = ND_ADD ∨ kind = ND_SUB ∨ kind = ND_MUL ∨ kind = ND_DIV) ∧
      content = .op (opText kind) ∧ WellFormed left ∧ WellFormed right)

/-- Number of nodes of a tree. -/
def nodeCount : Node → Nat
  | .NULL => 0
  | .node _ _ left right => 1 + nodeCount left + nodeCount right

/-- The local `node` a loop is entered with, if the call is a loop. -/
def Call.acc : Call → Option Node
  | .mdLoop node => some node
  | .asLoop node => some node
  | _ => none

/-- Nodes a loop starts with: those of its local `node`. -/
def Call.nodes : Call → Nat
  | .mdLoop node => nodeCount node
  | .asLoop node => nodeCount node
  | _ => 0

/-- What the in-order traversal emits: a leaf's value or a binary node's operator string. -/
inductive Item where
  | num (v : Int)
  | op (s : List Char)
  deriving DecidableEq, Repr

/-- What a node itself contributes to the traversal. -/
def itemOf : NodeKind → Content → List Item
  | ND_NUM, .val v => [.num v]
  | ND_NUM, _ => []
  | _, .op s => [.op s]
  | _, _ => []

/-- In-order traversal of a tree, without parentheses. -/
def inorder : Node → List Item
  | .NULL => []
  | .node kind content left right => inorder left ++ itemOf kind content ++ inorder right

/-- How a token is read: a bracket token (as `_is_open_bracket` and `_is_closed_bracket`
recognise it) is dropped, an integer token is read as its `val`, any other token as its raw
text. -/
def tokItem (t : Token) : Option Item :=
  if isOpen t || isClosed t then none
  else if t.kind = TK_INTEGER then some (.num t.val)
  else some (.op t.text)

/-- A token list read with the bracket tokens removed. -/
def tokItems (ts : List Token) : List Item := ts.filterMap tokItem

/-- In-order items a loop starts with: those of its local `node`. -/
def Call.items : Call → List Item
  | .mdLoop node => inorder node
  | .asLoop node => inorder node
  | _ => []

/-- The integer token that prints the value `v`: its text is the decimal form of `v`. -/
def numToken (v : Int) : Token :=
  ⟨TK_INTEGER, v, (toString v).toList, (toString v).length⟩

/-- The token sequence that prints a tree: a leaf as its integer token, a binary node as
`(`, the left child, the operator, the right child, `)`. -/
def showTree : Node → List Token
  | .NULL => []
  | .node kind content left right =>
    if kind = ND_NUM then
      match content with
      | .val v => [numToken v]
      | _ => []
    else
      puncTok ['('] ::
        (showTree left ++ puncTok (opText kind) :: (showTree right ++ [puncTok [')']]))

/-- The cursor of `s1` is the cursor of `s` moved forward, and none of the tokens it has
moved over is the end-of-input token. Every move of the cursor is one `_eat`, over the
token the cursor stands on. -/
def Moves (s s1 : State) : Prop :=
  ∃ consumed, s.token = consumed ++ s1.token ∧ ∀ t ∈ consumed, t.kind ≠ TK_EOF

/-- The token list ends with an end-of-input token. -/
def EndsEOF (tk : List Token) : Prop := ∃ pre e, tk = pre ++ [e] ∧ e.kind = TK_EOF

/-- The globals a call ends with: those it returns, or those at the abort. -/
def final (r : Exec (Node × State)) : State :=
  match r with
  | .ok p => p.2
  | .error p => p.2

/-- The call returned, or it aborted with one of the two errors of the grammar, or the
recursion budget of the model was used up. -/
def UserError (r : Exec (Node × State)) : Prop :=
  match r with
  | .ok _ => True
  | .error p => p.1 = .out_of_fuel ∨
      ∃ loc, p.1 = .error_at loc "Expect a number" ∨ p.1 = .error_at loc "Expect )"

/-- What every call guarantees, however it ends. -/
def Good (s : State) (r : Exec (Node × State)) : Prop :=
  Moves s (final r) ∧ (EndsEOF s.token → UserError r)

/-- The globals `AST()` ends with: those it leaves on return, or those at the abort. -/
def finalAST (r : Exec State) : State :=
  match r with
  | .ok s1 => s1
  | .error p => p.2

/-- The call aborts with the error and globals `p`, for some recursion budget of the model;
the error is not the exhaustion of that budget. -/
def Fails (c : Call) (s : State) (p : Err × State) : Prop :=
  p.1 ≠ .out_of_fuel ∧ ∃ fuel, exec c fuel s = .error p

/-- The call aborts with "Expect a number" at the token `e`, the cursor standing on `e`. -/
def FailsAt (e : Token) (c : Call) (s : State) : Prop :=
  ∃ st, st.token = [e] ∧ Fails c s (.error_at e.code "Expect a number", st)

/-- `_mul_or_div` or its loop. -/
def Call.mdLevel : Call → Bool
  | .md => true
  | .mdLoop _ => true
  | _ => false

/-- `_add_or_sub` or its loop. -/
def Call.asLevel : Call → Bool
  | .as => true
  | .asLoop _ => true
  | _ => false

/-! ## The counter as a C `int` -/

theorem wrap_int_add (a b : Int) : wrap_int (wrap_int a + b) = wrap_int (a + b) := by
  unfold wrap_int
  omega

theorem wrap_int_idem (a : Int) : wrap_int (wrap_int a) = wrap_int a := by
  unfold wrap_int
  omega

theorem wrap_int_range (a : Int) : -2147483648 ≤ wrap_int a ∧ wrap_int a ≤ 2147483647 := by
  unfold wrap_int
  omega

theorem wrap_int_of_range {a : Int} (h1 : -2147483648 ≤ a) (h2 : a ≤ 2147483647) :
    wrap_int a = a := by
  unfold wrap_int
  omega

/-! ## The functions on a cursor that stands on a token -/

theorem cur_cons {s : State} {t : Token} {rest : List Token} (h : s.token = t :: rest) :
    cur s = .ok t := by
  simp [cur, h]

theorem at_end_cons {s : State} {t : Token} {rest : List Token} (h : s.token = t :: rest) :
    _at_end s = .ok (decide (t.kind = TK_EOF)) := by
  simp [_at_end, cur_cons h, bind, Except.bind, pure, Except.pure]

theorem is_open_bracket_cons {s : State} {t : Token} {rest : List Token}
    (h : s.token = t :: rest) : _is_open_bracket s = .ok (isOpen t) := by
  by_cases hk : t.kind = TK_PUNC <;>
    simp [_is_open_bracket, _is_op, cur_cons h, bind, Except.bind, pure, Except.pure, hk, isOpen]

theorem is_closed_bracket_cons {s : State} {t : Token} {rest : List Token}
    (h : s.token = t :: rest) : _is_closed_bracket s = .ok (isClosed t) := by
  by_cases hk : t.kind = TK_PUNC <;>
    simp [_is_closed_bracket, _is_op, cur_cons h, bind, Except.bind, pure, Except.pure, hk,
      isClosed]

theorem lookahead_one {s : State} {t : Token} {rest : List Token} (c : List Char)
    (h : s.token = t :: rest) (hk : t.kind ≠ TK_EOF) :
    lookahead 1 c s
      = .ok (if tokMatch t c then (true, { s with token := rest }) else (false, s)) := by
  by_cases hm : tokMatch t c = true
  · have hm2 := hm
    simp only [tokMatch, decide_eq_true_eq] at hm2
    simp [lookahead, lookahead_siz, lookahead_text, _at_end_k, _at_end_k_loop, _eat_k, _eat,
      _expect_not_at_end, at_end_cons h, h, hk, bind, Except.bind, pure, Except.pure, hm, hm2]
  · have hm2 := hm
    simp only [tokMatch, decide_eq_true_eq] at hm2
    simp [lookahead, lookahead_siz, lookahead_text, _at_end_k, _at_end_k_loop, _eat_k, _eat,
      _expect_not_at_end, at_end_cons h, h, hk, bind, Except.bind, pure, Except.pure, hm, hm2]

/-! ## Normal forms of the five recursive functions -/

theorem nob_nil (fuel : Nat) {s : State} (h : s.token = []) :
    _num_or_bracket (fuel + 1) s = .error (.null_deref, s) := by
  simp [_num_or_bracket, _is_open_bracket, _is_op, cur, h, bind, Except.bind]

theorem nob_num (fuel : Nat) {s : State} {t : Token} {rest : List Token}
    (h : s.token = t :: rest) (ho : isOpen t = false) (hi : t.kind = TK_INTEGER) :
    _num_or_bracket (fuel + 1) s
      = .ok (.node ND_NUM (.val t.val) .NULL .NULL,
          { s with token := rest, node_num := wrap_int (s.node_num + 1) }) := by
  simp [_num_or_bracket, is_open_bracket_cons h, ho, _expect_number, _is_integer, cur_cons h,
    hi, _new_number_node, _eat, h, bind, Except.bind, pure, Except.pure]

theorem nob_bad (fuel : Nat) {s : State} {t : Token} {rest : List Token}
    (h : s.token = t :: rest) (ho : isOpen t = false) (hi : t.kind ≠ TK_INTEGER) :
    _num_or_bracket (fuel + 1) s = .error (.error_at t.code "Expect a number", s) := by
  simp [_num_or_bracket, is_open_bracket_cons h, ho, _expect_number, _is_integer, cur_cons h,
    hi, bind, Except.bind, pure, Except.pure]

theorem nob_open (fuel : Nat) {s : State} {t : Token} {rest : List Token}
    (h : s.token = t :: rest) (ho : isOpen t = true) :
    _num_or_bracket (fuel + 1) s
      = (_add_or_sub fuel { s with token := rest }).bind closeBracket := by
  simp only [_num_or_bracket, is_open_bracket_cons h, ho, _eat, h, bind, Except.bind, pure,
    Except.pure, if_true]
  cases hr : _add_or_sub fuel { s with token := rest } with
  | error e => rfl
  | ok p =>
    obtain ⟨n, s2⟩ := p
    cases ht : s2.token with
    | nil =>
      simp [closeBracket, ht, _expect_closed_bracket, _is_closed_bracket, _is_op, cur, bind,
        Except.bind]
    | cons t2 rest2 =>
      by_cases hc : isClosed t2 = true
      · simp [closeBracket, ht, _expect_closed_bracket, is_closed_bracket_cons ht, hc, bind,
          Except.bind, pure, Except.pure]
      · simp [closeBracket, ht, _expect_closed_bracket, is_closed_bracket_cons ht, hc,
          cur_cons ht, bind, Except.bind, pure, Except.pure]

theorem md_succ (fuel : Nat) (s : State) :
    _mul_or_div (fuel + 1) s
      = (_num_or_bracket fuel s).bind (fun p => _mul_or_div_loop fuel p.1 p.2) := by
  simp only [_mul_or_div, bind, Except.bind]

theorem as_succ (fuel : Nat) (s : State) :
    _add_or_sub (fuel + 1) s
      = (_mul_or_div fuel s).bind (fun p => _add_or_sub_loop fuel p.1 p.2) := by
  simp only [_add_or_sub, bind, Except.bind]

theorem md_loop_nil (fuel : Nat) (node : Node) {s : State} (h : s.token = []) :
    _mul_or_div_loop (fuel + 1) node s = .error (.null_deref, s) := by
  simp [_mul_or_div_loop, _at_end, cur, h, bind, Except.bind]

theorem as_loop_nil (fuel : Nat) (node : Node) {s : State} (h : s.token = []) :
    _add_or_sub_loop (fuel + 1) node s = .error (.null_deref, s) := by
  simp [_add_or_sub_loop, _at_end, cur, h, bind, Except.bind]

theorem md_loop_cons (fuel : Nat) (node : Node) {s : State} {t : Token} {rest : List Token}
    (h : s.token = t :: rest) :
    _mul_or_div_loop (fuel + 1) node s
      = if t.kind = TK_EOF then .ok (node, s)
        else if tokMatch t ['*'] = true then
          (_num_or_bracket fuel { s with token := rest }).bind (fun p =>
            _mul_or_div_loop fuel (.node ND_MUL (.op ['*']) node p.1)
              { p.2 with node_num := wrap_int (p.2.node_num + 1) })
        else if tokMatch t ['/'] = true then
          (_num_or_bracket fuel { s with token := rest }).bind (fun p =>
            _mul_or_div_loop fuel (.node ND_DIV (.op ['/']) node p.1)
              { p.2 with node_num := wrap_int (p.2.node_num + 1) })
        else .ok (node, s) := by
  by_cases hk : t.kind = TK_EOF
  · simp [_mul_or_div_loop, at_end_cons h, hk, bind, Except.bind, pure, Except.pure]
  · by_cases h1 : tokMatch t ['*'] = true
    · simp only [_mul_or_div_loop, at_end_cons h, lookahead_one _ h hk, bind,
        Except.bind, pure, Except.pure, _new_binary, _new_binary_op]
      simp [hk, h1]
    · by_cases h2 : tokMatch t ['/'] = true
      · simp only [_mul_or_div_loop, at_end_cons h, lookahead_one _ h hk, bind,
          Except.bind, pure, Except.pure, _new_binary, _new_binary_op]
        simp [hk, h1, h2, lookahead_one _ h hk]
      · simp [_mul_or_div_loop, at_end_cons h, lookahead_one _ h hk, hk, h1, h2, bind,
          Except.bind, pure, Except.pure]

theorem as_loop_cons (fuel : Nat) (node : Node) {s : State} {t : Token} {rest : List Token}
    (h : s.token = t :: rest) :
    _add_or_sub_loop (fuel + 1) node s
      = if t.kind = TK_EOF then .ok (node, s)
        else if tokMatch t ['+'] = true then
          (_mul_or_div fuel { s with token := rest }).bind (fun p =>
            _add_or_sub_loop fuel (.node ND_ADD (.op ['+']) node p.1)
              { p.2 with node_num := wrap_int (p.2.node_num + 1) })
        else if tokMatch t ['-'] = true then
          (_mul_or_div fuel { s with token := rest }).bind (fun p =>
            _add_or_sub_loop fuel (.node ND_SUB (.op ['-']) node p.1)
              { p.2 with node_num := wrap_int (p.2.node_num + 1) })
        else .ok (node, s) := by
  by_cases hk : t.kind = TK_EOF
  · simp [_add_or_sub_loop, at_end_cons h, hk, bind, Except.bind, pure, Except.pure]
  · by_cases h1 : tokMatch t ['+'] = true
    · simp only [_add_or_sub_loop, at_end_cons h, lookahead_one _ h hk, bind,
        Except.bind, pure, Except.pure, _new_binary, _new_binary_op]
      simp [hk, h1]
    · by_cases h2 : tokMatch t ['-'] = true
      · simp only [_add_or_sub_loop, at_end_cons h, lookahead_one _ h hk, bind,
          Except.bind, pure, Except.pure, _new_binary, _new_binary_op]
        simp [hk, h1, h2, lookahead_one _ h hk]
      · simp [_add_or_sub_loop, at_end_cons h, lookahead_one _ h hk, hk, h1, h2, bind,
          Except.bind, pure, Except.pure]

/-! ## Successful runs are exactly the derivations of `Run` -/

theorem bind_eq_ok {α β : Type} {x : Exec α} {f : α → Exec β} {b : β} :
    x.bind f = .ok b ↔ ∃ a, x = .ok a ∧ f a = .ok b := by
  cases x with
  | error e => simp [Except.bind]
  | ok a => simp [Except.bind]

theorem bind_eq_error {α β : Type} {x : Exec α} {f : α → Exec β} {e : Err × State} :
    x.bind f = .error e ↔ x = .error e ∨ ∃ a, x = .ok a ∧ f a = .error e := by
  cases x with
  | error e1 => simp [Except.bind]
  | ok a => simp [Except.bind]

theorem closeBracket_eq_ok {p q : Node × State} (h : closeBracket p = .ok q) :
    ∃ t rest, p.2.token = t :: rest ∧ isClosed t = true ∧ q = (p.1, { p.2 with token := rest }) := by
  unfold closeBracket at h
  split at h
  · cases h
  · rename_i t rest ht
    by_cases hc : isClosed t = true
    · rw [if_pos hc] at h
      exact ⟨t, rest, ht, hc, by cases h; rfl⟩
    · rw [if_neg hc] at h
      cases h

/-- Every successful run of the model is a `Run`. -/
theorem run_of_exec (fuel : Nat) :
    ∀ (c : Call) (s : State) (n : Node) (s1 : State),
      exec c fuel s = .ok (n, s1) → Run c s n s1 := by
  induction fuel with
  | zero =>
    intro c s n s1 h
    cases c <;> simp [exec, _num_or_bracket, _mul_or_div, _add_or_sub, _mul_or_div_loop,
      _add_or_sub_loop] at h
  | succ fuel ih =>
    intro c s n s1 h
    cases c with
    | nob =>
      simp only [exec] at h
      cases ht : s.token with
      | nil => rw [nob_nil fuel ht] at h; cases h
      | cons t rest =>
        by_cases ho : isOpen t = true
        · rw [nob_open fuel ht ho, bind_eq_ok] at h
          obtain ⟨p, hp, hq⟩ := h
          obtain ⟨t2, rest2, h2, hc, hq2⟩ := closeBracket_eq_ok hq
          cases hq2
          exact Run.bracket ht ho (ih .as _ _ _ hp) h2 hc
        · have ho2 : isOpen t = false := by simpa using ho
          by_cases hi : t.kind = TK_INTEGER
          · rw [nob_num fuel ht ho2 hi] at h
            cases h
            exact Run.num ht ho2 hi
          · rw [nob_bad fuel ht ho2 hi] at h
            cases h
    | md =>
      simp only [exec] at h
      rw [md_succ, bind_eq_ok] at h
      obtain ⟨p, hp, hq⟩ := h
      exact Run.md (ih .nob _ _ _ hp) (ih (.mdLoop p.1) _ _ _ hq)
    | as =>
      simp only [exec] at h
      rw [as_succ, bind_eq_ok] at h
      obtain ⟨p, hp, hq⟩ := h
      exact Run.as (ih .md _ _ _ hp) (ih (.asLoop p.1) _ _ _ hq)
    | mdLoop node =>
      simp only [exec] at h
      cases ht : s.token with
      | nil => rw [md_loop_nil fuel node ht] at h; cases h
      | cons t rest =>
        rw [md_loop_cons fuel node ht] at h
        by_cases hk : t.kind = TK_EOF
        · rw [if_pos hk] at h
          cases h
          exact Run.mdEnd ht hk
        · rw [if_neg hk] at h
          by_cases h1 : tokMatch t ['*'] = true
          · rw [if_pos h1, bind_eq_ok] at h
            obtain ⟨p, hp, hq⟩ := h
            exact Run.mdMul ht hk h1 (ih .nob _ _ _ hp) (ih (.mdLoop _) _ _ _ hq)
          · rw [if_neg h1] at h
            have h1f : tokMatch t ['*'] = false := by simpa using h1
            by_cases h2 : tokMatch t ['/'] = true
            · rw [if_pos h2, bind_eq_ok] at h
              obtain ⟨p, hp, hq⟩ := h
              exact Run.mdDiv ht hk h1f h2 (ih .nob _ _ _ hp) (ih (.mdLoop _) _ _ _ hq)
            · rw [if_neg h2] at h
              have h2f : tokMatch t ['/'] = false := by simpa using h2
              cases h
              exact Run.mdBreak ht hk h1f h2f
    | asLoop node =>
      simp only [exec] at h
      cases ht : s.token with
      | nil => rw [as_loop_nil fuel node ht] at h; cases h
      | cons t rest =>
        rw [as_loop_cons fuel node ht] at h
        by_cases hk : t.kind = TK_EOF
        · rw [if_pos hk] at h
          cases h
          exact Run.asEnd ht hk
        · rw [if_neg hk] at h
          by_cases h1 : tokMatch t ['+'] = true
          · rw [if_pos h1, bind_eq_ok] at h
            obtain ⟨p, hp, hq⟩ := h
            exact Run.asAdd ht hk h1 (ih .md _ _ _ hp) (ih (.asLoop _) _ _ _ hq)
          · rw [if_neg h1] at h
            have h1f : tokMatch t ['+'] = false := by simpa using h1
            by_cases h2 : tokMatch t ['-'] = true
            · rw [if_pos h2, bind_eq_ok] at h
              obtain ⟨p, hp, hq⟩ := h
              exact Run.asSub ht hk h1f h2 (ih .md _ _ _ hp) (ih (.asLoop _) _ _ _ hq)
            · rw [if_neg h2] at h
              have h2f : tokMatch t ['-'] = false := by simpa using h2
              cases h
              exact Run.asBreak ht hk h1f h2f

/-! ## The recursion budget -/
theorem notOOF_ok {α : Type} (a : α) : NotOOF (.ok a : Exec α) := by
  intro s1 h; cases h

theorem bind_mono {α β : Type} {x y : Exec α} {f g : α → Exec β}
    (hx : NotOOF x → y = x) (hf : ∀ a, x = .ok a → NotOOF (f a) → g a = f a)
    (h : NotOOF (x.bind f)) : y.bind g = x.bind f := by
  cases x with
  | error e =>
    have : y = .error e := hx (fun s1 hs => h s1 (by cases hs; rfl))
    subst this
    rfl
  | ok a =>
    have : y = .ok a := hx (notOOF_ok a)
    subst this
    simp only [Except.bind] at h ⊢
    exact hf a rfl h

/-- One more unit of budget does not change an outcome other than exhaustion. -/
theorem exec_succ (fuel : Nat) :
    ∀ (c : Call) (s : State), NotOOF (exec c fuel s) → exec c (fuel + 1) s = exec c fuel s := by
  induction fuel with
  | zero =>
    intro c s h
    exfalso
    cases c <;> exact h s (by simp [exec, _num_or_bracket, _mul_or_div, _add_or_sub,
      _mul_or_div_loop, _add_or_sub_loop])
  | succ fuel ih =>
    intro c s h
    cases c with
    | nob =>
      simp only [exec] at h ⊢
      cases ht : s.token with
      | nil => rw [nob_nil _ ht, nob_nil _ ht]
      | cons t rest =>
        by_cases ho : isOpen t = true
        · rw [nob_open _ ht ho] at h ⊢
          rw [nob_open _ ht ho]
          exact bind_mono (ih .as _) (fun _ _ _ => rfl) h
        · have ho2 : isOpen t = false := by simpa using ho
          by_cases hi : t.kind = TK_INTEGER
          · rw [nob_num _ ht ho2 hi, nob_num _ ht ho2 hi]
          · rw [nob_bad _ ht ho2 hi, nob_bad _ ht ho2 hi]
    | md =>
      simp only [exec] at h ⊢
      rw [md_succ] at h ⊢
      rw [md_succ fuel]
      exact bind_mono (ih .nob _) (fun a _ ha => ih (.mdLoop a.1) a.2 ha) h
    | as =>
      simp only [exec] at h ⊢
      rw [as_succ] at h ⊢
      rw [as_succ fuel]
      exact bind_mono (ih .md _) (fun a _ ha => ih (.asLoop a.1) a.2 ha) h
    | mdLoop node =>
      simp only [exec] at h ⊢
      cases ht : s.token with
      | nil => rw [md_loop_nil _ _ ht, md_loop_nil _ _ ht]
      | cons t rest =>
        rw [md_loop_cons _ _ ht] at h ⊢
        rw [md_loop_cons _ _ ht]
        by_cases hk : t.kind = TK_EOF
        · simp only [if_pos hk]
        · simp only [if_neg hk] at h ⊢
          by_cases h1 : tokMatch t ['*'] = true
          · simp only [if_pos h1] at h ⊢
            exact bind_mono (ih .nob _) (fun a _ ha => ih (.mdLoop _) _ ha) h
          · simp only [if_neg h1] at h ⊢
            by_cases h2 : tokMatch t ['/'] = true
            · simp only [if_pos h2] at h ⊢
              exact bind_mono (ih .nob _) (fun a _ ha => ih (.mdLoop _) _ ha) h
            · simp only [if_neg h2]
    | asLoop node =>
      simp only [exec] at h ⊢
      cases ht : s.token with
      | nil => rw [as_loop_nil _ _ ht, as_loop_nil _ _ ht]
      | cons t rest =>
        rw [as_loop_cons _ _ ht] at h ⊢
        rw [as_loop_cons _ _ ht]
        by_cases hk : t.kind = TK_EOF
        · simp only [if_pos hk]
        · simp only [if_neg hk] at h ⊢
          by_cases h1 : tokMatch t ['+'] = true
          · simp only [if_pos h1] at h ⊢
            exact bind_mono (ih .md _) (fun a _ ha => ih (.asLoop _) _ ha) h
          · simp only [if_neg h1] at h ⊢
            by_cases h2 : tokMatch t ['-'] = true
            · simp only [if_pos h2] at h ⊢
              exact bind_mono (ih .md _) (fun a _ ha => ih (.asLoop _) _ ha) h
            · simp only [if_neg h2]

theorem exec_add (c : Call) (s : State) (fuel k : Nat) (h : NotOOF (exec c fuel s)) :
    exec c (fuel + k) s = exec c fuel s := by
  induction k with
  | zero => rfl
  | succ k ih =>
    rw [← Nat.add_assoc, exec_succ (fuel + k) c s (by rw [ih]; exact h), ih]

theorem exec_le {c : Call} {s : State} {fuel fuel1 : Nat} (hle : fuel ≤ fuel1)
    (h : NotOOF (exec c fuel s)) : exec c fuel1 s = exec c fuel s := by
  obtain ⟨k, rfl⟩ := Nat.exists_eq_add_of_le hle
  exact exec_add c s fuel k h

theorem exec_ok_le {c : Call} {s : State} {fuel fuel1 : Nat} {p : Node × State}
    (hle : fuel ≤ fuel1) (h : exec c fuel s = .ok p) : exec c fuel1 s = .ok p := by
  rw [exec_le hle (by rw [h]; exact notOOF_ok p), h]

/-- Every `Run` is a successful run of the model, for every large enough budget. -/
theorem exec_of_run {c : Call} {s : State} {n : Node} {s1 : State} (h : Run c s n s1) :
    ∃ fuel, exec c fuel s = .ok (n, s1) := by
  induction h with
  | num ht ho hi => exact ⟨1, by simp only [exec]; rw [nob_num 0 ht ho hi]⟩
  | bracket ht ho _ h2 hc ih =>
    obtain ⟨f, hf⟩ := ih
    refine ⟨f + 1, ?_⟩
    simp only [exec] at hf ⊢
    rw [nob_open f ht ho, hf]
    simp [Except.bind, closeBracket, h2, hc]
  | md _ _ ih1 ih2 =>
    obtain ⟨f1, hf1⟩ := ih1
    obtain ⟨f2, hf2⟩ := ih2
    refine ⟨max f1 f2 + 1, ?_⟩
    have e1 := exec_ok_le (Nat.le_max_left f1 f2) hf1
    have e2 := exec_ok_le (Nat.le_max_right f1 f2) hf2
    simp only [exec] at e1 e2 ⊢
    rw [md_succ, e1]
    simpa [Except.bind] using e2
  | mdEnd ht hk => exact ⟨1, by simp only [exec]; rw [md_loop_cons 0 _ ht, if_pos hk]⟩
  | mdBreak ht hk h1 h2 =>
    exact ⟨1, by simp only [exec]; rw [md_loop_cons 0 _ ht]; simp [hk, h1, h2]⟩
  | mdMul ht hk h1 _ _ ih1 ih2 =>
    obtain ⟨f1, hf1⟩ := ih1
    obtain ⟨f2, hf2⟩ := ih2
    refine ⟨max f1 f2 + 1, ?_⟩
    have e1 := exec_ok_le (Nat.le_max_left f1 f2) hf1
    have e2 := exec_ok_le (Nat.le_max_right f1 f2) hf2
    simp only [exec] at e1 e2 ⊢
    rw [md_loop_cons _ _ ht, if_neg hk, if_pos h1, e1]
    simpa [Except.bind] using e2
  | mdDiv ht hk h1 h2 _ _ ih1 ih2 =>
    obtain ⟨f1, hf1⟩ := ih1
    obtain ⟨f2, hf2⟩ := ih2
    refine ⟨max f1 f2 + 1, ?_⟩
    have e1 := exec_ok_le (Nat.le_max_left f1 f2) hf1
    have e2 := exec_ok_le (Nat.le_max_right f1 f2) hf2
    simp only [exec] at e1 e2 ⊢
    rw [md_loop_cons _ _ ht, if_neg hk, if_neg (by simp [h1]), if_pos h2, e1]
    simpa [Except.bind] using e2
  | as _ _ ih1 ih2 =>
    obtain ⟨f1, hf1⟩ := ih1
    obtain ⟨f2, hf2⟩ := ih2
    refine ⟨max f1 f2 + 1, ?_⟩
    have e1 := exec_ok_le (Nat.le_max_left f1 f2) hf1
    have e2 := exec_ok_le (Nat.le_max_right f1 f2) hf2
    simp only [exec] at e1 e2 ⊢
    rw [as_succ, e1]
    simpa [Except.bind] using e2
  | asEnd ht hk => exact ⟨1, by simp only [exec]; rw [as_loop_cons 0 _ ht, if_pos hk]⟩
  | asBreak ht hk h1 h2 =>
    exact ⟨1, by simp only [exec]; rw [as_loop_cons 0 _ ht]; simp [hk, h1, h2]⟩
  | asAdd ht hk h1 _ _ ih1 ih2 =>
    obtain ⟨f1, hf1⟩ := ih1
    obtain ⟨f2, hf2⟩ := ih2
    refine ⟨max f1 f2 + 1, ?_⟩
    have e1 := exec_ok_le (Nat.le_max_left f1 f2) hf1
    have e2 := exec_ok_le (Nat.le_max_right f1 f2) hf2
    simp only [exec] at e1 e2 ⊢
    rw [as_loop_cons _ _ ht, if_neg hk, if_pos h1, e1]
    simpa [Except.bind] using e2
  | asSub ht hk h1 h2 _ _ ih1 ih2 =>
    obtain ⟨f1, hf1⟩ := ih1
    obtain ⟨f2, hf2⟩ := ih2
    refine ⟨max f1 f2 + 1, ?_⟩
    have e1 := exec_ok_le (Nat.le_max_left f1 f2) hf1
    have e2 := exec_ok_le (Nat.le_max_right f1 f2) hf2
    simp only [exec] at e1 e2 ⊢
    rw [as_loop_cons _ _ ht, if_neg hk, if_neg (by simp [h1]), if_pos h2, e1]
    simpa [Except.bind] using e2

/-! ## What a successful run consumes, and the budget of `AST` -/

/-- A successful call moves the cursor forward over a list of tokens none of which is the
end-of-input token; a grammar function moves it over at least one token. It does not touch
`root`. -/
theorem Run.consumed {c : Call} {s : State} {n : Node} {s1 : State} (h : Run c s n s1) :
    ∃ l, s.token = l ++ s1.token ∧ (∀ t ∈ l, t.kind ≠ TK_EOF) ∧ (c.isLoop = false → l ≠ []) := by
  induction h with
  | @num s t rest ht ho hi => exact ⟨[t], by simp [ht], by simp [hi], by simp⟩
  | @bracket s s2 t t2 rest rest2 n ht ho _ h2 hc ih =>
    obtain ⟨l, hl, hne, _⟩ := ih
    simp only at hl
    refine ⟨t :: l ++ [t2], by simp [ht, hl, h2], ?_, by simp⟩
    intro x hx
    simp only [List.cons_append, List.mem_cons, List.mem_append, List.mem_singleton,
      List.not_mem_nil, or_false] at hx
    rcases hx with rfl | hx | rfl
    · intro hk; simp [isOpen, hk] at ho
    · exact hne x hx
    · intro hk; simp [isClosed, hk] at hc
  | md _ _ ih1 ih2 =>
    obtain ⟨l1, hl1, hne1, hp1⟩ := ih1
    obtain ⟨l2, hl2, hne2, _⟩ := ih2
    refine ⟨l1 ++ l2, by simp [hl1, hl2], ?_, ?_⟩
    · intro x hx
      rcases List.mem_append.mp hx with hx | hx
      · exact hne1 x hx
      · exact hne2 x hx
    · intro _ h0
      exact hp1 rfl (List.append_eq_nil.mp h0).1
  | mdEnd ht hk => exact ⟨[], by simp, by simp, by simp [Call.isLoop]⟩
  | mdBreak ht hk h1 h2 => exact ⟨[], by simp, by simp, by simp [Call.isLoop]⟩
  | @mdMul s s2 s3 t rest node r n1 ht hk h1 _ _ ih1 ih2 =>
    obtain ⟨l1, hl1, hne1, _⟩ := ih1
    obtain ⟨l2, hl2, hne2, _⟩ := ih2
    simp only at hl1 hl2
    refine ⟨t :: l1 ++ l2, by simp [ht, hl1, hl2], ?_, by simp [Call.isLoop]⟩
    intro x hx
    simp only [List.cons_append, List.mem_cons, List.mem_append] at hx
    rcases hx with rfl | hx | hx
    · exact hk
    · exact hne1 x hx
    · exact hne2 x hx
  | @mdDiv s s2 s3 t rest node r n1 ht hk h1 h2 _ _ ih1 ih2 =>
    obtain ⟨l1, hl1, hne1, _⟩ := ih1
    obtain ⟨l2, hl2, hne2, _⟩ := ih2
    simp only at hl1 hl2
    refine ⟨t :: l1 ++ l2, by simp [ht, hl1, hl2], ?_, by simp [Call.isLoop]⟩
    intro x hx
    simp only [List.cons_append, List.mem_cons, List.mem_append] at hx
    rcases hx with rfl | hx | hx
    · exact hk
    · exact hne1 x hx
    · exact hne2 x hx
  | as _ _ ih1 ih2 =>
    obtain ⟨l1, hl1, hne1, hp1⟩ := ih1
    obtain ⟨l2, hl2, hne2, _⟩ := ih2
    refine ⟨l1 ++ l2, by simp [hl1, hl2], ?_, ?_⟩
    · intro x hx
      rcases List.mem_append.mp hx with hx | hx
      · exact hne1 x hx
      · exact hne2 x hx
    · intro _ h0
      exact hp1 rfl (List.append_eq_nil.mp h0).1
  | asEnd ht hk => exact ⟨[], by simp, by simp, by simp [Call.isLoop]⟩
  | asBreak ht hk h1 h2 => exact ⟨[], by simp, by simp, by simp [Call.isLoop]⟩
  | @asAdd s s2 s3 t rest node r n1 ht hk h1 _ _ ih1 ih2 =>
    obtain ⟨l1, hl1, hne1, _⟩ := ih1
    obtain ⟨l2, hl2, hne2, _⟩ := ih2
    simp only at hl1 hl2
    refine ⟨t :: l1 ++ l2, by simp [ht, hl1, hl2], ?_, by simp [Call.isLoop]⟩
    intro x hx
    simp only [List.cons_append, List.mem_cons, List.mem_append] at hx
    rcases hx with rfl | hx | hx
    · exact hk
    · exact hne1 x hx
    · exact hne2 x hx
  | @asSub s s2 s3 t rest node r n1 ht hk h1 h2 _ _ ih1 ih2 =>
    obtain ⟨l1, hl1, hne1, _⟩ := ih1
    obtain ⟨l2, hl2, hne2, _⟩ := ih2
    simp only at hl1 hl2
    refine ⟨t :: l1 ++ l2, by simp [ht, hl1, hl2], ?_, by simp [Call.isLoop]⟩
    intro x hx
    simp only [List.cons_append, List.mem_cons, List.mem_append] at hx
    rcases hx with rfl | hx | hx
    · exact hk
    · exact hne1 x hx
    · exact hne2 x hx

theorem Run.length_le {c : Call} {s : State} {n : Node} {s1 : State} (h : Run c s n s1) :
    s1.token.length ≤ s.token.length := by
  obtain ⟨l, hl, _, _⟩ := h.consumed
  rw [hl]; simp

theorem Run.length_lt {c : Call} {s : State} {n : Node} {s1 : State} (h : Run c s n s1)
    (hc : c.isLoop = false) : s1.token.length < s.token.length := by
  obtain ⟨l, hl, _, hne⟩ := h.consumed
  have := List.length_pos.mpr (hne hc)
  rw [hl]; simp; omega

theorem notOOF_bind {α β : Type} {x : Exec α} {f : α → Exec β}
    (hx : NotOOF x) (hf : ∀ a, x = .ok a → NotOOF (f a)) : NotOOF (x.bind f) := by
  cases x with
  | error e => intro s1 h; exact hx s1 (by cases h; rfl)
  | ok a => simpa [Except.bind] using hf a rfl

theorem notOOF_closeBracket (p : Node × State) : NotOOF (closeBracket p) := by
  intro s1 h
  unfold closeBracket at h
  split at h
  · cases h
  · split at h <;> cases h

/-- The recursion budget `Call.need` is never used up. -/
theorem fuel_enough (fuel : Nat) :
    ∀ (c : Call) (s : State), c.need s.token.length ≤ fuel → NotOOF (exec c fuel s) := by
  induction fuel with
  | zero =>
    intro c s h
    cases c <;> simp [Call.need] at h
  | succ fuel ih =>
    intro c s h
    cases c with
    | nob =>
      simp only [exec, Call.need] at h ⊢
      cases ht : s.token with
      | nil => rw [nob_nil _ ht]; intro s1 h1; cases h1
      | cons t rest =>
        rw [ht, List.length_cons] at h
        by_cases ho : isOpen t = true
        · rw [nob_open _ ht ho]
          refine notOOF_bind (ih .as _ ?_) (fun a _ => notOOF_closeBracket a)
          simp only [Call.need]; omega
        · have ho2 : isOpen t = false := by simpa using ho
          by_cases hi : t.kind = TK_INTEGER
          · rw [nob_num _ ht ho2 hi]; exact notOOF_ok _
          · rw [nob_bad _ ht ho2 hi]; intro s1 h1; cases h1
    | md =>
      simp only [exec, Call.need] at h ⊢
      rw [md_succ]
      refine notOOF_bind (ih .nob _ (by simp only [Call.need]; omega)) (fun a ha => ?_)
      have hlt := (run_of_exec fuel .nob s a.1 a.2 ha).length_lt rfl
      exact ih (.mdLoop a.1) a.2 (by simp only [Call.need]; omega)
    | as =>
      simp only [exec, Call.need] at h ⊢
      rw [as_succ]
      refine notOOF_bind (ih .md _ (by simp only [Call.need]; omega)) (fun a ha => ?_)
      have hlt := (run_of_exec fuel .md s a.1 a.2 ha).length_lt rfl
      exact ih (.asLoop a.1) a.2 (by simp only [Call.need]; omega)
    | mdLoop node =>
      simp only [exec, Call.need] at h ⊢
      cases ht : s.token with
      | nil => rw [md_loop_nil _ _ ht]; intro s1 h1; cases h1
      | cons t rest =>
        rw [ht, List.length_cons] at h
        rw [md_loop_cons _ _ ht]
        have key : NotOOF ((_num_or_bracket fuel { s with token := rest }).bind (fun p =>
            _mul_or_div_loop fuel (.node ND_MUL (.op ['*']) node p.1)
              { p.2 with node_num := wrap_int (p.2.node_num + 1) })) ∧
            NotOOF ((_num_or_bracket fuel { s with token := rest }).bind (fun p =>
            _mul_or_div_loop fuel (.node ND_DIV (.op ['/']) node p.1)
              { p.2 with node_num := wrap_int (p.2.node_num + 1) })) := by
          constructor
          all_goals
            refine notOOF_bind (ih .nob _ (by simp only [Call.need]; omega)) (fun a ha => ?_)
            have hlt := (run_of_exec fuel .nob _ a.1 a.2 ha).length_lt rfl
            simp only at hlt
            exact ih (.mdLoop _) _ (by simp only [Call.need]; omega)
        split
        · exact notOOF_ok _
        · split
          · exact key.1
          · split
            · exact key.2
            · exact notOOF_ok _
    | asLoop node =>
      simp only [exec, Call.need] at h ⊢
      cases ht : s.token with
      | nil => rw [as_loop_nil _ _ ht]; intro s1 h1; cases h1
      | cons t rest =>
        rw [ht, List.length_cons] at h
        rw [as_loop_cons _ _ ht]
        have key : NotOOF ((_mul_or_div fuel { s with token := rest }).bind (fun p =>
            _add_or_sub_loop fuel (.node ND_ADD (.op ['+']) node p.1)
              { p.2 with node_num := wrap_int (p.2.node_num + 1) })) ∧
            NotOOF ((_mul_or_div fuel { s with token := rest }).bind (fun p =>
            _add_or_sub_loop fuel (.node ND_SUB (.op ['-']) node p.1)
              { p.2 with node_num := wrap_int (p.2.node_num + 1) })) := by
          constructor
          all_goals
            refine notOOF_bind (ih .md _ (by simp only [Call.need]; omega)) (fun a ha => ?_)
            have hlt := (run_of_exec fuel .md _ a.1 a.2 ha).length_lt rfl
            simp only at hlt
            exact ih (.asLoop _) _ (by simp only [Call.need]; omega)
        split
        · exact notOOF_ok _
        · split
          · exact key.1
          · split
            · exact key.2
            · exact notOOF_ok _

/-- The budget `AST` hands to `_add_or_sub` is never used up. -/
theorem AST_fuel_enough (s : State) : NotOOF (_add_or_sub (3 * s.token.length + 3) s) :=
  fuel_enough _ .as s (Nat.le_refl _)

/-- The grammar functions with the budget of `AST` agree with every successful run. -/
theorem add_or_sub_of_run {s : State} {n : Node} {s1 : State} (h : Run .as s n s1)
    {fuel : Nat} (hf : 3 * s.token.length + 3 ≤ fuel) : _add_or_sub fuel s = .ok (n, s1) := by
  obtain ⟨f0, h0⟩ := exec_of_run h
  have h1 : NotOOF (exec .as fuel s) := fuel_enough fuel .as s hf
  have e1 := exec_le (Nat.le_max_left fuel f0) h1
  have e2 := exec_ok_le (Nat.le_max_right fuel f0) h0
  simp only [exec] at e1 e2 h0
  rw [← e1, e2]

/-- `AST` succeeds exactly on the successful runs of `_add_or_sub`, and stores the node. -/
theorem AST_eq_ok_iff {s s2 : State} :
    AST s = .ok s2 ↔ ∃ n s1, Run .as s n s1 ∧ s2 = { s1 with root := n } := by
  constructor
  · intro h
    simp only [AST, bind, Except.bind, pure, Except.pure] at h
    split at h
    · cases h
    · rename_i p hp
      cases h
      obtain ⟨n, s1⟩ := p
      exact ⟨n, s1, run_of_exec (3 * s.token.length + 3) .as s n s1 hp, rfl⟩
  · rintro ⟨n, s1, hr, rfl⟩
    simp [AST, add_or_sub_of_run hr (Nat.le_refl _), bind, Except.bind, pure, Except.pure]

/-! ## Matching a one-character pattern -/

theorem char_toNat_sub_ne_zero {a b : Char} (h : a ≠ b) : (a.toNat : Int) - (b.toNat : Int) ≠ 0 := by
  intro h0
  apply h
  have h1 : a.toNat = b.toNat := by omega
  rw [← Char.ofNat_toNat a, h1, Char.ofNat_toNat]

theorem strncmp_nil (y : List Char) (n : Nat) :
    strncmp y [] n = 0 ↔ n = 0 ∨ y.headD '\x00' = '\x00' := by
  cases n with
  | zero => simp [strncmp]
  | succ n =>
    rw [strncmp]
    simp only [List.headD_nil]
    generalize y.headD '\x00' = a
    by_cases h : a = '\x00'
    · simp [h]
    · have h0 := char_toNat_sub_ne_zero h
      simp only [ne_eq, h, not_false_eq_true, if_true, Nat.succ_ne_zero, false_or, iff_false]
      exact h0

/-- `strncmp(x, c, n) == 0` for a pattern `c` of one character. -/
theorem strncmp_single (x : List Char) (c : Char) (n : Nat) (hc : c ≠ '\x00') :
    strncmp x [c] n = 0 ↔
      n = 0 ∨ (x.headD '\x00' = c ∧ (n = 1 ∨ x.tail.headD '\x00' = '\x00')) := by
  cases n with
  | zero => simp [strncmp]
  | succ n =>
    rw [strncmp]
    simp only [List.headD_cons, List.tail_cons]
    generalize x.headD '\x00' = a
    by_cases h : a = c
    · subst h
      simp only [ne_eq, not_true_eq_false, if_false, if_neg hc, strncmp_nil]
      simp
    · simp [h, char_toNat_sub_ne_zero h]

theorem strncpy_of_text {t : Token} {ch : Char} (h : t.text = [ch]) (hch : ch ≠ '\x00') :
    (strncpy t.code t.len).headD '\x00' = ch ∧
      (t.len = 1 ∨ (strncpy t.code t.len).tail.headD '\x00' = '\x00') := by
  unfold Token.text at h
  cases hl : t.len with
  | zero => simp [hl] at h
  | succ m =>
    cases hc : t.code with
    | nil => simp [hl, hc] at h
    | cons c0 cs =>
      rw [hl, hc, List.take_succ_cons] at h
      simp only [List.cons.injEq] at h
      obtain ⟨rfl, h2⟩ := h
      cases m with
      | zero => simp [strncpy, hch]
      | succ m =>
        have hcs : cs = [] := by
          cases cs with
          | nil => rfl
          | cons c1 cs => simp at h2
        subst hcs
        simp [strncpy, hch, List.replicate_succ]

/-- A token whose raw text is the single character `ch` matches exactly the pattern `ch`. -/
theorem tokMatch_of_text {t : Token} {ch : Char} (c : Char) (h : t.text = [ch])
    (hch : ch ≠ '\x00') (hc : c ≠ '\x00') : tokMatch t [c] = decide (ch = c) := by
  obtain ⟨h1, h2⟩ := strncpy_of_text h hch
  have hl : t.len ≠ 0 := by
    intro h0
    simp [Token.text, h0] at h
  by_cases hcc : ch = c
  · subst hcc
    simp only [tokMatch, decide_True, decide_eq_true_eq]
    exact (strncmp_single _ _ _ hc).mpr (Or.inr ⟨h1, h2⟩)
  · simp only [tokMatch, hcc, decide_False, decide_eq_false_iff_not]
    intro h0
    rcases (strncmp_single _ _ _ hc).mp h0 with h3 | ⟨h3, _⟩
    · exact hl h3
    · exact hcc (h1 ▸ h3)

/-! ## lookahead over `k` tokens -/

theorem expect_not_at_end_cons {s : State} {t : Token} {rest : List Token}
    (h : s.token = t :: rest) (hk : t.kind ≠ TK_EOF) : _expect_not_at_end s = .ok () := by
  simp [_expect_not_at_end, at_end_cons h, hk, bind, Except.bind, pure, Except.pure]

theorem lookahead_siz_eq {s : State} {t : Token} {rest : List Token}
    (h : s.token = t :: rest) (hk : t.kind ≠ TK_EOF) :
    ∀ (k : Nat) (tmp : List Token) (siz : Nat), k ≤ tmp.length →
      lookahead_siz s k tmp siz = .ok (siz + lookSiz (tmp.take k)) := by
  intro k
  induction k with
  | zero => intro tmp siz _; simp [lookahead_siz, lookSiz, pure, Except.pure]
  | succ k ih =>
    intro tmp siz hle
    cases tmp with
    | nil => simp at hle
    | cons x tmp =>
      simp only [List.length_cons, Nat.add_le_add_iff_right] at hle
      simp only [lookahead_siz, expect_not_at_end_cons h hk, bind, Except.bind, ih tmp _ hle]
      simp [lookSiz, Nat.add_assoc]

theorem lookahead_text_eq (s : State) :
    ∀ (k : Nat) (tmp : List Token), k ≤ tmp.length →
      lookahead_text s k tmp = .ok (lookText (tmp.take k)) := by
  intro k
  induction k with
  | zero => intro tmp _; simp [lookahead_text, lookText, pure, Except.pure]
  | succ k ih =>
    intro tmp hle
    cases tmp with
    | nil => simp at hle
    | cons x tmp =>
      simp only [List.length_cons, Nat.add_le_add_iff_right] at hle
      simp [lookahead_text, ih tmp hle, bind, Except.bind, pure, Except.pure, lookText]

theorem at_end_k_loop_eq {s : State} {t : Token} {rest : List Token}
    (h : s.token = t :: rest) (hk : t.kind ≠ TK_EOF) :
    ∀ (k : Nat) (copy : List Token), k ≤ copy.length → _at_end_k_loop s k copy = .ok false := by
  intro k
  induction k with
  | zero => intro copy _; simp [_at_end_k_loop, pure, Except.pure]
  | succ k ih =>
    intro copy hle
    cases copy with
    | nil => simp at hle
    | cons x copy =>
      simp only [List.length_cons, Nat.add_le_add_iff_right] at hle
      simp [_at_end_k_loop, at_end_cons h, hk, ih copy hle, bind, Except.bind]

theorem eat_k_eq : ∀ (k : Nat) (s : State), k ≤ s.token.length →
    _eat_k k s = .ok { s with token := s.token.drop k } := by
  intro k
  induction k with
  | zero => intro s _; simp [_eat_k, pure, Except.pure]
  | succ k ih =>
    intro s hle
    cases ht : s.token with
    | nil => simp [ht] at hle
    | cons x l =>
      simp only [ht, List.length_cons, Nat.add_le_add_iff_right] at hle
      simp only [_eat_k, _eat, ht, bind, Except.bind]
      rw [ih _ (by simpa using hle)]
      simp

/-- The call `lookahead(k, c)` on a cursor that is not on the end-of-input token and has `k`
tokens from the cursor on: the result is the outcome of `strncmp(text, c, siz)`, and the
cursor moves over the `k` tokens exactly when the call returns true. -/
theorem lookahead_eq {s : State} {t : Token} {rest : List Token} (k : Nat) (c : List Char)
    (h : s.token = t :: rest) (hk : t.kind ≠ TK_EOF) (hle : k ≤ s.token.length) :
    lookahead k c s
      = .ok (if strncmp (lookText (s.token.take k)) c (lookSiz (s.token.take k)) = 0
          then (true, { s with token := s.token.drop k }) else (false, s)) := by
  simp only [lookahead, lookahead_siz_eq h hk k _ 0 hle, lookahead_text_eq s k _ hle, _at_end_k,
    at_end_k_loop_eq h hk k _ hle, eat_k_eq k s hle, bind, Except.bind, pure, Except.pure,
    Nat.zero_add]
  by_cases h0 : strncmp (lookText (s.token.take k)) c (lookSiz (s.token.take k)) = 0
  · simp [h0]
  · simp [h0]

/-! ## Building runs -/

theorem isOpen_of_integer {t : Token} (h : t.kind = TK_INTEGER) : isOpen t = false := by
  simp [isOpen, h]

theorem isOpen_of_eof {t : Token} (h : t.kind = TK_EOF) : isOpen t = false := by
  simp [isOpen, h]

theorem AST_of_run {s : State} {n : Node} {s1 : State} (h : Run .as s n s1) :
    AST s = .ok { s1 with root := n } :=
  AST_eq_ok_iff.mpr ⟨n, s1, h, rfl⟩

theorem run_num {t : Token} (rest : List Token) (r : Node) (nn : Int)
    (h : t.kind = TK_INTEGER) :
    Run .nob ⟨t :: rest, r, nn⟩ (Number t.val) ⟨rest, r, wrap_int (nn + 1)⟩ :=
  Run.num (s := ⟨t :: rest, r, nn⟩) rfl (isOpen_of_integer h) h

theorem IsOpTok.not_eof {k : NodeKind} {o : Token} (h : IsOpTok k o) : o.kind ≠ TK_EOF := by
  rw [h.2.1]; decide

theorem IsOpTok.tokMatch {k : NodeKind} {o : Token} (h : IsOpTok k o) (c : Char)
    (hc : c ≠ '\x00') : tokMatch o [c] = decide (opText k = [c]) := by
  obtain ⟨hk, _, ht⟩ := h
  cases k with
  | ND_NUM => exact absurd rfl hk
  | ND_ADD => rw [tokMatch_of_text c ht (by decide) hc]; simp [opText]
  | ND_SUB => rw [tokMatch_of_text c ht (by decide) hc]; simp [opText]
  | ND_MUL => rw [tokMatch_of_text c ht (by decide) hc]; simp [opText]
  | ND_DIV => rw [tokMatch_of_text c ht (by decide) hc]; simp [opText]

/-- One turn of the loop of `_mul_or_div` on a `*` or `/` token. -/
theorem run_md_step {k : NodeKind} {o : Token} {rest : List Token} {r : Node} {nn : Int}
    {acc n1 n2 : Node} {s2 s3 : State} (hk : k = ND_MUL ∨ k = ND_DIV) (ho : IsOpTok k o)
    (h1 : Run .nob ⟨rest, r, nn⟩ n1 s2)
    (h2 : Run (.mdLoop (BinaryOp k acc n1)) { s2 with node_num := wrap_int (s2.node_num + 1) } n2 s3) :
    Run (.mdLoop acc) ⟨o :: rest, r, nn⟩ n2 s3 := by
  rcases hk with rfl | rfl
  · exact Run.mdMul (s := ⟨o :: rest, r, nn⟩) rfl ho.not_eof
      (by rw [ho.tokMatch _ (by decide)]; simp [opText]) h1 h2
  · exact Run.mdDiv (s := ⟨o :: rest, r, nn⟩) rfl ho.not_eof
      (by rw [ho.tokMatch _ (by decide)]; simp [opText])
      (by rw [ho.tokMatch _ (by decide)]; simp [opText]) h1 h2

/-- One turn of the loop of `_add_or_sub` on a `+` or `-` token. -/
theorem run_as_step {k : NodeKind} {o : Token} {rest : List Token} {r : Node} {nn : Int}
    {acc n1 n2 : Node} {s2 s3 : State} (hk : k = ND_ADD ∨ k = ND_SUB) (ho : IsOpTok k o)
    (h1 : Run .md ⟨rest, r, nn⟩ n1 s2)
    (h2 : Run (.asLoop (BinaryOp k acc n1)) { s2 with node_num := wrap_int (s2.node_num + 1) } n2 s3) :
    Run (.asLoop acc) ⟨o :: rest, r, nn⟩ n2 s3 := by
  rcases hk with rfl | rfl
  · exact Run.asAdd (s := ⟨o :: rest, r, nn⟩) rfl ho.not_eof
      (by rw [ho.tokMatch _ (by decide)]; simp [opText]) h1 h2
  · exact Run.asSub (s := ⟨o :: rest, r, nn⟩) rfl ho.not_eof
      (by rw [ho.tokMatch _ (by decide)]; simp [opText])
      (by rw [ho.tokMatch _ (by decide)]; simp [opText]) h1 h2

/-- The loop of `_mul_or_div` stops in front of a `+` or `-` token. -/
theorem run_md_stop_op {k : NodeKind} {o : Token} (rest : List Token) (r : Node) (nn : Int)
    (acc : Node) (hk : k = ND_ADD ∨ k = ND_SUB) (ho : IsOpTok k o) :
    Run (.mdLoop acc) ⟨o :: rest, r, nn⟩ acc ⟨o :: rest, r, nn⟩ := by
  rcases hk with rfl | rfl <;>
  exact Run.mdBreak (s := ⟨o :: rest, r, nn⟩) rfl ho.not_eof
      (by rw [ho.tokMatch _ (by decide)]; simp [opText])
      (by rw [ho.tokMatch _ (by decide)]; simp [opText])

theorem run_md_end {e : Token} (rest : List Token) (r : Node) (nn : Int) (acc : Node)
    (he : e.kind = TK_EOF) : Run (.mdLoop acc) ⟨e :: rest, r, nn⟩ acc ⟨e :: rest, r, nn⟩ :=
  Run.mdEnd (s := ⟨e :: rest, r, nn⟩) rfl he

theorem run_as_end {e : Token} (rest : List Token) (r : Node) (nn : Int) (acc : Node)
    (he : e.kind = TK_EOF) : Run (.asLoop acc) ⟨e :: rest, r, nn⟩ acc ⟨e :: rest, r, nn⟩ :=
  Run.asEnd (s := ⟨e :: rest, r, nn⟩) rfl he

theorem run_md_fold (e : Token) (he : e.kind = TK_EOF) (r : Node)
    (ps : List (NodeKind × Token × Token)) :
    ∀ (acc : Node) (nn m : Int),
      (∀ p ∈ ps, (p.1 = ND_MUL ∨ p.1 = ND_DIV) ∧ IsOpTok p.1 p.2.1 ∧ p.2.2.kind = TK_INTEGER) →
      wrap_int nn = nn → m = wrap_int (nn + 2 * (ps.length : Int)) →
      Run (.mdLoop acc) ⟨opSeq ps ++ [e], r, nn⟩ (leftFold acc ps) ⟨[e], r, m⟩ := by
  induction ps with
  | nil =>
    intro acc nn m _ hnn hm
    simp only [List.length_nil, Nat.cast_zero, mul_zero, add_zero, hnn] at hm
    subst hm
    exact run_md_end [] r _ acc he
  | cons p ps ih =>
    intro acc nn m hps _ hm
    obtain ⟨k, o, n⟩ := p
    obtain ⟨hk, ho, hn⟩ := hps (k, o, n) (List.mem_cons_self _ _)
    have hrest := ih (BinaryOp k acc (Number n.val)) (wrap_int (wrap_int (nn + 1) + 1)) m
      (fun q hq => hps q (List.mem_cons_of_mem _ hq)) (wrap_int_idem _)
      (by
        rw [hm]
        simp only [List.length_cons]
        push_cast
        unfold wrap_int
        omega)
    exact run_md_step hk ho (run_num _ r nn hn) hrest

theorem run_md_stop_seq (e : Token) (he : e.kind = TK_EOF) (r : Node) (nn : Int) (acc : Node)
    (ps : List (NodeKind × Token × Token))
    (hps : ∀ p ∈ ps, (p.1 = ND_ADD ∨ p.1 = ND_SUB) ∧ IsOpTok p.1 p.2.1 ∧ p.2.2.kind = TK_INTEGER) :
    Run (.mdLoop acc) ⟨opSeq ps ++ [e], r, nn⟩ acc ⟨opSeq ps ++ [e], r, nn⟩ := by
  cases ps with
  | nil => exact run_md_end [] r nn acc he
  | cons p ps =>
    obtain ⟨k, o, n⟩ := p
    obtain ⟨hk, ho, _⟩ := hps (k, o, n) (List.mem_cons_self _ _)
    exact run_md_stop_op _ r nn acc hk ho

theorem run_as_fold (e : Token) (he : e.kind = TK_EOF) (r : Node)
    (ps : List (NodeKind × Token × Token)) :
    ∀ (acc : Node) (nn m : Int),
      (∀ p ∈ ps, (p.1 = ND_ADD ∨ p.1 = ND_SUB) ∧ IsOpTok p.1 p.2.1 ∧ p.2.2.kind = TK_INTEGER) →
      wrap_int nn = nn → m = wrap_int (nn + 2 * (ps.length : Int)) →
      Run (.asLoop acc) ⟨opSeq ps ++ [e], r, nn⟩ (leftFold acc ps) ⟨[e], r, m⟩ := by
  induction ps with
  | nil =>
    intro acc nn m _ hnn hm
    simp only [List.length_nil, Nat.cast_zero, mul_zero, add_zero, hnn] at hm
    subst hm
    exact run_as_end [] r _ acc he
  | cons p ps ih =>
    intro acc nn m hps _ hm
    obtain ⟨k, o, n⟩ := p
    obtain ⟨hk, ho, hn⟩ := hps (k, o, n) (List.mem_cons_self _ _)
    have hps2 := fun q hq => hps q (List.mem_cons_of_mem (k, o, n) hq)
    have hrest := ih (BinaryOp k acc (Number n.val)) (wrap_int (wrap_int (nn + 1) + 1)) m
      hps2 (wrap_int_idem _)
      (by
        rw [hm]
        simp only [List.length_cons]
        push_cast
        unfold wrap_int
        omega)
    exact run_as_step hk ho
      (Run.md (run_num _ r nn hn) (run_md_stop_seq e he r _ _ ps hps2)) hrest

/-! ## Invariants of successful runs -/

/-- No call writes `root`. -/
theorem Run.root {c : Call} {s : State} {n : Node} {s1 : State} (h : Run c s n s1) :
    s1.root = s.root := by
  induction h with
  | num _ _ _ => rfl
  | bracket _ _ _ _ _ ih => exact ih
  | md _ _ ih1 ih2 => exact ih2.trans ih1
  | mdEnd _ _ => rfl
  | mdBreak _ _ _ _ => rfl
  | mdMul _ _ _ _ _ ih1 ih2 => exact ih2.trans ih1
  | mdDiv _ _ _ _ _ _ ih1 ih2 => exact ih2.trans ih1
  | as _ _ ih1 ih2 => exact ih2.trans ih1
  | asEnd _ _ => rfl
  | asBreak _ _ _ _ => rfl
  | asAdd _ _ _ _ _ ih1 ih2 => exact ih2.trans ih1
  | asSub _ _ _ _ _ _ ih1 ih2 => exact ih2.trans ih1

/-- Every run with a budget of `Call.need` or more agrees with the derivation. -/
theorem exec_of_run_need {c : Call} {s : State} {n : Node} {s1 : State} (h : Run c s n s1)
    {fuel : Nat} (hf : c.need s.token.length ≤ fuel) : exec c fuel s = .ok (n, s1) := by
  obtain ⟨f0, h0⟩ := exec_of_run h
  have h1 : NotOOF (exec c fuel s) := fuel_enough fuel c s hf
  have e1 := exec_le (Nat.le_max_left fuel f0) h1
  have e2 := exec_ok_le (Nat.le_max_right fuel f0) h0
  rw [← e1, e2]

theorem Run.stops {c : Call} {s : State} {n : Node} {s1 : State} (h : Run c s n s1) :
    c.stops s s1 := by
  induction h with
  | num _ _ _ => trivial
  | bracket _ _ _ _ _ _ => trivial
  | md _ _ _ ih2 => exact ih2
  | mdEnd ht hk => exact ⟨_, _, ht, Or.inl hk⟩
  | mdBreak ht hk h1 h2 => exact ⟨_, _, ht, Or.inr ⟨h1, h2⟩⟩
  | mdMul _ _ _ _ _ _ ih2 => exact ih2
  | mdDiv _ _ _ _ _ _ _ ih2 => exact ih2
  | as _ _ ih1 ih2 => exact ih2 ih1
  | asEnd ht hk => intro _; exact ⟨_, _, ht, Or.inl hk⟩
  | asBreak ht hk h1 h2 =>
    rintro ⟨t, rest, ht2, hs⟩
    rw [ht] at ht2
    cases ht2
    rcases hs with hs | hs
    · exact ⟨_, _, ht, Or.inl hs⟩
    · exact ⟨_, _, ht, Or.inr ⟨h1, h2, hs.1, hs.2⟩⟩
  | asAdd _ _ _ _ _ ih1 ih2 =>
    intro _
    exact ih2 (by obtain ⟨t, rest, ht, hs⟩ := ih1; exact ⟨t, rest, ht, hs⟩)
  | asSub _ _ _ _ _ _ ih1 ih2 =>
    intro _
    exact ih2 (by obtain ⟨t, rest, ht, hs⟩ := ih1; exact ⟨t, rest, ht, hs⟩)

theorem cons_eq_append_eof {t e : Token} {rest l : List Token} (he : e.kind = TK_EOF)
    (ht : t.kind ≠ TK_EOF) (h : t :: rest = l ++ [e]) : ∃ l2, l = t :: l2 ∧ rest = l2 ++ [e] := by
  cases l with
  | nil =>
    simp only [List.nil_append, List.cons.injEq] at h
    exact absurd (h.1 ▸ he) ht
  | cons a l2 =>
    simp only [List.cons_append, List.cons.injEq] at h
    exact ⟨l2, by rw [h.1], h.2⟩

theorem isOpen_not_eof {t : Token} (h : isOpen t = true) : t.kind ≠ TK_EOF := by
  intro hk; simp [isOpen, hk] at h

theorem isClosed_not_eof {t : Token} (h : isClosed t = true) : t.kind ≠ TK_EOF := by
  intro hk; simp [isClosed, hk] at h

/-- A run on tokens that end with the end-of-input token `e` is also a run when `e` is
replaced by a token `x` in front of which both loops stop, followed by anything. -/
theorem Run.extend_stop {x e : Token} (tl : List Token) (hx : x.kind = TK_EOF ∨ NoOp x)
    (he : e.kind = TK_EOF)
    {c : Call} {s : State} {n : Node} {s1 : State} (h : Run c s n s1) :
    ∀ l, s.token = l ++ [e] → ∃ l1, s1.token = l1 ++ [e] ∧
      Run c { s with token := l ++ x :: tl } n { s1 with token := l1 ++ x :: tl } := by
  have stopMd : ∀ (s : State) (node : Node) (l : List Token) (t : Token) (rest : List Token),
      s.token = t :: rest → t.kind = TK_EOF → s.token = l ++ [e] →
      Run (.mdLoop node) { s with token := l ++ x :: tl } node
        { s with token := l ++ x :: tl } := by
    intro s node l t rest ht hk hl
    cases l with
    | nil =>
      by_cases hxe : x.kind = TK_EOF
      · exact Run.mdEnd (s := { s with token := [] ++ x :: tl }) rfl hxe
      · have hno : NoOp x := hx.resolve_left hxe
        exact Run.mdBreak (s := { s with token := [] ++ x :: tl }) rfl hxe hno.2.2.1 hno.2.2.2
    | cons a l =>
      rw [ht] at hl
      cases hl
      exact Run.mdEnd (s := { s with token := (t :: l) ++ x :: tl }) rfl hk
  have stopAs : ∀ (s : State) (node : Node) (l : List Token) (t : Token) (rest : List Token),
      s.token = t :: rest → t.kind = TK_EOF → s.token = l ++ [e] →
      Run (.asLoop node) { s with token := l ++ x :: tl } node
        { s with token := l ++ x :: tl } := by
    intro s node l t rest ht hk hl
    cases l with
    | nil =>
      by_cases hxe : x.kind = TK_EOF
      · exact Run.asEnd (s := { s with token := [] ++ x :: tl }) rfl hxe
      · have hno : NoOp x := hx.resolve_left hxe
        exact Run.asBreak (s := { s with token := [] ++ x :: tl }) rfl hxe hno.1 hno.2.1
    | cons a l =>
      rw [ht] at hl
      cases hl
      exact Run.asEnd (s := { s with token := (t :: l) ++ x :: tl }) rfl hk
  induction h with
  | @num s t rest ht ho hi =>
    intro l hl
    rw [ht] at hl
    obtain ⟨l2, rfl, rfl⟩ := cons_eq_append_eof he (by rw [hi]; decide) hl
    exact ⟨l2, rfl, Run.num (s := { s with token := (t :: l2) ++ x :: tl }) rfl ho hi⟩
  | @bracket s s2 t t2 rest rest2 n ht ho _ h2 hc ih =>
    intro l hl
    rw [ht] at hl
    obtain ⟨l2, rfl, rfl⟩ := cons_eq_append_eof he (isOpen_not_eof ho) hl
    obtain ⟨l1, hl1, hrun⟩ := ih l2 rfl
    rw [h2] at hl1
    obtain ⟨l3, rfl, rfl⟩ := cons_eq_append_eof he (isClosed_not_eof hc) hl1
    exact ⟨l3, rfl, @Run.bracket { s with token := (t :: l2) ++ x :: tl }
      { s2 with token := (t2 :: l3) ++ x :: tl } _ _ _ _ _ rfl ho hrun rfl hc⟩
  | md _ _ ih1 ih2 =>
    intro l hl
    obtain ⟨l1, hl1, hr1⟩ := ih1 l hl
    obtain ⟨l2, hl2, hr2⟩ := ih2 l1 hl1
    exact ⟨l2, hl2, Run.md hr1 hr2⟩
  | @mdEnd s t rest node ht hk =>
    intro l hl
    exact ⟨l, hl, stopMd s node l t rest ht hk hl⟩
  | @mdBreak s t rest node ht hk h1 h2 =>
    intro l hl
    have hl0 := hl
    rw [ht] at hl
    obtain ⟨l2, rfl, rfl⟩ := cons_eq_append_eof he hk hl
    exact ⟨t :: l2, hl0,
      Run.mdBreak (s := { s with token := (t :: l2) ++ x :: tl }) rfl hk h1 h2⟩
  | @mdMul s s2 s3 t rest node r n1 ht hk h1 _ _ ih1 ih2 =>
    intro l hl
    rw [ht] at hl
    obtain ⟨l2, rfl, rfl⟩ := cons_eq_append_eof he hk hl
    obtain ⟨l1, hl1, hr1⟩ := ih1 l2 rfl
    obtain ⟨l3, hl3, hr2⟩ := ih2 l1 hl1
    exact ⟨l3, hl3, Run.mdMul (s := { s with token := (t :: l2) ++ x :: tl }) rfl hk h1 hr1 hr2⟩
  | @mdDiv s s2 s3 t rest node r n1 ht hk h1 h2 _ _ ih1 ih2 =>
    intro l hl
    rw [ht] at hl
    obtain ⟨l2, rfl, rfl⟩ := cons_eq_append_eof he hk hl
    obtain ⟨l1, hl1, hr1⟩ := ih1 l2 rfl
    obtain ⟨l3, hl3, hr2⟩ := ih2 l1 hl1
    exact ⟨l3, hl3,
      Run.mdDiv (s := { s with token := (t :: l2) ++ x :: tl }) rfl hk h1 h2 hr1 hr2⟩
  | as _ _ ih1 ih2 =>
    intro l hl
    obtain ⟨l1, hl1, hr1⟩ := ih1 l hl
    obtain ⟨l2, hl2, hr2⟩ := ih2 l1 hl1
    exact ⟨l2, hl2, Run.as hr1 hr2⟩
  | @asEnd s t rest node ht hk =>
    intro l hl
    exact ⟨l, hl, stopAs s node l t rest ht hk hl⟩
  | @asBreak s t rest node ht hk h1 h2 =>
    intro l hl
    have hl0 := hl
    rw [ht] at hl
    obtain ⟨l2, rfl, rfl⟩ := cons_eq_append_eof he hk hl
    exact ⟨t :: l2, hl0,
      Run.asBreak (s := { s with token := (t :: l2) ++ x :: tl }) rfl hk h1 h2⟩
  | @asAdd s s2 s3 t rest node r n1 ht hk h1 _ _ ih1 ih2 =>
    intro l hl
    rw [ht] at hl
    obtain ⟨l2, rfl, rfl⟩ := cons_eq_append_eof he hk hl
    obtain ⟨l1, hl1, hr1⟩ := ih1 l2 rfl
    obtain ⟨l3, hl3, hr2⟩ := ih2 l1 hl1
    exact ⟨l3, hl3, Run.asAdd (s := { s with token := (t :: l2) ++ x :: tl }) rfl hk h1 hr1 hr2⟩
  | @asSub s s2 s3 t rest node r n1 ht hk h1 h2 _ _ ih1 ih2 =>
    intro l hl
    rw [ht] at hl
    obtain ⟨l2, rfl, rfl⟩ := cons_eq_append_eof he hk hl
    obtain ⟨l1, hl1, hr1⟩ := ih1 l2 rfl
    obtain ⟨l3, hl3, hr2⟩ := ih2 l1 hl1
    exact ⟨l3, hl3,
      Run.asSub (s := { s with token := (t :: l2) ++ x :: tl }) rfl hk h1 h2 hr1 hr2⟩

/-- A run on tokens that end with the end-of-input token `e` is also a run when `e` is
replaced by a token `x` that matches no operator, followed by anything. -/
theorem Run.extend {x e : Token} (tl : List Token) (hx : NoOp x) (he : e.kind = TK_EOF)
    {c : Call} {s : State} {n : Node} {s1 : State} (h : Run c s n s1) :
    ∀ l, s.token = l ++ [e] → ∃ l1, s1.token = l1 ++ [e] ∧
      Run c { s with token := l ++ x :: tl } n { s1 with token := l1 ++ x :: tl } :=
  Run.extend_stop tl (Or.inr hx) he h

/-! ## Bracket tokens -/

theorem text_head {t : Token} {ch : Char} (h : t.text = [ch]) : t.code.headD '\x00' = ch := by
  unfold Token.text at h
  cases hc : t.code with
  | nil => simp [hc] at h
  | cons c0 cs =>
    cases hl : t.len with
    | zero => simp [hl] at h
    | succ m =>
      rw [hc, hl, List.take_succ_cons] at h
      simp only [List.cons.injEq] at h
      simp [h.1]

theorem IsPunc.isOpen {t : Token} (h : IsPunc '(' t) : isOpen t = true := by
  unfold Vcc.isOpen
  rw [text_head h.2, h.1]
  rfl

theorem IsPunc.isClosed {t : Token} (h : IsPunc ')' t) : isClosed t = true := by
  unfold Vcc.isClosed
  rw [text_head h.2, h.1]
  rfl

theorem IsPunc.noOp_closed {t : Token} (h : IsPunc ')' t) : NoOp t := by
  refine ⟨?_, ?_, ?_, ?_⟩ <;> rw [tokMatch_of_text _ h.2 (by decide) (by decide)] <;> decide

/-- The run of `_add_or_sub` behind a successful `AST()`. -/
theorem run_of_AST {tk tk1 : List Token} {r t : Node} {nn nn1 : Int}
    (h : AST ⟨tk, r, nn⟩ = .ok ⟨tk1, t, nn1⟩) : Run .as ⟨tk, r, nn⟩ t ⟨tk1, r, nn1⟩ := by
  obtain ⟨n, s1, hr, hs⟩ := AST_eq_ok_iff.mp h
  have hroot := hr.root
  obtain ⟨tk2, r2, nn2⟩ := s1
  simp only [State.mk.injEq] at hs
  obtain ⟨rfl, rfl, rfl⟩ := hs
  simp only at hroot
  subst hroot
  exact hr

/-! ## Tokens of a lexer -/

theorem strncpy_of_wf {t : Token} (h : t.wf) : strncpy t.code t.len = t.text := by
  obtain ⟨h0, hle, _, _⟩ := h
  have htw : t.code.takeWhile (fun ch => ch ≠ '\x00') = t.code := by
    rw [List.takeWhile_eq_self_iff]
    intro ch hch
    have : ch ≠ '\x00' := fun hc => h0 (hc ▸ hch)
    simpa using this
  simp only [strncpy, htw, Token.text]
  have hlen : (t.code.take t.len).length = t.len := by
    rw [List.length_take]; omega
  rw [hlen]
  simp

/-- A lexer token that `lookahead(1, c)` matches with the one-character pattern `c` has the
raw text `c`. -/
theorem text_of_tokMatch {t : Token} {c : Char} (hwf : t.wf) (hk : t.kind ≠ TK_EOF)
    (hc : c ≠ '\x00') (hm : tokMatch t [c] = true) : t.text = [c] := by
  have hcpy := strncpy_of_wf hwf
  obtain ⟨h0, hle, hne, _⟩ := hwf
  simp only [tokMatch, decide_eq_true_eq, hcpy] at hm
  have hlen : t.text.length = t.len := by
    simp only [Token.text, List.length_take]; omega
  have hmem : ∀ ch ∈ t.text, ch ≠ '\x00' := by
    intro ch hch hz
    exact h0 (hz ▸ List.mem_of_mem_take hch)
  rcases (strncmp_single _ _ _ hc).mp hm with h1 | ⟨h1, h2⟩
  · exact absurd h1 (hne hk)
  · cases htx : t.text with
    | nil => rw [htx] at hlen; exact absurd hlen.symm (hne hk)
    | cons a l =>
      rw [htx] at h1 h2 hlen hmem
      simp only [List.headD_cons] at h1
      subst h1
      cases l with
      | nil => rfl
      | cons b l =>
        exfalso
        rcases h2 with h2 | h2
        · rw [h2] at hlen; simp at hlen
        · simp only [List.tail_cons, List.headD_cons] at h2
          exact hmem b (by simp) h2

theorem isOperatorTok_of_tokMatch {t : Token} {c : Char} (hwf : t.wf) (hk : t.kind ≠ TK_EOF)
    (hc : c = '+' ∨ c = '-' ∨ c = '*' ∨ c = '/') (hm : tokMatch t [c] = true) :
    isOperatorTok t = true ∧ isIntegerTok t = false := by
  have hc0 : c ≠ '\x00' := by rcases hc with rfl | rfl | rfl | rfl <;> decide
  have htx := text_of_tokMatch hwf hk hc0 hm
  constructor
  · simp only [isOperatorTok, htx, decide_eq_true_eq]
    rcases hc with rfl | rfl | rfl | rfl <;> simp
  · simp only [isIntegerTok, decide_eq_false_iff_not]
    intro hi
    have hd := hwf.2.2.2 hi c (by rw [htx]; simp)
    rcases hc with rfl | rfl | rfl | rfl <;> exact absurd hd (by decide)

theorem not_isOperatorTok_of_integer {t : Token} (hwf : t.wf) (hi : t.kind = TK_INTEGER) :
    isOperatorTok t = false := by
  simp only [isOperatorTok, decide_eq_false_iff_not]
  intro h
  have hd := hwf.2.2.2 hi
  rcases h with h | h | h | h <;> rw [h] at hd
  · exact absurd (hd '+' (by simp)) (by decide)
  · exact absurd (hd '-' (by simp)) (by decide)
  · exact absurd (hd '*' (by simp)) (by decide)
  · exact absurd (hd '/' (by simp)) (by decide)

theorem text_head_of_wf {t : Token} (hwf : t.wf) (hk : t.kind ≠ TK_EOF) :
    ∃ l, t.text = t.code.headD '\x00' :: l := by
  obtain ⟨_, hle, hne, _⟩ := hwf
  have h0 := hne hk
  unfold Token.text
  cases hc : t.code with
  | nil => rw [hc] at hle; simp at hle; exact absurd hle h0
  | cons a cs =>
    cases hl : t.len with
    | zero => exact absurd hl h0
    | succ m => exact ⟨cs.take m, by simp⟩

theorem not_isOperatorTok_of_bracket {t : Token} (hwf : t.wf)
    (h : isOpen t = true ∨ isClosed t = true) :
    isOperatorTok t = false ∧ isIntegerTok t = false := by
  have hk : t.kind = TK_PUNC := by
    rcases h with h | h
    · simp only [isOpen, Bool.and_eq_true, decide_eq_true_eq] at h; exact h.1
    · simp only [isClosed, Bool.and_eq_true, decide_eq_true_eq] at h; exact h.1
  obtain ⟨l, hl⟩ := text_head_of_wf hwf (by rw [hk]; decide)
  constructor
  · simp only [isOperatorTok, decide_eq_false_iff_not, hl]
    rcases h with h | h
    · simp only [isOpen, Bool.and_eq_true, decide_eq_true_eq] at h
      rw [h.2]; simp
    · simp only [isClosed, Bool.and_eq_true, decide_eq_true_eq] at h
      rw [h.2]; simp
  · simp [isIntegerTok, hk]

/-- On lexer tokens, a successful call adds one leaf per integer token and one binary node
per operator token that it consumes. -/
theorem Run.counts {c : Call} {s : State} {n : Node} {s1 : State} (h : Run c s n s1) :
    (∀ t ∈ s.token, t.wf) → ∃ l, s.token = l ++ s1.token ∧
      numLeaves n = c.leaves + l.countP isIntegerTok ∧
      numBinary n = c.binaries + l.countP isOperatorTok := by
  have step : ∀ (k : NodeKind) (cont : Content) {s s2 s3 : State} {t : Token}
      {rest : List Token} {ch : Char} {node r n1 : Node} {l1 l2 : List Token},
      s.token = t :: rest → (∀ x ∈ s.token, x.wf) → t.kind ≠ TK_EOF →
      (ch = '+' ∨ ch = '-' ∨ ch = '*' ∨ ch = '/') → tokMatch t [ch] = true →
      (k = ND_ADD ∨ k = ND_SUB ∨ k = ND_MUL ∨ k = ND_DIV) →
      rest = l1 ++ s2.token → s2.token = l2 ++ s3.token →
      numLeaves r = 0 + l1.countP isIntegerTok → numBinary r = 0 + l1.countP isOperatorTok →
      numLeaves n1 = numLeaves (.node k cont node r) + l2.countP isIntegerTok →
      numBinary n1 = numBinary (.node k cont node r) + l2.countP isOperatorTok →
      ∃ l, s.token = l ++ s3.token ∧
        numLeaves n1 = numLeaves node + l.countP isIntegerTok ∧
        numBinary n1 = numBinary node + l.countP isOperatorTok := by
    intro k cont s s2 s3 t rest ch node r n1 l1 l2 ht hwf hk hch hm hkind h1 h2 a1 b1 a2 b2
    obtain ⟨ho, hi⟩ := isOperatorTok_of_tokMatch (hwf t (by rw [ht]; simp)) hk hch hm
    have hnum : k ≠ ND_NUM := by rcases hkind with rfl | rfl | rfl | rfl <;> decide
    refine ⟨t :: (l1 ++ l2), by rw [ht, h1, h2]; simp, ?_, ?_⟩
    · rw [a2]
      simp only [numLeaves, hnum, if_false, a1, List.countP_cons, List.countP_append, hi]
      simp
      omega
    · rw [b2]
      simp only [numBinary, hkind, if_true, b1, List.countP_cons, List.countP_append, ho]
      simp
      omega
  induction h with
  | @num s t rest ht ho hi =>
    intro hwf
    have hw := hwf t (by rw [ht]; simp)
    refine ⟨[t], by simp [ht], ?_, ?_⟩
    · simp [numLeaves, Call.leaves, isIntegerTok, hi]
    · simp [numBinary, Call.binaries, not_isOperatorTok_of_integer hw hi]
  | @bracket s s2 t t2 rest rest2 n ht ho _ h2 hc ih =>
    intro hwf
    have hw := hwf t (by rw [ht]; simp)
    obtain ⟨l, hl, a, b⟩ := ih (fun x hx => hwf x (by rw [ht]; exact List.mem_cons_of_mem _ hx))
    simp only at hl
    have hw2 := hwf t2 (by rw [ht, hl, h2]; simp)
    obtain ⟨o1, i1⟩ := not_isOperatorTok_of_bracket hw (Or.inl ho)
    obtain ⟨o2, i2⟩ := not_isOperatorTok_of_bracket hw2 (Or.inr hc)
    refine ⟨t :: (l ++ [t2]), by simp [ht, hl, h2], ?_, ?_⟩
    · rw [a]; simp [Call.leaves, List.countP_cons, List.countP_append, i1, i2]
    · rw [b]; simp [Call.binaries, List.countP_cons, List.countP_append, o1, o2]
  | md _ _ ih1 ih2 =>
    intro hwf
    obtain ⟨l1, hl1, a1, b1⟩ := ih1 hwf
    obtain ⟨l2, hl2, a2, b2⟩ := ih2 (fun x hx => hwf x (by rw [hl1]; simp [hx]))
    refine ⟨l1 ++ l2, by rw [hl1, hl2]; simp, ?_, ?_⟩
    · rw [a2]; simp only [Call.leaves, List.countP_append] at a1 ⊢; omega
    · rw [b2]; simp only [Call.binaries, List.countP_append] at b1 ⊢; omega
  | mdEnd _ _ => intro _; exact ⟨[], by simp, by simp [Call.leaves], by simp [Call.binaries]⟩
  | mdBreak _ _ _ _ =>
    intro _; exact ⟨[], by simp, by simp [Call.leaves], by simp [Call.binaries]⟩
  | mdMul ht hk h1 _ _ ih1 ih2 =>
    intro hwf
    obtain ⟨l1, hl1, a1, b1⟩ := ih1 (fun x hx => hwf x (by rw [ht]; exact List.mem_cons_of_mem _ hx))
    obtain ⟨l2, hl2, a2, b2⟩ := ih2 (fun x hx => hwf x (by
      rw [ht]; simp only at hl1 hx; rw [hl1]; simp [hx]))
    exact step ND_MUL (.op ['*']) ht hwf hk (Or.inr (Or.inr (Or.inl rfl))) h1 (Or.inr (Or.inr (Or.inl rfl)))
      hl1 hl2 a1 b1 a2 b2
  | mdDiv ht hk _ h2 _ _ ih1 ih2 =>
    intro hwf
    obtain ⟨l1, hl1, a1, b1⟩ := ih1 (fun x hx => hwf x (by rw [ht]; exact List.mem_cons_of_mem _ hx))
    obtain ⟨l2, hl2, a2, b2⟩ := ih2 (fun x hx => hwf x (by
      rw [ht]; simp only at hl1 hx; rw [hl1]; simp [hx]))
    exact step ND_DIV (.op ['/']) ht hwf hk (Or.inr (Or.inr (Or.inr rfl))) h2 (Or.inr (Or.inr (Or.inr rfl)))
      hl1 hl2 a1 b1 a2 b2
  | as _ _ ih1 ih2 =>
    intro hwf
    obtain ⟨l1, hl1, a1, b1⟩ := ih1 hwf
    obtain ⟨l2, hl2, a2, b2⟩ := ih2 (fun x hx => hwf x (by rw [hl1]; simp [hx]))
    refine ⟨l1 ++ l2, by rw [hl1, hl2]; simp, ?_, ?_⟩
    · rw [a2]; simp only [Call.leaves, List.countP_append] at a1 ⊢; omega
    · rw [b2]; simp only [Call.binaries, List.countP_append] at b1 ⊢; omega
  | asEnd _ _ => intro _; exact ⟨[], by simp, by simp [Call.leaves], by simp [Call.binaries]⟩
  | asBreak _ _ _ _ =>
    intro _; exact ⟨[], by simp, by simp [Call.leaves], by simp [Call.binaries]⟩
  | asAdd ht hk h1 _ _ ih1 ih2 =>
    intro hwf
    obtain ⟨l1, hl1, a1, b1⟩ := ih1 (fun x hx => hwf x (by rw [ht]; exact List.mem_cons_of_mem _ hx))
    obtain ⟨l2, hl2, a2, b2⟩ := ih2 (fun x hx => hwf x (by
      rw [ht]; simp only at hl1 hx; rw [hl1]; simp [hx]))
    exact step ND_ADD (.op ['+']) ht hwf hk (Or.inl rfl) h1 (Or.inl rfl) hl1 hl2 a1 b1 a2 b2
  | asSub ht hk _ h2 _ _ ih1 ih2 =>
    intro hwf
    obtain ⟨l1, hl1, a1, b1⟩ := ih1 (fun x hx => hwf x (by rw [ht]; exact List.mem_cons_of_mem _ hx))
    obtain ⟨l2, hl2, a2, b2⟩ := ih2 (fun x hx => hwf x (by
      rw [ht]; simp only at hl1 hx; rw [hl1]; simp [hx]))
    exact step ND_SUB (.op ['-']) ht hwf hk (Or.inr (Or.inl rfl)) h2 (Or.inr (Or.inl rfl)) hl1 hl2 a1 b1 a2 b2

/-! ## Shape of the tree, node counter and token order -/

/-- A successful call returns a well-formed tree; a loop does so when it is entered with
one. -/
theorem Run.wellFormed {c : Call} {s : State} {n : Node} {s1 : State} (h : Run c s n s1) :
    (∀ a, c.acc = some a → WellFormed a) → WellFormed n := by
  induction h with
  | num _ _ _ => intro _; exact Or.inl ⟨rfl, ⟨_, rfl⟩, rfl, rfl⟩
  | bracket _ _ _ _ _ ih => intro _; exact ih (by intro a ha; cases ha)
  | md _ _ ih1 ih2 =>
    intro _
    exact ih2 (by intro a ha; cases ha; exact ih1 (by intro a ha; cases ha))
  | mdEnd _ _ => intro hacc; exact hacc _ rfl
  | mdBreak _ _ _ _ => intro hacc; exact hacc _ rfl
  | mdMul _ _ _ _ _ ih1 ih2 =>
    intro hacc
    refine ih2 (by
      intro a ha; cases ha
      exact Or.inr ⟨by simp, rfl, hacc _ rfl, ih1 (by intro a ha; cases ha)⟩)
  | mdDiv _ _ _ _ _ _ ih1 ih2 =>
    intro hacc
    refine ih2 (by
      intro a ha; cases ha
      exact Or.inr ⟨by simp, rfl, hacc _ rfl, ih1 (by intro a ha; cases ha)⟩)
  | as _ _ ih1 ih2 =>
    intro _
    exact ih2 (by intro a ha; cases ha; exact ih1 (by intro a ha; cases ha))
  | asEnd _ _ => intro hacc; exact hacc _ rfl
  | asBreak _ _ _ _ => intro hacc; exact hacc _ rfl
  | asAdd _ _ _ _ _ ih1 ih2 =>
    intro hacc
    refine ih2 (by
      intro a ha; cases ha
      exact Or.inr ⟨by simp, rfl, hacc _ rfl, ih1 (by intro a ha; cases ha)⟩)
  | asSub _ _ _ _ _ _ ih1 ih2 =>
    intro hacc
    refine ih2 (by
      intro a ha; cases ha
      exact Or.inr ⟨by simp, rfl, hacc _ rfl, ih1 (by intro a ha; cases ha)⟩)

/-- A successful call raises `node_num` by the number of nodes it adds to the tree, in the
arithmetic of a C `int`; and the counter it leaves is a value of that type, as soon as a node
was made or the counter at entry was one. -/
theorem Run.node_num {c : Call} {s : State} {n : Node} {s1 : State} (h : Run c s n s1) :
    wrap_int (s1.node_num + (c.nodes : Int)) = wrap_int (s.node_num + (nodeCount n : Int)) ∧
      ((c.isLoop = true → wrap_int s.node_num = s.node_num) →
        wrap_int s1.node_num = s1.node_num) := by
  induction h with
  | num _ _ _ =>
    simp only [Call.nodes, Call.isLoop, nodeCount, Nat.cast_zero, add_zero, Nat.cast_one]
    exact ⟨wrap_int_idem _, fun _ => wrap_int_idem _⟩
  | bracket _ _ _ _ _ ih =>
    simp only [Call.nodes, Call.isLoop, Nat.cast_zero, add_zero] at ih ⊢
    exact ⟨ih.1, fun _ => ih.2 (fun h => by cases h)⟩
  | md _ _ ih1 ih2 =>
    simp only [Call.nodes, Call.isLoop, Nat.cast_zero, add_zero] at ih1 ih2 ⊢
    have h1 := ih1.2 (fun h => by cases h)
    have h2 := ih2.2 (fun _ => h1)
    refine ⟨?_, fun _ => h2⟩
    have h3 := ih1.1
    have h4 := ih2.1
    unfold wrap_int at h1 h2 h3 h4 ⊢
    omega
  | mdEnd _ _ => exact ⟨rfl, fun h => h rfl⟩
  | mdBreak _ _ _ _ => exact ⟨rfl, fun h => h rfl⟩
  | mdMul _ _ _ _ _ ih1 ih2 =>
    simp only [Call.nodes, Call.isLoop, nodeCount, Nat.cast_zero, add_zero, Nat.cast_add,
      Nat.cast_one] at ih1 ih2 ⊢
    have h2 := ih2.2 (fun _ => wrap_int_idem _)
    refine ⟨?_, fun _ => h2⟩
    have h3 := ih1.1
    have h4 := ih2.1
    unfold wrap_int at h3 h4 ⊢
    omega
  | mdDiv _ _ _ _ _ _ ih1 ih2 =>
    simp only [Call.nodes, Call.isLoop, nodeCount, Nat.cast_zero, add_zero, Nat.cast_add,
      Nat.cast_one] at ih1 ih2 ⊢
    have h2 := ih2.2 (fun _ => wrap_int_idem _)
    refine ⟨?_, fun _ => h2⟩
    have h3 := ih1.1
    have h4 := ih2.1
    unfold wrap_int at h3 h4 ⊢
    omega
  | as _ _ ih1 ih2 =>
    simp only [Call.nodes, Call.isLoop, Nat.cast_zero, add_zero] at ih1 ih2 ⊢
    have h1 := ih1.2 (fun h => by cases h)
    have h2 := ih2.2 (fun _ => h1)
    refine ⟨?_, fun _ => h2⟩
    have h3 := ih1.1
    have h4 := ih2.1
    unfold wrap_int at h1 h2 h3 h4 ⊢
    omega
  | asEnd _ _ => exact ⟨rfl, fun h => h rfl⟩
  | asBreak _ _ _ _ => exact ⟨rfl, fun h => h rfl⟩
  | asAdd _ _ _ _ _ ih1 ih2 =>
    simp only [Call.nodes, Call.isLoop, nodeCount, Nat.cast_zero, add_zero, Nat.cast_add,
      Nat.cast_one] at ih1 ih2 ⊢
    have h2 := ih2.2 (fun _ => wrap_int_idem _)
    refine ⟨?_, fun _ => h2⟩
    have h3 := ih1.1
    have h4 := ih2.1
    unfold wrap_int at h3 h4 ⊢
    omega
  | asSub _ _ _ _ _ _ ih1 ih2 =>
    simp only [Call.nodes, Call.isLoop, nodeCount, Nat.cast_zero, add_zero, Nat.cast_add,
      Nat.cast_one] at ih1 ih2 ⊢
    have h2 := ih2.2 (fun _ => wrap_int_idem _)
    refine ⟨?_, fun _ => h2⟩
    have h3 := ih1.1
    have h4 := ih2.1
    unfold wrap_int at h3 h4 ⊢
    omega

theorem tokItem_of_tokMatch {t : Token} {c : Char} (hwf : t.wf) (hk : t.kind ≠ TK_EOF)
    (hc : c = '+' ∨ c = '-' ∨ c = '*' ∨ c = '/') (hm : tokMatch t [c] = true) :
    tokItem t = some (.op [c]) := by
  have hc0 : c ≠ '\x00' := by rcases hc with rfl | rfl | rfl | rfl <;> decide
  have htx := text_of_tokMatch hwf hk hc0 hm
  have hi : t.kind ≠ TK_INTEGER := by
    have := (isOperatorTok_of_tokMatch hwf hk hc hm).2
    simpa [isIntegerTok] using this
  have hhead := text_head htx
  have ho : isOpen t = false := by
    unfold isOpen
    rw [hhead]
    rcases hc with rfl | rfl | rfl | rfl <;> simp
  have hcl : isClosed t = false := by
    unfold isClosed
    rw [hhead]
    rcases hc with rfl | rfl | rfl | rfl <;> simp
  simp [tokItem, ho, hcl, hi, htx]

theorem tokItem_of_integer {t : Token} (hi : t.kind = TK_INTEGER) :
    tokItem t = some (.num t.val) := by
  simp [tokItem, isOpen, isClosed, hi]

/-- On lexer tokens, the in-order traversal of the tree a successful call returns is the
traversal of the local `node` it was entered with, followed by the consumed tokens read
without the brackets. -/
theorem Run.items {c : Call} {s : State} {n : Node} {s1 : State} (h : Run c s n s1) :
    (∀ t ∈ s.token, t.wf) → ∃ l, s.token = l ++ s1.token ∧
      inorder n = c.items ++ tokItems l := by
  have step : ∀ (k : NodeKind) (ch : Char) {s s2 s3 : State} {t : Token}
      {rest : List Token} {node r n1 : Node} {l1 l2 : List Token},
      s.token = t :: rest → (∀ x ∈ s.token, x.wf) → t.kind ≠ TK_EOF →
      (ch = '+' ∨ ch = '-' ∨ ch = '*' ∨ ch = '/') → tokMatch t [ch] = true →
      itemOf k (.op [ch]) = [.op [ch]] →
      rest = l1 ++ s2.token → s2.token = l2 ++ s3.token →
      inorder r = [] ++ tokItems l1 →
      inorder n1 = inorder (.node k (.op [ch]) node r) ++ tokItems l2 →
      ∃ l, s.token = l ++ s3.token ∧ inorder n1 = inorder node ++ tokItems l := by
    intro k ch s s2 s3 t rest node r n1 l1 l2 ht hwf hk hch hm hitem h1 h2 a1 a2
    have hti := tokItem_of_tokMatch (hwf t (by rw [ht]; simp)) hk hch hm
    refine ⟨t :: (l1 ++ l2), by rw [ht, h1, h2]; simp, ?_⟩
    rw [a2]
    simp only [inorder, hitem, a1, tokItems, List.filterMap_cons, hti, List.filterMap_append,
      List.nil_append, List.append_assoc, List.singleton_append, List.cons_append]
  induction h with
  | @num s t rest ht ho hi =>
    intro _
    exact ⟨[t], by simp [ht], by
      simp [inorder, itemOf, Call.items, tokItems, List.filterMap_cons, tokItem_of_integer hi]⟩
  | @bracket s s2 t t2 rest rest2 n ht ho _ h2 hc ih =>
    intro hwf
    obtain ⟨l, hl, a⟩ := ih (fun x hx => hwf x (by rw [ht]; exact List.mem_cons_of_mem _ hx))
    simp only at hl
    refine ⟨t :: (l ++ [t2]), by simp [ht, hl, h2], ?_⟩
    rw [a]
    simp [Call.items, tokItems, List.filterMap_cons, List.filterMap_append, tokItem, ho, hc]
  | md _ _ ih1 ih2 =>
    intro hwf
    obtain ⟨l1, hl1, a1⟩ := ih1 hwf
    obtain ⟨l2, hl2, a2⟩ := ih2 (fun x hx => hwf x (by rw [hl1]; simp [hx]))
    refine ⟨l1 ++ l2, by rw [hl1, hl2]; simp, ?_⟩
    rw [a2]
    simp only [Call.items, a1, tokItems, List.filterMap_append, List.nil_append]
  | mdEnd _ _ => intro _; exact ⟨[], by simp, by simp [Call.items, tokItems]⟩
  | mdBreak _ _ _ _ => intro _; exact ⟨[], by simp, by simp [Call.items, tokItems]⟩
  | mdMul ht hk h1 _ _ ih1 ih2 =>
    intro hwf
    obtain ⟨l1, hl1, a1⟩ := ih1 (fun x hx => hwf x (by rw [ht]; exact List.mem_cons_of_mem _ hx))
    obtain ⟨l2, hl2, a2⟩ := ih2 (fun x hx => hwf x (by
      rw [ht]; simp only at hl1 hx; rw [hl1]; simp [hx]))
    exact step ND_MUL '*' ht hwf hk (Or.inr (Or.inr (Or.inl rfl))) h1 rfl hl1 hl2 a1 a2
  | mdDiv ht hk _ h2 _ _ ih1 ih2 =>
    intro hwf
    obtain ⟨l1, hl1, a1⟩ := ih1 (fun x hx => hwf x (by rw [ht]; exact List.mem_cons_of_mem _ hx))
    obtain ⟨l2, hl2, a2⟩ := ih2 (fun x hx => hwf x (by
      rw [ht]; simp only at hl1 hx; rw [hl1]; simp [hx]))
    exact step ND_DIV '/' ht hwf hk (Or.inr (Or.inr (Or.inr rfl))) h2 rfl hl1 hl2 a1 a2
  | as _ _ ih1 ih2 =>
    intro hwf
    obtain ⟨l1, hl1, a1⟩ := ih1 hwf
    obtain ⟨l2, hl2, a2⟩ := ih2 (fun x hx => hwf x (by rw [hl1]; simp [hx]))
    refine ⟨l1 ++ l2, by rw [hl1, hl2]; simp, ?_⟩
    rw [a2]
    simp only [Call.items, a1, tokItems, List.filterMap_append, List.nil_append]
  | asEnd _ _ => intro _; exact ⟨[], by simp, by simp [Call.items, tokItems]⟩
  | asBreak _ _ _ _ => intro _; exact ⟨[], by simp, by simp [Call.items, tokItems]⟩
  | asAdd ht hk h1 _ _ ih1 ih2 =>
    intro hwf
    obtain ⟨l1, hl1, a1⟩ := ih1 (fun x hx => hwf x (by rw [ht]; exact List.mem_cons_of_mem _ hx))
    obtain ⟨l2, hl2, a2⟩ := ih2 (fun x hx => hwf x (by
      rw [ht]; simp only at hl1 hx; rw [hl1]; simp [hx]))
    exact step ND_ADD '+' ht hwf hk (Or.inl rfl) h1 rfl hl1 hl2 a1 a2
  | asSub ht hk _ h2 _ _ ih1 ih2 =>
    intro hwf
    obtain ⟨l1, hl1, a1⟩ := ih1 (fun x hx => hwf x (by rw [ht]; exact List.mem_cons_of_mem _ hx))
    obtain ⟨l2, hl2, a2⟩ := ih2 (fun x hx => hwf x (by
      rw [ht]; simp only at hl1 hx; rw [hl1]; simp [hx]))
    exact step ND_SUB '-' ht hwf hk (Or.inr (Or.inl rfl)) h2 rfl hl1 hl2 a1 a2

/-! ## Printing a tree and parsing it back -/

theorem run_md_stop_noop {x : Token} (rest : List Token) (r : Node) (nn : Int) (acc : Node)
    (hk : x.kind ≠ TK_EOF) (hx : NoOp x) :
    Run (.mdLoop acc) ⟨x :: rest, r, nn⟩ acc ⟨x :: rest, r, nn⟩ :=
  Run.mdBreak (s := ⟨x :: rest, r, nn⟩) rfl hk hx.2.2.1 hx.2.2.2

theorem run_as_stop_noop {x : Token} (rest : List Token) (r : Node) (nn : Int) (acc : Node)
    (hk : x.kind ≠ TK_EOF) (hx : NoOp x) :
    Run (.asLoop acc) ⟨x :: rest, r, nn⟩ acc ⟨x :: rest, r, nn⟩ :=
  Run.asBreak (s := ⟨x :: rest, r, nn⟩) rfl hk hx.1 hx.2.1

/-- The expression between two brackets, for an operator of either level. -/
theorem run_as_binary {k : NodeKind} {o rp : Token} {ls rs tl : List Token} {r0 l r : Node}
    {nn a b : Int} (hk : k = ND_ADD ∨ k = ND_SUB ∨ k = ND_MUL ∨ k = ND_DIV)
    (ho : IsOpTok k o) (hrp : IsPunc ')' rp)
    (hl : Run .nob ⟨ls ++ o :: (rs ++ rp :: tl), r0, nn⟩ l ⟨o :: (rs ++ rp :: tl), r0, a⟩)
    (hr : Run .nob ⟨rs ++ rp :: tl, r0, a⟩ r ⟨rp :: tl, r0, b⟩) :
    Run .as ⟨ls ++ o :: (rs ++ rp :: tl), r0, nn⟩ (BinaryOp k l r) ⟨rp :: tl, r0, wrap_int (b + 1)⟩ := by
  have hne : rp.kind ≠ TK_EOF := by rw [hrp.1]; decide
  have hno := hrp.noOp_closed
  rcases hk with hk | hk | hk | hk
  · exact Run.as (Run.md hl (run_md_stop_op _ r0 a l (Or.inl hk) ho))
      (run_as_step (Or.inl hk) ho (Run.md hr (run_md_stop_noop tl r0 b r hne hno))
        (run_as_stop_noop tl r0 (wrap_int (b + 1)) _ hne hno))
  · exact Run.as (Run.md hl (run_md_stop_op _ r0 a l (Or.inr hk) ho))
      (run_as_step (Or.inr hk) ho (Run.md hr (run_md_stop_noop tl r0 b r hne hno))
        (run_as_stop_noop tl r0 (wrap_int (b + 1)) _ hne hno))
  · exact Run.as (Run.md hl (run_md_step (Or.inl hk) ho hr
        (run_md_stop_noop tl r0 (wrap_int (b + 1)) _ hne hno)))
      (run_as_stop_noop tl r0 (wrap_int (b + 1)) _ hne hno)
  · exact Run.as (Run.md hl (run_md_step (Or.inr hk) ho hr
        (run_md_stop_noop tl r0 (wrap_int (b + 1)) _ hne hno)))
      (run_as_stop_noop tl r0 (wrap_int (b + 1)) _ hne hno)

theorem isOpTok_puncTok {k : NodeKind} (hk : k = ND_ADD ∨ k = ND_SUB ∨ k = ND_MUL ∨ k = ND_DIV) :
    IsOpTok k (puncTok (opText k)) := by
  rcases hk with rfl | rfl | rfl | rfl <;> exact ⟨by decide, rfl, rfl⟩

/-- `_num_or_bracket` reads the printed form of a well-formed tree back. -/
theorem run_showTree (t : Node) :
    WellFormed t → ∀ (tl : List Token) (r0 : Node) (nn m : Int),
      m = wrap_int (nn + (nodeCount t : Int)) → Run .nob ⟨showTree t ++ tl, r0, nn⟩ t ⟨tl, r0, m⟩ := by
  induction t with
  | NULL => intro h; exact absurd h (by simp [WellFormed])
  | node k c l r ihl ihr =>
    intro h tl r0 nn m hm
    rcases h with ⟨hk, ⟨v, hc⟩, hl, hr⟩ | ⟨hk, hc, hl, hr⟩
    · subst hk hc hl hr
      have hm2 : m = wrap_int (nn + 1) := by simpa [nodeCount] using hm
      subst hm2
      exact run_num (t := numToken v) tl r0 nn rfl
    · have hnum : k ≠ ND_NUM := by rcases hk with rfl | rfl | rfl | rfl <;> decide
      have hcont : Node.node k c l r = BinaryOp k l r := by
        subst hc
        rcases hk with rfl | rfl | rfl | rfl <;> rfl
      have hshow : showTree (.node k c l r) ++ tl
          = puncTok ['('] ::
              (showTree l ++ puncTok (opText k) :: (showTree r ++ puncTok [')'] :: tl)) := by
        simp [showTree, hnum, List.append_assoc]
      have hm2 : m = wrap_int (wrap_int (wrap_int (nn + (nodeCount l : Int))
          + (nodeCount r : Int)) + 1) := by
        rw [hm]
        simp only [nodeCount]
        push_cast
        unfold wrap_int
        omega
      subst hm2
      rw [hshow, hcont]
      have h1 := ihl hl (puncTok (opText k) :: (showTree r ++ puncTok [')'] :: tl)) r0 nn
        (wrap_int (nn + (nodeCount l : Int))) rfl
      have h2 := ihr hr (puncTok [')'] :: tl) r0 (wrap_int (nn + (nodeCount l : Int)))
        (wrap_int (wrap_int (nn + (nodeCount l : Int)) + (nodeCount r : Int))) rfl
      have hrp : IsPunc ')' (puncTok [')']) := ⟨rfl, rfl⟩
      have has := run_as_binary hk (isOpTok_puncTok hk) hrp h1 h2
      exact @Run.bracket ⟨_, r0, nn⟩ ⟨_, r0, _⟩ _ _ _ _ _ rfl (by decide) has rfl (by decide)

/-! ## Every outcome: the cursor only moves forward, over tokens other than end-of-input -/

theorem Moves.refl (s : State) : Moves s s := ⟨[], by simp, by simp⟩

theorem Moves.trans {s s1 s2 : State} (h1 : Moves s s1) (h2 : Moves s1 s2) : Moves s s2 := by
  obtain ⟨l1, e1, n1⟩ := h1
  obtain ⟨l2, e2, n2⟩ := h2
  refine ⟨l1 ++ l2, by rw [e1, e2]; simp, ?_⟩
  intro t ht
  rcases List.mem_append.mp ht with ht | ht
  · exact n1 t ht
  · exact n2 t ht

theorem Moves.eat {s : State} {t : Token} {rest : List Token} (s1 : State)
    (h : s.token = t :: rest) (hk : t.kind ≠ TK_EOF) (h1 : s1.token = rest) : Moves s s1 :=
  ⟨[t], by simp [h, h1], by simpa using hk⟩

theorem Moves.of_token_eq {s s1 s2 : State} (h : s.token = s1.token) (hm : Moves s1 s2) :
    Moves s s2 := by
  obtain ⟨l, e, n⟩ := hm
  exact ⟨l, by rw [h, e], n⟩

theorem EndsEOF.ne_nil {tk : List Token} (h : EndsEOF tk) : tk ≠ [] := by
  obtain ⟨pre, e, rfl, _⟩ := h
  simp

theorem EndsEOF.of_moves {s s1 : State} (h : EndsEOF s.token) (hm : Moves s s1) :
    EndsEOF s1.token := by
  obtain ⟨pre, e, hs, he⟩ := h
  obtain ⟨l, hl, hn⟩ := hm
  rcases List.eq_nil_or_concat s1.token with h0 | ⟨init, last, h1⟩
  · exfalso
    rw [h0, List.append_nil] at hl
    exact hn e (by rw [← hl, hs]; simp) he
  · refine ⟨init, last, by rw [h1]; simp, ?_⟩
    rw [hs, h1, List.concat_eq_append, ← List.append_assoc] at hl
    have := List.append_inj_right' hl rfl
    simp only [List.cons.injEq, and_true] at this
    rw [← this]; exact he

theorem good_bind {s sA : State} {x : Exec (Node × State)}
    {f : Node × State → Exec (Node × State)} (hm : Moves s sA) (hx : Good sA x)
    (hf : ∀ a, x = .ok a → ∃ sB, sB.token = a.2.token ∧ Good sB (f a)) :
    Good s (x.bind f) := by
  cases x with
  | error p =>
    exact ⟨hm.trans hx.1, fun h => hx.2 (h.of_moves hm)⟩
  | ok a =>
    obtain ⟨sB, htk, hg⟩ := hf a rfl
    have hma : Moves s a.2 := hm.trans hx.1
    have hmb : Moves s sB := hma.trans ⟨[], by simp [htk], by simp⟩
    exact ⟨hmb.trans hg.1, fun h => hg.2 (h.of_moves hmb)⟩

theorem good_closeBracket (a : Node × State) : Good a.2 (closeBracket a) := by
  unfold closeBracket
  cases ht : a.2.token with
  | nil =>
    exact ⟨Moves.refl _, fun h => absurd ht h.ne_nil⟩
  | cons t rest =>
    by_cases hc : isClosed t = true
    · simp only [hc, if_true]
      exact ⟨Moves.eat _ ht (isClosed_not_eof hc) rfl, fun _ => trivial⟩
    · simp only [hc, if_false]
      exact ⟨Moves.refl _, fun _ => Or.inr ⟨_, Or.inr rfl⟩⟩

/-- However a call ends, its cursor has only moved forward over tokens other than
end-of-input; on a token list that ends with the end-of-input token it returns or aborts
with "Expect a number" or "Expect )" (or uses up the budget of the model). -/
theorem exec_good (fuel : Nat) : ∀ (c : Call) (s : State), Good s (exec c fuel s) := by
  induction fuel with
  | zero =>
    intro c s
    cases c <;>
      exact ⟨Moves.refl _, fun _ => Or.inl rfl⟩
  | succ fuel ih =>
    intro c s
    cases c with
    | nob =>
      simp only [exec]
      cases ht : s.token with
      | nil =>
        rw [nob_nil _ ht]
        exact ⟨Moves.refl _, fun h => absurd ht h.ne_nil⟩
      | cons t rest =>
        by_cases ho : isOpen t = true
        · rw [nob_open _ ht ho]
          exact good_bind (Moves.eat _ ht (isOpen_not_eof ho) rfl) (ih .as _)
            (fun a _ => ⟨a.2, rfl, good_closeBracket a⟩)
        · have ho2 : isOpen t = false := by simpa using ho
          by_cases hi : t.kind = TK_INTEGER
          · rw [nob_num _ ht ho2 hi]
            exact ⟨Moves.eat _ ht (by rw [hi]; decide) rfl, fun _ => trivial⟩
          · rw [nob_bad _ ht ho2 hi]
            exact ⟨Moves.refl _, fun _ => Or.inr ⟨_, Or.inl rfl⟩⟩
    | md =>
      simp only [exec]
      rw [md_succ]
      exact good_bind (Moves.refl _) (ih .nob s) (fun a _ => ⟨a.2, rfl, ih (.mdLoop a.1) a.2⟩)
    | as =>
      simp only [exec]
      rw [as_succ]
      exact good_bind (Moves.refl _) (ih .md s) (fun a _ => ⟨a.2, rfl, ih (.asLoop a.1) a.2⟩)
    | mdLoop node =>
      simp only [exec]
      cases ht : s.token with
      | nil =>
        rw [md_loop_nil _ _ ht]
        exact ⟨Moves.refl _, fun h => absurd ht h.ne_nil⟩
      | cons t rest =>
        rw [md_loop_cons _ _ ht]
        by_cases hk : t.kind = TK_EOF
        · rw [if_pos hk]
          exact ⟨Moves.refl _, fun _ => trivial⟩
        · rw [if_neg hk]
          split
          · exact good_bind (Moves.eat _ ht hk rfl) (ih .nob _)
              (fun a _ => ⟨{ a.2 with node_num := wrap_int (a.2.node_num + 1) }, rfl, ih (.mdLoop _) _⟩)
          · split
            · exact good_bind (Moves.eat _ ht hk rfl) (ih .nob _)
                (fun a _ => ⟨{ a.2 with node_num := wrap_int (a.2.node_num + 1) }, rfl, ih (.mdLoop _) _⟩)
            · exact ⟨Moves.refl _, fun _ => trivial⟩
    | asLoop node =>
      simp only [exec]
      cases ht : s.token with
      | nil =>
        rw [as_loop_nil _ _ ht]
        exact ⟨Moves.refl _, fun h => absurd ht h.ne_nil⟩
      | cons t rest =>
        rw [as_loop_cons _ _ ht]
        by_cases hk : t.kind = TK_EOF
        · rw [if_pos hk]
          exact ⟨Moves.refl _, fun _ => trivial⟩
        · rw [if_neg hk]
          split
          · exact good_bind (Moves.eat _ ht hk rfl) (ih .md _)
              (fun a _ => ⟨{ a.2 with node_num := wrap_int (a.2.node_num + 1) }, rfl, ih (.asLoop _) _⟩)
          · split
            · exact good_bind (Moves.eat _ ht hk rfl) (ih .md _)
                (fun a _ => ⟨{ a.2 with node_num := wrap_int (a.2.node_num + 1) }, rfl, ih (.asLoop _) _⟩)
            · exact ⟨Moves.refl _, fun _ => trivial⟩

theorem AST_eq (s : State) :
    AST s = match exec .as (3 * s.token.length + 3) s with
      | .ok p => .ok { p.2 with root := p.1 }
      | .error p => .error p := by
  simp only [AST, exec, bind, Except.bind, pure, Except.pure]
  cases _add_or_sub (3 * s.token.length + 3) s <;> rfl

theorem AST_good (s : State) :
    Moves s (finalAST (AST s)) ∧
      (EndsEOF s.token → (∃ s1, AST s = .ok s1) ∨
        (∃ loc st, AST s = .error (.error_at loc "Expect a number", st)) ∨
        (∃ loc st, AST s = .error (.error_at loc "Expect )", st))) := by
  have hg := exec_good (3 * s.token.length + 3) .as s
  have hoof := fuel_enough (3 * s.token.length + 3) .as s (Nat.le_refl _)
  rw [AST_eq]
  cases hr : exec .as (3 * s.token.length + 3) s with
  | ok p =>
    rw [hr] at hg
    exact ⟨Moves.of_token_eq rfl (hg.1.trans ⟨[], by simp [final, finalAST], by simp⟩),
      fun _ => Or.inl ⟨_, rfl⟩⟩
  | error p =>
    rw [hr] at hg hoof
    refine ⟨hg.1, fun h => ?_⟩
    obtain ⟨e, st⟩ := p
    rcases hg.2 h with h1 | ⟨loc, h1 | h1⟩
    · simp only at h1; subst h1; exact absurd rfl (hoof st)
    · simp only at h1; subst h1; exact Or.inr (Or.inl ⟨loc, st, rfl⟩)
    · simp only at h1; subst h1; exact Or.inr (Or.inr ⟨loc, st, rfl⟩)

/-! ## Runs that abort -/

theorem Fails.lift {c : Call} {s : State} {p : Err × State} (h : Fails c s p) {fuel : Nat}
    (hf : c.need s.token.length ≤ fuel) : exec c fuel s = .error p := by
  obtain ⟨hne, f0, h0⟩ := h
  have h1 : NotOOF (exec c fuel s) := fuel_enough fuel c s hf
  have h2 : NotOOF (exec c f0 s) := by
    rw [h0]
    intro s1 hs
    cases hs
    exact hne rfl
  have e1 := exec_le (Nat.le_max_left fuel f0) h1
  have e2 := exec_le (Nat.le_max_right fuel f0) h2
  rw [← e1, e2, h0]

theorem AST_of_fails {s : State} {p : Err × State} (h : Fails .as s p) :
    AST s = .error p := by
  rw [AST_eq, @Fails.lift _ _ _ h (3 * s.token.length + 3) (Nat.le_refl _)]

theorem fails_nob_bad {s : State} {t : Token} {rest : List Token} (h : s.token = t :: rest)
    (ho : isOpen t = false) (hi : t.kind ≠ TK_INTEGER) :
    Fails .nob s (.error_at t.code "Expect a number", s) :=
  ⟨by simp, 1, nob_bad 0 h ho hi⟩

/-- An abort of the first call made by a function is an abort of the function. -/
theorem fails_first {c c1 : Call} {s sA : State} {p : Err × State}
    (f : Nat → Node × State → Exec (Node × State))
    (hstep : ∀ fuel, exec c (fuel + 1) s = (exec c1 fuel sA).bind (f fuel))
    (h : Fails c1 sA p) : Fails c s p := by
  obtain ⟨hne, f0, h0⟩ := h
  exact ⟨hne, f0 + 1, by rw [hstep, h0]; rfl⟩

/-- An abort of the second call made by a function, after the first call has returned, is
an abort of the function. -/
theorem fails_second {c c1 : Call} {s sA : State} {n : Node} {s1 : State}
    {p : Err × State} (f : Nat → Node × State → Exec (Node × State)) (c2 : Call) (sB : State)
    (hstep : ∀ fuel, exec c (fuel + 1) s = (exec c1 fuel sA).bind (f fuel))
    (hf : ∀ fuel, f fuel (n, s1) = exec c2 fuel sB)
    (h1 : Run c1 sA n s1) (h2 : Fails c2 sB p) : Fails c s p := by
  obtain ⟨hne, f2, e2⟩ := h2
  obtain ⟨f1, e1⟩ := exec_of_run h1
  have e1m := exec_ok_le (Nat.le_max_left f1 f2) e1
  have hno : NotOOF (exec c2 f2 sB) := by
    rw [e2]
    intro st hs
    cases hs
    exact hne rfl
  have e2m := exec_le (Nat.le_max_right f1 f2) hno
  refine ⟨hne, max f1 f2 + 1, ?_⟩
  rw [hstep, e1m]
  simp only [Except.bind]
  rw [hf, e2m, e2]

theorem fails_md_nob {s : State} {p : Err × State} (h : Fails .nob s p) : Fails .md s p :=
  fails_first (fun fuel a => _mul_or_div_loop fuel a.1 a.2)
    (fun fuel => by simp only [exec]; rw [md_succ]) h

theorem fails_md_loop {s s1 : State} {n : Node} {p : Err × State} (h1 : Run .nob s n s1)
    (h2 : Fails (.mdLoop n) s1 p) : Fails .md s p :=
  fails_second (fun fuel a => _mul_or_div_loop fuel a.1 a.2) (.mdLoop n) s1
    (fun fuel => by simp only [exec]; rw [md_succ]) (fun _ => rfl) h1 h2

theorem fails_as_md {s : State} {p : Err × State} (h : Fails .md s p) : Fails .as s p :=
  fails_first (fun fuel a => _add_or_sub_loop fuel a.1 a.2)
    (fun fuel => by simp only [exec]; rw [as_succ]) h

theorem fails_as_loop {s s1 : State} {n : Node} {p : Err × State} (h1 : Run .md s n s1)
    (h2 : Fails (.asLoop n) s1 p) : Fails .as s p :=
  fails_second (fun fuel a => _add_or_sub_loop fuel a.1 a.2) (.asLoop n) s1
    (fun fuel => by simp only [exec]; rw [as_succ]) (fun _ => rfl) h1 h2

theorem md_loop_mul {s : State} {t : Token} {rest : List Token} (fuel : Nat) (node : Node)
    (ht : s.token = t :: rest) (hk : t.kind ≠ TK_EOF) (h1 : tokMatch t ['*'] = true) :
    exec (.mdLoop node) (fuel + 1) s
      = (exec .nob fuel { s with token := rest }).bind (fun p =>
          _mul_or_div_loop fuel (.node ND_MUL (.op ['*']) node p.1)
            { p.2 with node_num := wrap_int (p.2.node_num + 1) }) := by
  simp only [exec]
  rw [md_loop_cons _ _ ht, if_neg hk, if_pos h1]

theorem md_loop_div {s : State} {t : Token} {rest : List Token} (fuel : Nat) (node : Node)
    (ht : s.token = t :: rest) (hk : t.kind ≠ TK_EOF) (h1 : tokMatch t ['*'] = false)
    (h2 : tokMatch t ['/'] = true) :
    exec (.mdLoop node) (fuel + 1) s
      = (exec .nob fuel { s with token := rest }).bind (fun p =>
          _mul_or_div_loop fuel (.node ND_DIV (.op ['/']) node p.1)
            { p.2 with node_num := wrap_int (p.2.node_num + 1) }) := by
  simp only [exec]
  rw [md_loop_cons _ _ ht, if_neg hk, if_neg (by simp [h1]), if_pos h2]

theorem as_loop_add {s : State} {t : Token} {rest : List Token} (fuel : Nat) (node : Node)
    (ht : s.token = t :: rest) (hk : t.kind ≠ TK_EOF) (h1 : tokMatch t ['+'] = true) :
    exec (.asLoop node) (fuel + 1) s
      = (exec .md fuel { s with token := rest }).bind (fun p =>
          _add_or_sub_loop fuel (.node ND_ADD (.op ['+']) node p.1)
            { p.2 with node_num := wrap_int (p.2.node_num + 1) }) := by
  simp only [exec]
  rw [as_loop_cons _ _ ht, if_neg hk, if_pos h1]

theorem as_loop_sub {s : State} {t : Token} {rest : List Token} (fuel : Nat) (node : Node)
    (ht : s.token = t :: rest) (hk : t.kind ≠ TK_EOF) (h1 : tokMatch t ['+'] = false)
    (h2 : tokMatch t ['-'] = true) :
    exec (.asLoop node) (fuel + 1) s
      = (exec .md fuel { s with token := rest }).bind (fun p =>
          _add_or_sub_loop fuel (.node ND_SUB (.op ['-']) node p.1)
            { p.2 with node_num := wrap_int (p.2.node_num + 1) }) := by
  simp only [exec]
  rw [as_loop_cons _ _ ht, if_neg hk, if_neg (by simp [h1]), if_pos h2]

theorem fails_mdMul_nob {s : State} {t : Token} {rest : List Token} {node : Node}
    {p : Err × State} (ht : s.token = t :: rest) (hk : t.kind ≠ TK_EOF)
    (h1 : tokMatch t ['*'] = true) (h : Fails .nob { s with token := rest } p) :
    Fails (.mdLoop node) s p :=
  fails_first _ (fun fuel => md_loop_mul fuel node ht hk h1) h

theorem fails_mdMul_loop {s s2 : State} {t : Token} {rest : List Token} {node r : Node}
    {p : Err × State} (ht : s.token = t :: rest) (hk : t.kind ≠ TK_EOF)
    (h1 : tokMatch t ['*'] = true) (hr : Run .nob { s with token := rest } r s2)
    (h : Fails (.mdLoop (.node ND_MUL (.op ['*']) node r))
      { s2 with node_num := wrap_int (s2.node_num + 1) } p) :
    Fails (.mdLoop node) s p :=
  fails_second _ (.mdLoop (.node ND_MUL (.op ['*']) node r))
    { s2 with node_num := wrap_int (s2.node_num + 1) } (fun fuel => md_loop_mul fuel node ht hk h1)
    (fun _ => rfl) hr h

theorem fails_mdDiv_nob {s : State} {t : Token} {rest : List Token} {node : Node}
    {p : Err × State} (ht : s.token = t :: rest) (hk : t.kind ≠ TK_EOF)
    (h1 : tokMatch t ['*'] = false) (h2 : tokMatch t ['/'] = true)
    (h : Fails .nob { s with token := rest } p) : Fails (.mdLoop node) s p :=
  fails_first _ (fun fuel => md_loop_div fuel node ht hk h1 h2) h

theorem fails_mdDiv_loop {s s2 : State} {t : Token} {rest : List Token} {node r : Node}
    {p : Err × State} (ht : s.token = t :: rest) (hk : t.kind ≠ TK_EOF)
    (h1 : tokMatch t ['*'] = false) (h2 : tokMatch t ['/'] = true)
    (hr : Run .nob { s with token := rest } r s2)
    (h : Fails (.mdLoop (.node ND_DIV (.op ['/']) node r))
      { s2 with node_num := wrap_int (s2.node_num + 1) } p) :
    Fails (.mdLoop node) s p :=
  fails_second _ (.mdLoop (.node ND_DIV (.op ['/']) node r))
    { s2 with node_num := wrap_int (s2.node_num + 1) } (fun fuel => md_loop_div fuel node ht hk h1 h2)
    (fun _ => rfl) hr h

theorem fails_asAdd_md {s : State} {t : Token} {rest : List Token} {node : Node}
    {p : Err × State} (ht : s.token = t :: rest) (hk : t.kind ≠ TK_EOF)
    (h1 : tokMatch t ['+'] = true) (h : Fails .md { s with token := rest } p) :
    Fails (.asLoop node) s p :=
  fails_first _ (fun fuel => as_loop_add fuel node ht hk h1) h

theorem fails_asAdd_loop {s s2 : State} {t : Token} {rest : List Token} {node r : Node}
    {p : Err × State} (ht : s.token = t :: rest) (hk : t.kind ≠ TK_EOF)
    (h1 : tokMatch t ['+'] = true) (hr : Run .md { s with token := rest } r s2)
    (h : Fails (.asLoop (.node ND_ADD (.op ['+']) node r))
      { s2 with node_num := wrap_int (s2.node_num + 1) } p) :
    Fails (.asLoop node) s p :=
  fails_second _ (.asLoop (.node ND_ADD (.op ['+']) node r))
    { s2 with node_num := wrap_int (s2.node_num + 1) } (fun fuel => as_loop_add fuel node ht hk h1)
    (fun _ => rfl) hr h

theorem fails_asSub_md {s : State} {t : Token} {rest : List Token} {node : Node}
    {p : Err × State} (ht : s.token = t :: rest) (hk : t.kind ≠ TK_EOF)
    (h1 : tokMatch t ['+'] = false) (h2 : tokMatch t ['-'] = true)
    (h : Fails .md { s with token := rest } p) : Fails (.asLoop node) s p :=
  fails_first _ (fun fuel => as_loop_sub fuel node ht hk h1 h2) h

theorem fails_asSub_loop {s s2 : State} {t : Token} {rest : List Token} {node r : Node}
    {p : Err × State} (ht : s.token = t :: rest) (hk : t.kind ≠ TK_EOF)
    (h1 : tokMatch t ['+'] = false) (h2 : tokMatch t ['-'] = true)
    (hr : Run .md { s with token := rest } r s2)
    (h : Fails (.asLoop (.node ND_SUB (.op ['-']) node r))
      { s2 with node_num := wrap_int (s2.node_num + 1) } p) :
    Fails (.asLoop node) s p :=
  fails_second _ (.asLoop (.node ND_SUB (.op ['-']) node r))
    { s2 with node_num := wrap_int (s2.node_num + 1) } (fun fuel => as_loop_sub fuel node ht hk h1 h2)
    (fun _ => rfl) hr h

/-! ## Replacing what follows the tokens a run has looked at -/

theorem Run.moves {c : Call} {s : State} {n : Node} {s1 : State} (h : Run c s n s1) :
    Moves s s1 := by
  obtain ⟨l, hl, hn, _⟩ := h.consumed
  exact ⟨l, hl, hn⟩

/-- A cursor moved forward inside tokens that end with the end-of-input token `e` still has
`e` as its last token. -/
theorem Moves.ends {s s1 : State} {l : List Token} {e : Token} (hm : Moves s s1)
    (hs : s.token = l ++ [e]) (he : e.kind = TK_EOF) : ∃ l1, s1.token = l1 ++ [e] := by
  obtain ⟨pre1, e1, h1, _⟩ := (EndsEOF.of_moves ⟨l, e, hs, he⟩ hm)
  obtain ⟨c, hc, _⟩ := hm
  rw [hs, h1, ← List.append_assoc] at hc
  have hee := List.append_inj_right' hc rfl
  simp only [List.cons.injEq, and_true] at hee
  subst hee
  exact ⟨pre1, h1⟩

theorem Moves.prefix_ne_nil {sa s1 : State} {la l1 : List Token} {e : Token}
    (hm : Moves sa s1) (ha : sa.token = la ++ [e]) (h1 : s1.token = l1 ++ [e])
    (hne : l1 ≠ []) : la ≠ [] := by
  rintro rfl
  obtain ⟨c, hc, _⟩ := hm
  rw [ha, h1] at hc
  have hlen := congrArg List.length hc
  simp only [List.nil_append, List.length_singleton, List.length_append] at hlen
  exact hne (List.length_eq_zero.mp (by omega))

/-- A run that stops in front of a token other than the last one, or a run of
`_num_or_bracket`, has not looked at the last token `e`: it is a run on the same tokens
followed by anything else. -/
theorem Run.replace_tail {e : Token} (he : e.kind = TK_EOF) (tl : List Token)
    {c : Call} {s : State} {n : Node} {s1 : State} (h : Run c s n s1) :
    ∀ l l1, s.token = l ++ [e] → s1.token = l1 ++ [e] → (c = .nob ∨ l1 ≠ []) →
      Run c { s with token := l ++ tl } n { s1 with token := l1 ++ tl } := by
  induction h with
  | @num s t rest ht ho hi =>
    intro l l1 hl hl1 _
    rw [ht] at hl
    obtain ⟨l2, rfl, rfl⟩ := cons_eq_append_eof he (by rw [hi]; decide) hl
    simp only at hl1
    have := List.append_cancel_right hl1
    subst this
    exact Run.num (s := { s with token := (t :: l2) ++ tl }) rfl ho hi
  | @bracket s s2 t t2 rest rest2 n ht ho _ h2 hc ih =>
    intro l l1 hl hl1 _
    rw [ht] at hl
    obtain ⟨l2, rfl, rfl⟩ := cons_eq_append_eof he (isOpen_not_eof ho) hl
    simp only at hl1
    subst hl1
    have hrun := ih l2 (t2 :: l1) rfl h2 (Or.inr (by simp))
    exact @Run.bracket { s with token := (t :: l2) ++ tl }
      { s2 with token := (t2 :: l1) ++ tl } _ _ _ _ _ rfl ho hrun rfl hc
  | @md s sa s2 n n1 h1 _ ih1 ih2 =>
    intro l l1 hl hl1 hc
    obtain ⟨la, hla⟩ := h1.moves.ends hl he
    have hne : l1 ≠ [] := hc.resolve_left (by intro h; cases h)
    exact Run.md (ih1 l la hl hla (Or.inl rfl)) (ih2 la l1 hla hl1 (Or.inr hne))
  | @mdEnd s t rest node ht hk =>
    intro l l1 hl hl1 hc
    have hne : l1 ≠ [] := hc.resolve_left (by intro h; cases h)
    have hll : l = l1 := List.append_cancel_right (hl.symm.trans hl1)
    subst hll
    cases l with
    | nil => exact absurd rfl hne
    | cons a l2 =>
      rw [ht] at hl
      simp only [List.cons_append, List.cons.injEq] at hl
      obtain ⟨rfl, _⟩ := hl
      exact Run.mdEnd (s := { s with token := (t :: l2) ++ tl }) rfl hk
  | @mdBreak s t rest node ht hk h1 h2 =>
    intro l l1 hl hl1 _
    have hll : l = l1 := List.append_cancel_right (hl.symm.trans hl1)
    subst hll
    rw [ht] at hl
    obtain ⟨l2, rfl, rfl⟩ := cons_eq_append_eof he hk hl
    exact Run.mdBreak (s := { s with token := (t :: l2) ++ tl }) rfl hk h1 h2
  | @mdMul s s2 s3 t rest node r n1 ht hk h1 hr _ ih1 ih2 =>
    intro l l1 hl hl1 hc
    have hne : l1 ≠ [] := hc.resolve_left (by intro h; cases h)
    rw [ht] at hl
    obtain ⟨l2, rfl, rfl⟩ := cons_eq_append_eof he hk hl
    obtain ⟨la, hla⟩ := hr.moves.ends (l := l2) rfl he
    exact Run.mdMul (s := { s with token := (t :: l2) ++ tl }) rfl hk h1
      (ih1 l2 la rfl hla (Or.inl rfl)) (ih2 la l1 hla hl1 (Or.inr hne))
  | @mdDiv s s2 s3 t rest node r n1 ht hk h1 h2 hr _ ih1 ih2 =>
    intro l l1 hl hl1 hc
    have hne : l1 ≠ [] := hc.resolve_left (by intro h; cases h)
    rw [ht] at hl
    obtain ⟨l2, rfl, rfl⟩ := cons_eq_append_eof he hk hl
    obtain ⟨la, hla⟩ := hr.moves.ends (l := l2) rfl he
    exact Run.mdDiv (s := { s with token := (t :: l2) ++ tl }) rfl hk h1 h2
      (ih1 l2 la rfl hla (Or.inl rfl)) (ih2 la l1 hla hl1 (Or.inr hne))
  | @as s sa s2 n n1 h1 hloop ih1 ih2 =>
    intro l l1 hl hl1 hc
    obtain ⟨la, hla⟩ := h1.moves.ends hl he
    have hne : l1 ≠ [] := hc.resolve_left (by intro h; cases h)
    have hla0 : la ≠ [] := Moves.prefix_ne_nil hloop.moves hla hl1 hne
    exact Run.as (ih1 l la hl hla (Or.inr hla0)) (ih2 la l1 hla hl1 (Or.inr hne))
  | @asEnd s t rest node ht hk =>
    intro l l1 hl hl1 hc
    have hne : l1 ≠ [] := hc.resolve_left (by intro h; cases h)
    have hll : l = l1 := List.append_cancel_right (hl.symm.trans hl1)
    subst hll
    cases l with
    | nil => exact absurd rfl hne
    | cons a l2 =>
      rw [ht] at hl
      simp only [List.cons_append, List.cons.injEq] at hl
      obtain ⟨rfl, _⟩ := hl
      exact Run.asEnd (s := { s with token := (t :: l2) ++ tl }) rfl hk
  | @asBreak s t rest node ht hk h1 h2 =>
    intro l l1 hl hl1 _
    have hll : l = l1 := List.append_cancel_right (hl.symm.trans hl1)
    subst hll
    rw [ht] at hl
    obtain ⟨l2, rfl, rfl⟩ := cons_eq_append_eof he hk hl
    exact Run.asBreak (s := { s with token := (t :: l2) ++ tl }) rfl hk h1 h2
  | @asAdd s s2 s3 t rest node r n1 ht hk h1 hr hloop ih1 ih2 =>
    intro l l1 hl hl1 hc
    have hne : l1 ≠ [] := hc.resolve_left (by intro h; cases h)
    rw [ht] at hl
    obtain ⟨l2, rfl, rfl⟩ := cons_eq_append_eof he hk hl
    obtain ⟨la, hla⟩ := hr.moves.ends (l := l2) rfl he
    have hla0 : la ≠ [] := Moves.prefix_ne_nil hloop.moves hla hl1 hne
    exact Run.asAdd (s := { s with token := (t :: l2) ++ tl }) rfl hk h1
      (ih1 l2 la rfl hla (Or.inr hla0)) (ih2 la l1 hla hl1 (Or.inr hne))
  | @asSub s s2 s3 t rest node r n1 ht hk h1 h2 hr hloop ih1 ih2 =>
    intro l l1 hl hl1 hc
    have hne : l1 ≠ [] := hc.resolve_left (by intro h; cases h)
    rw [ht] at hl
    obtain ⟨l2, rfl, rfl⟩ := cons_eq_append_eof he hk hl
    obtain ⟨la, hla⟩ := hr.moves.ends (l := l2) rfl he
    have hla0 : la ≠ [] := Moves.prefix_ne_nil hloop.moves hla hl1 hne
    exact Run.asSub (s := { s with token := (t :: l2) ++ tl }) rfl hk h1 h2
      (ih1 l2 la rfl hla (Or.inr hla0)) (ih2 la l1 hla hl1 (Or.inr hne))

/-! ## An operator in front of the end-of-input token -/

/-- With a `+` or `-` token `o` put in front of the last token `e`, `_num_or_bracket`,
`_mul_or_div` and its loop run as before: they stop in front of `o` where they stopped in
front of `e`. -/
theorem Run.before_add_op {k : NodeKind} {o e : Token} (hk : k = ND_ADD ∨ k = ND_SUB)
    (ho : IsOpTok k o) (he : e.kind = TK_EOF)
    {c : Call} {s : State} {n : Node} {s1 : State} (h : Run c s n s1) :
    c.asLevel = false → ∀ l l1, s.token = l ++ [e] → s1.token = l1 ++ [e] →
      Run c { s with token := l ++ [o, e] } n { s1 with token := l1 ++ [o, e] } := by
  induction h with
  | @num s t rest ht ho1 hi =>
    intro _ l l1 hl hl1
    exact Run.replace_tail he [o, e] (Run.num ht ho1 hi) l l1 hl hl1 (Or.inl rfl)
  | @bracket s s2 t t2 rest rest2 n ht ho1 hr h2 hc _ =>
    intro _ l l1 hl hl1
    exact Run.replace_tail he [o, e] (Run.bracket ht ho1 hr h2 hc) l l1 hl hl1 (Or.inl rfl)
  | @md s sa s2 n n1 h1 _ ih1 ih2 =>
    intro _ l l1 hl hl1
    obtain ⟨la, hla⟩ := h1.moves.ends hl he
    exact Run.md (ih1 rfl l la hl hla) (ih2 rfl la l1 hla hl1)
  | @mdEnd s t rest node ht hk1 =>
    intro _ l l1 hl hl1
    have hll : l = l1 := List.append_cancel_right (hl.symm.trans hl1)
    subst hll
    cases l with
    | nil => exact run_md_stop_op [e] s.root s.node_num node hk ho
    | cons a l2 =>
      rw [ht] at hl
      simp only [List.cons_append, List.cons.injEq] at hl
      obtain ⟨rfl, _⟩ := hl
      exact Run.mdEnd (s := { s with token := (t :: l2) ++ [o, e] }) rfl hk1
  | @mdBreak s t rest node ht hk1 h1 h2 =>
    intro _ l l1 hl hl1
    have hll : l = l1 := List.append_cancel_right (hl.symm.trans hl1)
    subst hll
    rw [ht] at hl
    obtain ⟨l2, rfl, rfl⟩ := cons_eq_append_eof he hk1 hl
    exact Run.mdBreak (s := { s with token := (t :: l2) ++ [o, e] }) rfl hk1 h1 h2
  | @mdMul s s2 s3 t rest node r n1 ht hk1 h1 hr _ ih1 ih2 =>
    intro _ l l1 hl hl1
    rw [ht] at hl
    obtain ⟨l2, rfl, rfl⟩ := cons_eq_append_eof he hk1 hl
    obtain ⟨la, hla⟩ := hr.moves.ends (l := l2) rfl he
    exact Run.mdMul (s := { s with token := (t :: l2) ++ [o, e] }) rfl hk1 h1
      (ih1 rfl l2 la rfl hla) (ih2 rfl la l1 hla hl1)
  | @mdDiv s s2 s3 t rest node r n1 ht hk1 h1 h2 hr _ ih1 ih2 =>
    intro _ l l1 hl hl1
    rw [ht] at hl
    obtain ⟨l2, rfl, rfl⟩ := cons_eq_append_eof he hk1 hl
    obtain ⟨la, hla⟩ := hr.moves.ends (l := l2) rfl he
    exact Run.mdDiv (s := { s with token := (t :: l2) ++ [o, e] }) rfl hk1 h1 h2
      (ih1 rfl l2 la rfl hla) (ih2 rfl la l1 hla hl1)
  | as _ _ _ _ => intro h; cases h
  | asEnd _ _ => intro h; cases h
  | asBreak _ _ _ _ => intro h; cases h
  | asAdd _ _ _ _ _ _ _ => intro h; cases h
  | asSub _ _ _ _ _ _ _ _ => intro h; cases h

/-- The abort of `_num_or_bracket` on the end-of-input token. -/
theorem failsAt_nob_eof {e : Token} (he : e.kind = TK_EOF) (r : Node) (nn : Int) :
    FailsAt e .nob ⟨[e], r, nn⟩ :=
  ⟨⟨[e], r, nn⟩, rfl,
    fails_nob_bad (s := ⟨[e], r, nn⟩) rfl (isOpen_of_eof he) (by rw [he]; decide)⟩

/-- With a `*` or `/` token `o` put in front of the last token `e`, a run of `_mul_or_div`
or of its loop that stopped on `e` now consumes `o` and aborts on `e`. -/
theorem Run.fails_mul_op {k : NodeKind} {o e : Token} (hk : k = ND_MUL ∨ k = ND_DIV)
    (ho : IsOpTok k o) (he : e.kind = TK_EOF)
    {c : Call} {s : State} {n : Node} {s1 : State} (h : Run c s n s1) :
    c.mdLevel = true → ∀ l, s.token = l ++ [e] → s1.token = [e] →
      FailsAt e c { s with token := l ++ [o, e] } := by
  induction h with
  | num _ _ _ => intro h; cases h
  | bracket _ _ _ _ _ _ => intro h; cases h
  | @md s sa s2 n n1 h1 _ _ ih2 =>
    intro _ l hl hl1
    obtain ⟨la, hla⟩ := h1.moves.ends hl he
    obtain ⟨st, hst, hf⟩ := ih2 rfl la hla hl1
    exact ⟨st, hst, fails_md_loop (Run.replace_tail he [o, e] h1 l la hl hla (Or.inl rfl)) hf⟩
  | @mdEnd s t rest node ht hk1 =>
    intro _ l hl hl1
    have hl0 : l = [] := List.append_cancel_right (hl.symm.trans hl1)
    subst hl0
    obtain ⟨st, hst, hf⟩ := failsAt_nob_eof he s.root s.node_num
    refine ⟨st, hst, ?_⟩
    rcases hk with rfl | rfl
    · exact fails_mdMul_nob (s := { s with token := [] ++ [o, e] }) rfl ho.not_eof
        (by rw [ho.tokMatch _ (by decide)]; simp [opText]) hf
    · exact fails_mdDiv_nob (s := { s with token := [] ++ [o, e] }) rfl ho.not_eof
        (by rw [ho.tokMatch _ (by decide)]; simp [opText])
        (by rw [ho.tokMatch _ (by decide)]; simp [opText]) hf
  | @mdBreak s t rest node ht hk1 h1 h2 =>
    intro _ l hl hl1
    rw [ht] at hl1
    simp only [List.cons.injEq] at hl1
    exact absurd (hl1.1 ▸ he) hk1
  | @mdMul s s2 s3 t rest node r n1 ht hk1 h1 hr _ _ ih2 =>
    intro _ l hl hl1
    rw [ht] at hl
    obtain ⟨l2, rfl, rfl⟩ := cons_eq_append_eof he hk1 hl
    obtain ⟨la, hla⟩ := hr.moves.ends (l := l2) rfl he
    obtain ⟨st, hst, hf⟩ := ih2 rfl la hla hl1
    exact ⟨st, hst, fails_mdMul_loop (s := { s with token := (t :: l2) ++ [o, e] }) rfl hk1 h1
      (Run.replace_tail he [o, e] hr l2 la rfl hla (Or.inl rfl)) hf⟩
  | @mdDiv s s2 s3 t rest node r n1 ht hk1 h1 h2 hr _ _ ih2 =>
    intro _ l hl hl1
    rw [ht] at hl
    obtain ⟨l2, rfl, rfl⟩ := cons_eq_append_eof he hk1 hl
    obtain ⟨la, hla⟩ := hr.moves.ends (l := l2) rfl he
    obtain ⟨st, hst, hf⟩ := ih2 rfl la hla hl1
    exact ⟨st, hst, fails_mdDiv_loop (s := { s with token := (t :: l2) ++ [o, e] }) rfl hk1 h1
      h2 (Run.replace_tail he [o, e] hr l2 la rfl hla (Or.inl rfl)) hf⟩
  | as _ _ _ _ => intro h; cases h
  | asEnd _ _ => intro h; cases h
  | asBreak _ _ _ _ => intro h; cases h
  | asAdd _ _ _ _ _ _ _ => intro h; cases h
  | asSub _ _ _ _ _ _ _ _ => intro h; cases h

/-- The run of `_mul_or_div` for one operand, with an operator token `o` put in front of
the last token `e`: it aborts on `e` (a `*` or `/` after an operand that ended on `e`), or it
runs as before. -/
theorem Run.md_before_op {k : NodeKind} {o e : Token} (ho : IsOpTok k o)
    (he : e.kind = TK_EOF) {s : State} {n : Node} {sa : State} (h : Run .md s n sa)
    {l la : List Token} (hl : s.token = l ++ [e]) (hla : sa.token = la ++ [e]) :
    FailsAt e .md { s with token := l ++ [o, e] } ∨
      (Run .md { s with token := l ++ [o, e] } n { sa with token := la ++ [o, e] } ∧
        ((k = ND_MUL ∨ k = ND_DIV) → la ≠ [])) := by
  have hk4 : k = ND_ADD ∨ k = ND_SUB ∨ k = ND_MUL ∨ k = ND_DIV := by
    have := ho.1
    cases k <;> simp at this ⊢
  rcases hk4 with hk | hk | hk | hk
  · exact Or.inr ⟨h.before_add_op (Or.inl hk) ho he rfl l la hl hla, by subst hk; simp⟩
  · exact Or.inr ⟨h.before_add_op (Or.inr hk) ho he rfl l la hl hla, by subst hk; simp⟩
  · by_cases h0 : la = []
    · subst h0
      exact Or.inl (h.fails_mul_op (Or.inl hk) ho he rfl l hl hla)
    · exact Or.inr ⟨Run.replace_tail he [o, e] h l la hl hla (Or.inr h0), fun _ => h0⟩
  · by_cases h0 : la = []
    · subst h0
      exact Or.inl (h.fails_mul_op (Or.inr hk) ho he rfl l hl hla)
    · exact Or.inr ⟨Run.replace_tail he [o, e] h l la hl hla (Or.inr h0), fun _ => h0⟩

/-- With an operator token `o` put in front of the last token `e`, a run of `_add_or_sub`
that stopped on `e` now aborts on `e` with "Expect a number". -/
theorem Run.fails_op {k : NodeKind} {o e : Token} (ho : IsOpTok k o) (he : e.kind = TK_EOF)
    {c : Call} {s : State} {n : Node} {s1 : State} (h : Run c s n s1) :
    c.asLevel = true → ∀ l, s.token = l ++ [e] → s1.token = [e] →
      (c.isLoop = true → (k = ND_MUL ∨ k = ND_DIV) → l ≠ []) →
      FailsAt e c { s with token := l ++ [o, e] } := by
  induction h with
  | num _ _ _ => intro h; cases h
  | bracket _ _ _ _ _ _ => intro h; cases h
  | md _ _ _ _ => intro h; cases h
  | mdEnd _ _ => intro h; cases h
  | mdBreak _ _ _ _ => intro h; cases h
  | mdMul _ _ _ _ _ _ _ => intro h; cases h
  | mdDiv _ _ _ _ _ _ _ _ => intro h; cases h
  | @as s sa s2 n n1 h1 _ _ ih2 =>
    intro _ l hl hl1 _
    obtain ⟨la, hla⟩ := h1.moves.ends hl he
    rcases h1.md_before_op ho he hl hla with ⟨st, hst, hf⟩ | ⟨hrun, hne⟩
    · exact ⟨st, hst, fails_as_md hf⟩
    · obtain ⟨st, hst, hf⟩ := ih2 rfl la hla hl1 (fun _ => hne)
      exact ⟨st, hst, fails_as_loop hrun hf⟩
  | @asEnd s t rest node ht hk1 =>
    intro _ l hl hl1 hcond
    have hl0 : l = [] := List.append_cancel_right (hl.symm.trans hl1)
    subst hl0
    obtain ⟨st, hst, hf⟩ := failsAt_nob_eof he s.root s.node_num
    refine ⟨st, hst, ?_⟩
    have hk4 : k = ND_ADD ∨ k = ND_SUB ∨ k = ND_MUL ∨ k = ND_DIV := by
      have := ho.1
      cases k <;> simp at this ⊢
    rcases hk4 with rfl | rfl | rfl | rfl
    · exact fails_asAdd_md (s := { s with token := [] ++ [o, e] }) rfl ho.not_eof
        (by rw [ho.tokMatch _ (by decide)]; simp [opText]) (fails_md_nob hf)
    · exact fails_asSub_md (s := { s with token := [] ++ [o, e] }) rfl ho.not_eof
        (by rw [ho.tokMatch _ (by decide)]; simp [opText])
        (by rw [ho.tokMatch _ (by decide)]; simp [opText]) (fails_md_nob hf)
    · exact absurd rfl (hcond rfl (Or.inl rfl))
    · exact absurd rfl (hcond rfl (Or.inr rfl))
  | @asBreak s t rest node ht hk1 h1 h2 =>
    intro _ l hl hl1 _
    rw [ht] at hl1
    simp only [List.cons.injEq] at hl1
    exact absurd (hl1.1 ▸ he) hk1
  | @asAdd s s2 s3 t rest node r n1 ht hk1 h1 hr _ _ ih2 =>
    intro _ l hl hl1 _
    rw [ht] at hl
    obtain ⟨l2, rfl, rfl⟩ := cons_eq_append_eof he hk1 hl
    obtain ⟨la, hla⟩ := hr.moves.ends (l := l2) rfl he
    rcases hr.md_before_op ho he (l := l2) rfl hla with ⟨st, hst, hf⟩ | ⟨hrun, hne⟩
    · exact ⟨st, hst, fails_asAdd_md (s := { s with token := (t :: l2) ++ [o, e] }) rfl hk1 h1
        hf⟩
    · obtain ⟨st, hst, hf⟩ := ih2 rfl la hla hl1 (fun _ => hne)
      exact ⟨st, hst, fails_asAdd_loop (s := { s with token := (t :: l2) ++ [o, e] }) rfl hk1
        h1 hrun hf⟩
  | @asSub s s2 s3 t rest node r n1 ht hk1 h1 h2 hr _ _ ih2 =>
    intro _ l hl hl1 _
    rw [ht] at hl
    obtain ⟨l2, rfl, rfl⟩ := cons_eq_append_eof he hk1 hl
    obtain ⟨la, hla⟩ := hr.moves.ends (l := l2) rfl he
    rcases hr.md_before_op ho he (l := l2) rfl hla with ⟨st, hst, hf⟩ | ⟨hrun, hne⟩
    · exact ⟨st, hst, fails_asSub_md (s := { s with token := (t :: l2) ++ [o, e] }) rfl hk1 h1
        h2 hf⟩
    · obtain ⟨st, hst, hf⟩ := ih2 rfl la hla hl1 (fun _ => hne)
      exact ⟨st, hst, fails_asSub_loop (s := { s with token := (t :: l2) ++ [o, e] }) rfl hk1
        h1 h2 hrun hf⟩

/-! ## The claims -/

/-- C1 (precedence). For integer tokens `a`, `b`, `c`, an operator token `o1` of kind `k1`
in {+,-} and an operator token `o2` of kind `k2` in {*,/}, `AST()` on `[a, o1, b, o2, c, EOF]`
succeeds with root `BinaryOp(k1, a, BinaryOp(k2, b, c))`, and on `[a, o2, b, o1, c, EOF]`
with root `BinaryOp(k1, BinaryOp(k2, a, b), c)`; the cursor ends on EOF and five nodes are
counted: `node_num`, a C `int`, has been incremented five times. The tree of `2+3*4`, `Add(2, Mul(3, 4))`, evaluates to 14 and not to 20. -/
theorem C1_precedence (a b c o1 o2 e : Token) (k1 k2 : NodeKind) (r : Node) (nn : Int)
    (ha : a.kind = TK_INTEGER) (hb : b.kind = TK_INTEGER) (hc : c.kind = TK_INTEGER)
    (hk1 : k1 = ND_ADD ∨ k1 = ND_SUB) (hk2 : k2 = ND_MUL ∨ k2 = ND_DIV)
    (ho1 : IsOpTok k1 o1) (ho2 : IsOpTok k2 o2) (he : e.kind = TK_EOF) :
    AST ⟨[a, o1, b, o2, c, e], r, nn⟩
        = .ok ⟨[e], BinaryOp k1 (Number a.val) (BinaryOp k2 (Number b.val) (Number c.val)),
            wrap_int (nn + 5)⟩ ∧
      AST ⟨[a, o2, b, o1, c, e], r, nn⟩
        = .ok ⟨[e], BinaryOp k1 (BinaryOp k2 (Number a.val) (Number b.val)) (Number c.val),
            wrap_int (nn + 5)⟩ ∧
      eval (BinaryOp ND_ADD (Number 2) (BinaryOp ND_MUL (Number 3) (Number 4))) = some 14 ∧
      eval (BinaryOp ND_ADD (Number 2) (BinaryOp ND_MUL (Number 3) (Number 4))) ≠ some 20 := by
  have e5 : wrap_int (wrap_int (wrap_int (wrap_int (wrap_int (nn + 1) + 1) + 1) + 1) + 1)
      = wrap_int (nn + 5) := by
    unfold wrap_int
    omega
  refine ⟨?_, ?_, by decide, by decide⟩
  · have h := AST_of_run (Run.as
      (Run.md (run_num _ r nn ha) (run_md_stop_op _ r _ _ hk1 ho1))
      (run_as_step hk1 ho1
        (Run.md (run_num _ r _ hb)
          (run_md_step hk2 ho2 (run_num _ r _ hc) (run_md_end [] r _ _ he)))
        (run_as_end [] r _ _ he)))
    rw [h]
    simp only [e5]
  · have h := AST_of_run (Run.as
      (Run.md (run_num _ r nn ha)
        (run_md_step hk2 ho2 (run_num _ r _ hb) (run_md_stop_op _ r _ _ hk1 ho1)))
      (run_as_step hk1 ho1
        (Run.md (run_num _ r _ hc) (run_md_end [] r _ _ he))
        (run_as_end [] r _ _ he)))
    rw [h]
    simp only [e5]

/-- C1, on the tokens of `2+3*4` and of `2*3+4`. -/
theorem C1_precedence_witness :
    AST ⟨[intTok 2 ['2', '+', '3', '*', '4'], puncTok ['+', '3', '*', '4'],
          intTok 3 ['3', '*', '4'], puncTok ['*', '4'], intTok 4 ['4'], eofTok], .NULL, 0⟩
        = .ok ⟨[eofTok],
            BinaryOp ND_ADD (Number 2) (BinaryOp ND_MUL (Number 3) (Number 4)), 5⟩ ∧
      AST ⟨[intTok 2 ['2', '+', '3', '*', '4'], puncTok ['*', '4'],
          intTok 3 ['3', '*', '4'], puncTok ['+', '3', '*', '4'], intTok 4 ['4'], eofTok],
          .NULL, 0⟩
        = .ok ⟨[eofTok],
            BinaryOp ND_ADD (BinaryOp ND_MUL (Number 2) (Number 3)) (Number 4), 5⟩ :=
  have h := C1_precedence (intTok 2 ['2', '+', '3', '*', '4']) (intTok 3 ['3', '*', '4'])
    (intTok 4 ['4']) (puncTok ['+', '3', '*', '4']) (puncTok ['*', '4']) eofTok ND_ADD ND_MUL
    .NULL 0 rfl rfl rfl (Or.inl rfl) (Or.inl rfl) ⟨by decide, rfl, rfl⟩ ⟨by decide, rfl, rfl⟩ rfl
  ⟨h.1, h.2.1⟩

/-- C2 (left-associativity). For an integer token `n0` and a list of (operator, integer)
pairs whose operators are all in {+,-}, or all in {*,/}, `AST()` on
`[n0, op_1, n_1, ..., op_k, n_k, EOF]` succeeds, leaves the cursor on EOF and returns the left
fold `BinaryOp(op_k, ... BinaryOp(op_1, n0, n_1) ..., n_k)`, counting `1 + 2k` nodes
(`node_num`, a C `int`, has been incremented `1 + 2k` times). The tree
of `8-3-2`, `Sub(Sub(8, 3), 2)`, evaluates to 3. -/
theorem C2_left_assoc (n0 e : Token) (ps : List (NodeKind × Token × Token)) (r : Node)
    (nn : Int) (hn0 : n0.kind = TK_INTEGER) (he : e.kind = TK_EOF)
    (hps : ∀ p ∈ ps, IsOpTok p.1 p.2.1 ∧ p.2.2.kind = TK_INTEGER)
    (hlevel : (∀ p ∈ ps, p.1 = ND_ADD ∨ p.1 = ND_SUB) ∨ (∀ p ∈ ps, p.1 = ND_MUL ∨ p.1 = ND_DIV)) :
    AST ⟨n0 :: (opSeq ps ++ [e]), r, nn⟩
        = .ok ⟨[e], leftFold (Number n0.val) ps, wrap_int (nn + 1 + 2 * (ps.length : Int))⟩ ∧
      eval (BinaryOp ND_SUB (BinaryOp ND_SUB (Number 8) (Number 3)) (Number 2)) = some 3 := by
  refine ⟨?_, by decide⟩
  rcases hlevel with hl | hl
  · have hall : ∀ p ∈ ps, (p.1 = ND_ADD ∨ p.1 = ND_SUB) ∧ IsOpTok p.1 p.2.1 ∧
        p.2.2.kind = TK_INTEGER := fun p hp => ⟨hl p hp, hps p hp⟩
    have h := AST_of_run (Run.as
      (Run.md (run_num (opSeq ps ++ [e]) r nn hn0) (run_md_stop_seq e he r _ _ ps hall))
      (run_as_fold e he r ps (Number n0.val) (wrap_int (nn + 1)) _ hall (wrap_int_idem _)
        (wrap_int_add _ _).symm))
    exact h
  · have hall : ∀ p ∈ ps, (p.1 = ND_MUL ∨ p.1 = ND_DIV) ∧ IsOpTok p.1 p.2.1 ∧
        p.2.2.kind = TK_INTEGER := fun p hp => ⟨hl p hp, hps p hp⟩
    have h := AST_of_run (Run.as
      (Run.md (run_num (opSeq ps ++ [e]) r nn hn0)
        (run_md_fold e he r ps (Number n0.val) (wrap_int (nn + 1)) _ hall (wrap_int_idem _)
          (wrap_int_add _ _).symm))
      (run_as_end [] r _ _ he))
    exact h

/-- C2, on the tokens of `8-3-2`. -/
theorem C2_left_assoc_witness :
    AST ⟨[intTok 8 ['8', '-', '3', '-', '2'], puncTok ['-', '3', '-', '2'],
          intTok 3 ['3', '-', '2'], puncTok ['-', '2'], intTok 2 ['2'], eofTok], .NULL, 0⟩
        = .ok ⟨[eofTok],
            BinaryOp ND_SUB (BinaryOp ND_SUB (Number 8) (Number 3)) (Number 2), 5⟩ :=
  (C2_left_assoc (intTok 8 ['8', '-', '3', '-', '2']) eofTok
    [(ND_SUB, puncTok ['-', '3', '-', '2'], intTok 3 ['3', '-', '2']),
     (ND_SUB, puncTok ['-', '2'], intTok 2 ['2'])] .NULL 0 rfl rfl
    (by
      intro p hp
      simp only [List.mem_cons, List.mem_singleton, List.not_mem_nil, or_false] at hp
      rcases hp with rfl | rfl <;> exact ⟨⟨by decide, rfl, rfl⟩, rfl⟩)
    (Or.inl (by
      intro p hp
      simp only [List.mem_cons, List.mem_singleton, List.not_mem_nil, or_false] at hp
      rcases hp with rfl | rfl <;> exact Or.inr rfl))).1
/-- C7 (empty input). When the first token is neither an integer nor a punctuation token
whose text starts with `(`, `AST()` aborts with `error_at(token->code, "Expect a number")`
at that token, and the globals at the abort are the ones of the start: no node was created,
`root` is not written and the cursor has not moved. The end-of-input token is such a token,
so the sequence that holds only it fails this way. -/
theorem C7_empty_input (t : Token) (rest : List Token) (r : Node) (nn : Int)
    (hi : t.kind ≠ TK_INTEGER)
    (ho : ¬ (t.kind = TK_PUNC ∧ t.code.headD '\x00' = '(')) :
    AST ⟨t :: rest, r, nn⟩
        = .error (.error_at t.code "Expect a number", ⟨t :: rest, r, nn⟩) ∧
      (t.kind = TK_EOF → AST ⟨[t], r, nn⟩
        = .error (.error_at t.code "Expect a number", ⟨[t], r, nn⟩)) := by
  have ho2 : isOpen t = false := by
    simpa [isOpen] using ho
  have key : ∀ l : List Token, AST ⟨t :: l, r, nn⟩
      = .error (.error_at t.code "Expect a number", ⟨t :: l, r, nn⟩) := by
    intro l
    have hf : 3 * (t :: l).length + 3 = (3 * l.length + 3) + 1 + 1 + 1 := by
      simp only [List.length_cons]; omega
    simp only [AST, hf, as_succ, md_succ]
    rw [nob_bad (s := ⟨t :: l, r, nn⟩) _ rfl ho2 hi]
    rfl
  exact ⟨key rest, fun _ => key []⟩

/-- C7, on the sequence that holds only the end-of-input token. -/
theorem C7_empty_input_witness :
    AST ⟨[eofTok], .NULL, 0⟩ = .error (.error_at [] "Expect a number", ⟨[eofTok], .NULL, 0⟩) :=
  (C7_empty_input eofTok [] .NULL 0 (by decide) (by decide)).1

/-- C8 (single atom). On `[integer token with value n, EOF]`, `AST()` succeeds; `root` is a
node of kind `ND_NUM` with value `n` whose `left` and `right` are `NULL`, the cursor is on
EOF and `node_num` has been incremented exactly once (`node_num++` on a C `int`). -/
theorem C8_single_atom (n : Int) (t e : Token) (r : Node) (nn : Int)
    (ht : t.kind = TK_INTEGER) (hv : t.val = n) (he : e.kind = TK_EOF) :
    AST ⟨[t, e], r, nn⟩
      = .ok ⟨[e], .node ND_NUM (.val n) .NULL .NULL, wrap_int (nn + 1)⟩ := by
  subst hv
  exact AST_of_run (Run.as (Run.md (run_num [e] r nn ht) (run_md_end [] r _ _ he))
    (run_as_end [] r _ _ he))

/-- C8, on the tokens of `42`. -/
theorem C8_single_atom_witness :
    AST ⟨[⟨TK_INTEGER, 42, ['4', '2'], 2⟩, eofTok], .NULL, 0⟩
      = .ok ⟨[eofTok], .node ND_NUM (.val 42) .NULL .NULL, 1⟩ :=
  C8_single_atom 42 ⟨TK_INTEGER, 42, ['4', '2'], 2⟩ eofTok .NULL 0 rfl rfl rfl
/-- C9 (code_bug: `lookahead` does not match exactly). The code at two inputs that meet the
preconditions of the claim. On the token `*` followed by EOF, `lookahead(1, "**")` returns
true and consumes the token, although the text `*` of that token is not the pattern `**`:
`strncmp` is limited to `siz` bytes, the length of the text, so a proper prefix of the
pattern is accepted. On the token `+` followed by EOF, `lookahead(2, "+")` returns true and
moves the cursor to the `NULL` behind the sentinel, although the end-of-input token is one of
the two tokens: `_at_end_k` tests the global `token` and never `token_copy`. -/
theorem C9_lookahead_not_exact :
    (lookahead 1 ['*', '*'] ⟨[puncTok ['*'], eofTok], .NULL, 0⟩
        = .ok (true, ⟨[eofTok], .NULL, 0⟩) ∧
      rawTexts ([puncTok ['*'], eofTok].take 1) ≠ ['*', '*']) ∧
    (lookahead 2 ['+'] ⟨[puncTok ['+'], eofTok], .NULL, 0⟩ = .ok (true, ⟨[], .NULL, 0⟩) ∧
      ∃ t ∈ [puncTok ['+'], eofTok].take 2, t.kind = TK_EOF) :=
  ⟨⟨rfl, by decide⟩, ⟨rfl, eofTok, by decide, rfl⟩⟩

/-- C10 (`lookahead` commits or restores). On a cursor that is not on the end-of-input token
and has at least `k` tokens from the cursor on, `lookahead(k, c)` returns; when it returns
true the cursor has moved over exactly `k` tokens, when it returns false the cursor is where
it was; `root` and `node_num` are unchanged. The token list is immutable in the model, so the
tokens reached from the new cursor are those of the old list. -/
theorem C10_lookahead_commits_or_restores (k : Nat) (c : List Char) (s : State) (t : Token)
    (rest : List Token) (h : s.token = t :: rest) (hk : t.kind ≠ TK_EOF)
    (hle : k ≤ s.token.length) :
    ∃ b s1, lookahead k c s = .ok (b, s1) ∧
      (b = true → s1.token = s.token.drop k) ∧ (b = false → s1.token = s.token) ∧
      s1.root = s.root ∧ s1.node_num = s.node_num := by
  rw [lookahead_eq k c h hk hle]
  by_cases h0 : strncmp (lookText (s.token.take k)) c (lookSiz (s.token.take k)) = 0
  · exact ⟨true, { s with token := s.token.drop k }, by rw [if_pos h0], fun _ => rfl,
      fun hb => (by cases hb), rfl, rfl⟩
  · exact ⟨false, s, by rw [if_neg h0], fun hb => (by cases hb), fun _ => rfl, rfl, rfl⟩

/-- C10, on the tokens `*`, `4`, EOF with `k = 2`: the pattern `*4` is consumed, the pattern
`*5` leaves the cursor in place. -/
theorem C10_lookahead_commits_or_restores_witness :
    (∃ b s1, lookahead 2 ['*', '4'] ⟨[puncTok ['*', '4'], intTok 4 ['4'], eofTok], .NULL, 7⟩
        = .ok (b, s1) ∧
      (b = true → s1.token = [eofTok]) ∧
      (b = false → s1.token = [puncTok ['*', '4'], intTok 4 ['4'], eofTok]) ∧
      s1.root = .NULL ∧ s1.node_num = 7) ∧
    lookahead 2 ['*', '4'] ⟨[puncTok ['*', '4'], intTok 4 ['4'], eofTok], .NULL, 7⟩
      = .ok (true, ⟨[eofTok], .NULL, 7⟩) ∧
    lookahead 2 ['*', '5'] ⟨[puncTok ['*', '4'], intTok 4 ['4'], eofTok], .NULL, 7⟩
      = .ok (false, ⟨[puncTok ['*', '4'], intTok 4 ['4'], eofTok], .NULL, 7⟩) :=
  ⟨C10_lookahead_commits_or_restores 2 ['*', '4']
    ⟨[puncTok ['*', '4'], intTok 4 ['4'], eofTok], .NULL, 7⟩ (puncTok ['*', '4'])
    [intTok 4 ['4'], eofTok] rfl (by decide) (by decide), rfl, rfl⟩
/-- C3 (parentheses). When `AST()` on `ts` followed by EOF succeeds with tree `t` and the
cursor on that EOF, `_num_or_bracket` on `( ts ) rest` returns, for every recursion budget of
the model that is large enough, exactly `t` and leaves the cursor on the first token of
`rest`; the node counter moves as in the run on `ts` and `root` is not written. The tokens
of `(2+3)*4` parse to `Mul(Add(2, 3), 4)`, which evaluates to 20. -/
theorem C3_parentheses (ts rest : List Token) (lp rp e : Token) (t r : Node) (nn nn1 : Int)
    (hlp : IsPunc '(' lp) (hrp : IsPunc ')' rp) (he : e.kind = TK_EOF)
    (h : AST ⟨ts ++ [e], r, nn⟩ = .ok ⟨[e], t, nn1⟩) :
    (∀ fuel, 3 * (lp :: (ts ++ rp :: rest)).length + 1 ≤ fuel →
      _num_or_bracket fuel ⟨lp :: (ts ++ rp :: rest), r, nn⟩ = .ok (t, ⟨rest, r, nn1⟩)) ∧
    AST ⟨[puncTok ['(', '2', '+', '3', ')', '*', '4'], intTok 2 ['2', '+', '3', ')', '*', '4'],
          puncTok ['+', '3', ')', '*', '4'], intTok 3 ['3', ')', '*', '4'],
          puncTok [')', '*', '4'], puncTok ['*', '4'], intTok 4 ['4'], eofTok], .NULL, 0⟩
      = .ok ⟨[eofTok],
          BinaryOp ND_MUL (BinaryOp ND_ADD (Number 2) (Number 3)) (Number 4), 5⟩ ∧
    eval (BinaryOp ND_MUL (BinaryOp ND_ADD (Number 2) (Number 3)) (Number 4)) = some 20 := by
  refine ⟨?_, rfl, by decide⟩
  intro fuel hf
  obtain ⟨l1, hl1, hrun⟩ := (run_of_AST h).extend rest hrp.noOp_closed he ts rfl
  have hl0 : l1 = [] := by
    cases l1 with
    | nil => rfl
    | cons a l => simp at hl1
  subst hl0
  have hb : Run .nob ⟨lp :: (ts ++ rp :: rest), r, nn⟩ t ⟨rest, r, nn1⟩ :=
    @Run.bracket ⟨lp :: (ts ++ rp :: rest), r, nn⟩ ⟨rp :: rest, r, nn1⟩ _ _ _ _ _ rfl
      hlp.isOpen hrun rfl hrp.isClosed
  exact exec_of_run_need hb hf

/-- C3, on `(2+3)*4`: `ts` is `2+3` and `rest` is `*4` followed by EOF; the budget 25 is
three per token plus one. -/
theorem C3_parentheses_witness :
    _num_or_bracket 25
        ⟨[puncTok ['(', '2', '+', '3', ')', '*', '4'], intTok 2 ['2', '+', '3', ')', '*', '4'],
          puncTok ['+', '3', ')', '*', '4'], intTok 3 ['3', ')', '*', '4'],
          puncTok [')', '*', '4'], puncTok ['*', '4'], intTok 4 ['4'], eofTok], .NULL, 0⟩
      = .ok (BinaryOp ND_ADD (Number 2) (Number 3),
          ⟨[puncTok ['*', '4'], intTok 4 ['4'], eofTok], .NULL, 3⟩) :=
  (C3_parentheses
    [intTok 2 ['2', '+', '3', ')', '*', '4'], puncTok ['+', '3', ')', '*', '4'],
      intTok 3 ['3', ')', '*', '4']]
    [puncTok ['*', '4'], intTok 4 ['4'], eofTok]
    (puncTok ['(', '2', '+', '3', ')', '*', '4']) (puncTok [')', '*', '4']) eofTok
    (BinaryOp ND_ADD (Number 2) (Number 3)) .NULL 0 3 ⟨rfl, rfl⟩ ⟨rfl, rfl⟩ rfl rfl).1 25
    (by decide)

/-- C5 (counterexample). On the EOF-terminated tokens of `1)`, `AST()` succeeds and the
cursor is on `)`, which is not the end-of-input token. -/
theorem C5_cursor_not_on_eof :
    AST ⟨[intTok 1 ['1', ')'], puncTok [')'], eofTok], .NULL, 0⟩
        = .ok ⟨[puncTok [')'], eofTok], Number 1, 1⟩ ∧
      (puncTok [')']).kind ≠ TK_EOF ∧ eofTok.kind = TK_EOF ∧
      (intTok 1 ['1', ')']).kind ≠ TK_EOF :=
  ⟨rfl, by decide, rfl, by decide⟩

/-- C5 (amended). When `AST()` succeeds, the cursor is on a token of the sequence, and that
token is the end-of-input token or a token that `lookahead(1, c)` matches with none of the
operators `+`, `-`, `*`, `/`; the tokens before the cursor are a non-empty prefix of the
input without an end-of-input token. `AST()` makes no test for leftover tokens. -/
theorem C5_cursor_after_AST (s s1 : State) (h : AST s = .ok s1) :
    ∃ t rest consumed, s1.token = t :: rest ∧ (t.kind = TK_EOF ∨ NoOp t) ∧
      s.token = consumed ++ s1.token ∧ consumed ≠ [] ∧ ∀ x ∈ consumed, x.kind ≠ TK_EOF := by
  obtain ⟨n, s2, hr, rfl⟩ := AST_eq_ok_iff.mp h
  obtain ⟨t, rest, ht, hs⟩ := hr.stops
  obtain ⟨l, hl, hne, hpos⟩ := hr.consumed
  exact ⟨t, rest, l, ht, hs, hl, hpos rfl, hne⟩

/-- C5 (amended), on the tokens of `1)`. -/
theorem C5_cursor_after_AST_witness :
    ∃ t rest consumed, [puncTok [')'], eofTok] = t :: rest ∧ (t.kind = TK_EOF ∨ NoOp t) ∧
      [intTok 1 ['1', ')'], puncTok [')'], eofTok] = consumed ++ [puncTok [')'], eofTok] ∧
      consumed ≠ [] ∧ ∀ x ∈ consumed, x.kind ≠ TK_EOF :=
  C5_cursor_after_AST ⟨[intTok 1 ['1', ')'], puncTok [')'], eofTok], .NULL, 0⟩
    ⟨[puncTok [')'], eofTok], Number 1, 1⟩ rfl

/-- C6 (unmatched open parenthesis). When `AST()` on `ts` followed by EOF succeeds with the
cursor on that EOF, `AST()` on `( ts` followed by EOF returns no tree: it aborts with
`error_at(token->code, "Expect )")` at the end-of-input token, after the nodes of `ts` have
been created and before `root` is written. -/
theorem C6_unmatched_open (ts : List Token) (lp e : Token) (t r : Node) (nn nn1 : Int)
    (hlp : IsPunc '(' lp) (he : e.kind = TK_EOF)
    (h : AST ⟨ts ++ [e], r, nn⟩ = .ok ⟨[e], t, nn1⟩) :
    AST ⟨lp :: (ts ++ [e]), r, nn⟩ = .error (.error_at e.code "Expect )", ⟨[e], r, nn1⟩) := by
  have hrun := run_of_AST h
  have hin : _add_or_sub (3 * (ts ++ [e]).length + 3) ⟨ts ++ [e], r, nn⟩
      = .ok (t, ⟨[e], r, nn1⟩) := add_or_sub_of_run hrun (Nat.le_refl _)
  have hf : 3 * (lp :: (ts ++ [e])).length + 3 = (3 * (ts ++ [e]).length + 3) + 1 + 1 + 1 := by
    simp only [List.length_cons, List.length_append, List.length_singleton]; omega
  have hc : isClosed e = false := by simp [isClosed, he]
  simp only [AST, hf, as_succ, md_succ]
  rw [nob_open (s := ⟨lp :: (ts ++ [e]), r, nn⟩) _ rfl hlp.isOpen, hin]
  simp [Except.bind, closeBracket, hc, bind]

/-- C6, on the tokens of `(1+2`. -/
theorem C6_unmatched_open_witness :
    AST ⟨[puncTok ['(', '1', '+', '2'], intTok 1 ['1', '+', '2'], puncTok ['+', '2'],
          intTok 2 ['2'], eofTok], .NULL, 0⟩
      = .error (.error_at [] "Expect )", ⟨[eofTok], .NULL, 3⟩) :=
  C6_unmatched_open [intTok 1 ['1', '+', '2'], puncTok ['+', '2'], intTok 2 ['2']]
    (puncTok ['(', '1', '+', '2']) eofTok (BinaryOp ND_ADD (Number 1) (Number 2)) .NULL 0 3
    ⟨rfl, rfl⟩ rfl rfl
/-- C4 (round-trip shape). For a sequence of lexer tokens on which `AST()` succeeds, the
number of `ND_NUM` leaves of the tree stored in `root` is the number of integer tokens in the
consumed prefix of the input, and the number of binary nodes is the number of `+`, `-`, `*`,
`/` tokens in that prefix. The prefix is the part of the input in front of the final cursor;
the statement needs no assumption on where the end-of-input token stands. -/
theorem C4_round_trip_shape (s s1 : State) (hwf : ∀ t ∈ s.token, t.wf)
    (h : AST s = .ok s1) :
    ∃ consumed, s.token = consumed ++ s1.token ∧
      numLeaves s1.root = consumed.countP isIntegerTok ∧
      numBinary s1.root = consumed.countP isOperatorTok := by
  obtain ⟨n, s2, hr, rfl⟩ := AST_eq_ok_iff.mp h
  obtain ⟨l, hl, a, b⟩ := hr.counts hwf
  exact ⟨l, hl, by simpa [Call.leaves] using a, by simpa [Call.binaries] using b⟩

/-- C4, on the tokens of `(2+3)*4`: three leaves and two binary nodes. -/
theorem C4_round_trip_shape_witness :
    ∃ consumed,
      [puncTok ['(', '2', '+', '3', ')', '*', '4'], intTok 2 ['2', '+', '3', ')', '*', '4'],
        puncTok ['+', '3', ')', '*', '4'], intTok 3 ['3', ')', '*', '4'],
        puncTok [')', '*', '4'], puncTok ['*', '4'], intTok 4 ['4'], eofTok]
        = consumed ++ [eofTok] ∧
      numLeaves (BinaryOp ND_MUL (BinaryOp ND_ADD (Number 2) (Number 3)) (Number 4))
        = consumed.countP isIntegerTok ∧
      numBinary (BinaryOp ND_MUL (BinaryOp ND_ADD (Number 2) (Number 3)) (Number 4))
        = consumed.countP isOperatorTok :=
  C4_round_trip_shape
    ⟨[puncTok ['(', '2', '+', '3', ')', '*', '4'], intTok 2 ['2', '+', '3', ')', '*', '4'],
        puncTok ['+', '3', ')', '*', '4'], intTok 3 ['3', ')', '*', '4'],
        puncTok [')', '*', '4'], puncTok ['*', '4'], intTok 4 ['4'], eofTok], .NULL, 0⟩
    ⟨[eofTok], BinaryOp ND_MUL (BinaryOp ND_ADD (Number 2) (Number 3)) (Number 4), 5⟩
    (by decide) rfl
/-- C12 (stopping without error at a non-operator). When `AST()` on `ts` followed by EOF
succeeds with tree `t` and the cursor on that EOF, and `x` is a lexer token whose raw text is
none of `+`, `-`, `*`, `/`, then `AST()` on `ts`, `x` and any `rest` succeeds with the same
tree `t`, the same node count, and the cursor on `x`: no error is raised. -/
theorem C12_stops_at_non_operator (ts rest : List Token) (x e : Token) (t r : Node)
    (nn nn1 : Int) (he : e.kind = TK_EOF) (hx : x.wf) (hop : isOperatorTok x = false)
    (h : AST ⟨ts ++ [e], r, nn⟩ = .ok ⟨[e], t, nn1⟩) :
    AST ⟨ts ++ x :: rest, r, nn⟩ = .ok ⟨x :: rest, t, nn1⟩ := by
  have hstop : x.kind = TK_EOF ∨ NoOp x := by
    by_cases hk : x.kind = TK_EOF
    · exact Or.inl hk
    · right
      have key : ∀ c : Char, (c = '+' ∨ c = '-' ∨ c = '*' ∨ c = '/') → tokMatch x [c] = false := by
        intro c hc
        by_contra hm
        have hm2 : tokMatch x [c] = true := by simpa using hm
        have := (isOperatorTok_of_tokMatch hx hk hc hm2).1
        rw [hop] at this
        cases this
      exact ⟨key _ (Or.inl rfl), key _ (Or.inr (Or.inl rfl)),
        key _ (Or.inr (Or.inr (Or.inl rfl))), key _ (Or.inr (Or.inr (Or.inr rfl)))⟩
  obtain ⟨l1, hl1, hrun⟩ := (run_of_AST h).extend_stop rest hstop he ts rfl
  have hl0 : l1 = [] := by
    cases l1 with
    | nil => rfl
    | cons a l => simp at hl1
  subst hl0
  exact AST_of_run hrun

/-- C12, on the tokens of `1+2)`: `Add(1, 2)` is returned and `)` is left unconsumed. -/
theorem C12_stops_at_non_operator_witness :
    AST ⟨[intTok 1 ['1', '+', '2', ')'], puncTok ['+', '2', ')'], intTok 2 ['2', ')'],
          puncTok [')'], eofTok], .NULL, 0⟩
      = .ok ⟨[puncTok [')'], eofTok], BinaryOp ND_ADD (Number 1) (Number 2), 3⟩ :=
  C12_stops_at_non_operator
    [intTok 1 ['1', '+', '2', ')'], puncTok ['+', '2', ')'], intTok 2 ['2', ')']] [eofTok]
    (puncTok [')']) eofTok (BinaryOp ND_ADD (Number 1) (Number 2)) .NULL 0 3 rfl (by decide)
    (by decide) rfl

/-- C13 (code_bug: `_at_end_k` looks at the cursor only). With the cursor on the token `+`
followed by EOF, `_at_end_k(2)` returns false although the end-of-input token is the second
of the next two tokens: the call `_at_end(token_copy)` tests the global `token`, so the
result is true exactly when `k ≥ 1` and the cursor itself is on the end-of-input token. -/
theorem C13_at_end_k_ignores_copy :
    (_at_end_k 2 ⟨[puncTok ['+'], eofTok], .NULL, 0⟩ = .ok false ∧
      ∃ t ∈ [puncTok ['+'], eofTok].take 2, t.kind = TK_EOF) ∧
    (∀ (k : Nat) (s : State) (t : Token) (rest : List Token), s.token = t :: rest →
      k ≤ s.token.length →
      _at_end_k k s = .ok (decide (1 ≤ k ∧ t.kind = TK_EOF))) := by
  refine ⟨⟨rfl, eofTok, by decide, rfl⟩, ?_⟩
  intro k s t rest ht hle
  by_cases hk : t.kind = TK_EOF
  · cases k with
    | zero => simp [_at_end_k, _at_end_k_loop, pure, Except.pure]
    | succ k =>
      simp [_at_end_k, ht, _at_end_k_loop, at_end_cons ht, hk, bind, Except.bind, pure,
        Except.pure]
  · simp only [_at_end_k, at_end_k_loop_eq ht hk k _ hle, hk, and_false, decide_False]
/-- C17 (tree well-formedness). When `AST()` succeeds, every node of the tree stored in
`root` is a leaf of kind `ND_NUM` that holds a value and has two `NULL` children, or a node
of kind `ND_ADD`, `ND_SUB`, `ND_MUL` or `ND_DIV` with two children that are trees of the same
form and with the operator string `+`, `-`, `*`, `/` of its kind. -/
theorem C17_tree_well_formed (s s1 : State) (h : AST s = .ok s1) : WellFormed s1.root := by
  obtain ⟨n, s2, hr, rfl⟩ := AST_eq_ok_iff.mp h
  exact hr.wellFormed (by intro a ha; cases ha)

/-- C17, on the tokens of `(2+3)*4`. -/
theorem C17_tree_well_formed_witness :
    WellFormed (BinaryOp ND_MUL (BinaryOp ND_ADD (Number 2) (Number 3)) (Number 4)) :=
  C17_tree_well_formed
    ⟨[puncTok ['(', '2', '+', '3', ')', '*', '4'], intTok 2 ['2', '+', '3', ')', '*', '4'],
        puncTok ['+', '3', ')', '*', '4'], intTok 3 ['3', ')', '*', '4'],
        puncTok [')', '*', '4'], puncTok ['*', '4'], intTok 4 ['4'], eofTok], .NULL, 0⟩
    ⟨[eofTok], BinaryOp ND_MUL (BinaryOp ND_ADD (Number 2) (Number 3)) (Number 4), 5⟩ rfl

/-- C19 (token order is preserved). For a sequence of lexer tokens on which `AST()`
succeeds, the in-order traversal of the tree stored in `root` (a leaf gives its value, a
binary node its operator string, no parentheses) is the consumed prefix of the input read
with the bracket tokens removed, an integer token as its `val` and an operator token as its
raw text. -/
theorem C19_token_order (s s1 : State) (hwf : ∀ t ∈ s.token, t.wf) (h : AST s = .ok s1) :
    ∃ consumed, s.token = consumed ++ s1.token ∧ inorder s1.root = tokItems consumed := by
  obtain ⟨n, s2, hr, rfl⟩ := AST_eq_ok_iff.mp h
  obtain ⟨l, hl, a⟩ := hr.items hwf
  exact ⟨l, hl, by simpa [Call.items] using a⟩

/-- C19, on the tokens of `(2+3)*4`: the traversal is `2 + 3 * 4`. -/
theorem C19_token_order_witness :
    (∃ consumed,
      [puncTok ['(', '2', '+', '3', ')', '*', '4'], intTok 2 ['2', '+', '3', ')', '*', '4'],
        puncTok ['+', '3', ')', '*', '4'], intTok 3 ['3', ')', '*', '4'],
        puncTok [')', '*', '4'], puncTok ['*', '4'], intTok 4 ['4'], eofTok]
        = consumed ++ [eofTok] ∧
      inorder (BinaryOp ND_MUL (BinaryOp ND_ADD (Number 2) (Number 3)) (Number 4))
        = tokItems consumed) ∧
    inorder (BinaryOp ND_MUL (BinaryOp ND_ADD (Number 2) (Number 3)) (Number 4))
      = [.num 2, .op ['+'], .num 3, .op ['*'], .num 4] :=
  ⟨C19_token_order
    ⟨[puncTok ['(', '2', '+', '3', ')', '*', '4'], intTok 2 ['2', '+', '3', ')', '*', '4'],
        puncTok ['+', '3', ')', '*', '4'], intTok 3 ['3', ')', '*', '4'],
        puncTok [')', '*', '4'], puncTok ['*', '4'], intTok 4 ['4'], eofTok], .NULL, 0⟩
    ⟨[eofTok], BinaryOp ND_MUL (BinaryOp ND_ADD (Number 2) (Number 3)) (Number 4), 5⟩
    (by decide) rfl, rfl⟩

/-- C20 (counterexample). On the tokens of `4` with `node_num` at `INT_MAX`, `AST()`
succeeds and builds a tree of one node, and `node_num`, a C `int`, is `INT_MIN` afterwards:
it is not `node_num` before the call plus the number of nodes of the tree. -/
theorem C20_counter_overflow :
    AST ⟨[intTok 4 ['4'], eofTok], .NULL, 2147483647⟩
        = .ok ⟨[eofTok], Number 4, -2147483648⟩ ∧
      (-2147483648 : Int) ≠ 2147483647 + (nodeCount (Number 4) : Int) :=
  ⟨rfl, by decide⟩

/-- C20 (amended). When `AST()` succeeds, `node_num` after the call is `node_num` before the
call plus the number of nodes (leaves and binary nodes) of the tree stored in `root`, in the
arithmetic of the C `int` that `node_num` is: the sum reduced modulo `2^32` into the range
from `INT_MIN` to `INT_MAX`. When `node_num` before the call is not below `INT_MIN` and the
sum does not exceed `INT_MAX`, it is that sum itself: every node created by the parse is in
the tree, once. -/
theorem C20_node_counter_int (s s1 : State) (h : AST s = .ok s1) :
    s1.node_num = wrap_int (s.node_num + (nodeCount s1.root : Int)) ∧
      (-2147483648 ≤ s.node_num → s.node_num + (nodeCount s1.root : Int) ≤ 2147483647 →
        s1.node_num = s.node_num + (nodeCount s1.root : Int)) := by
  obtain ⟨n, s2, hr, rfl⟩ := AST_eq_ok_iff.mp h
  have hc := hr.node_num
  simp only [Call.nodes, Call.isLoop, Nat.cast_zero, add_zero] at hc
  have h1 := hc.1
  have h2 := hc.2 (fun h => by cases h)
  have key : s2.node_num = wrap_int (s.node_num + (nodeCount n : Int)) := by
    rw [← h1, h2]
  refine ⟨key, fun hlo hhi => ?_⟩
  have hn : (0 : Int) ≤ (nodeCount n : Int) := Int.ofNat_nonneg _
  exact key.trans (wrap_int_of_range (by omega) hhi)

/-- C20 (amended), on the tokens of `(2+3)*4` with the counter at 7, where five nodes are
added, and on the tokens of `4` with the counter at `INT_MAX`, where it wraps. -/
theorem C20_node_counter_int_witness :
    (12 : Int) = 7 +
        (nodeCount (BinaryOp ND_MUL (BinaryOp ND_ADD (Number 2) (Number 3)) (Number 4)) : Int) ∧
      (-2147483648 : Int) = wrap_int (2147483647 + (nodeCount (Number 4) : Int)) :=
  ⟨(C20_node_counter_int
      ⟨[puncTok ['(', '2', '+', '3', ')', '*', '4'], intTok 2 ['2', '+', '3', ')', '*', '4'],
          puncTok ['+', '3', ')', '*', '4'], intTok 3 ['3', ')', '*', '4'],
          puncTok [')', '*', '4'], puncTok ['*', '4'], intTok 4 ['4'], eofTok], .NULL, 7⟩
      ⟨[eofTok], BinaryOp ND_MUL (BinaryOp ND_ADD (Number 2) (Number 3)) (Number 4), 12⟩
      rfl).2 (by decide) (by decide),
    (C20_node_counter_int ⟨[intTok 4 ['4'], eofTok], .NULL, 2147483647⟩
      ⟨[eofTok], Number 4, -2147483648⟩ (by rfl)).1⟩

/-- C18 (print-parse round trip). For a well-formed tree `t`, `AST()` on the token sequence
that prints `t` (a leaf as its integer token, a binary node as `(` left operator right `)`),
followed by EOF, succeeds, leaves the cursor on EOF and stores in `root` a tree equal to `t`;
the node counter, a C `int`, is incremented once for each node of `t`. -/
theorem C18_print_parse (t : Node) (e : Token) (r : Node) (nn : Int) (ht : WellFormed t)
    (he : e.kind = TK_EOF) :
    AST ⟨showTree t ++ [e], r, nn⟩ = .ok ⟨[e], t, wrap_int (nn + (nodeCount t : Int))⟩ :=
  AST_of_run (Run.as
    (Run.md (run_showTree t ht [e] r nn _ rfl) (run_md_end [] r _ _ he))
    (run_as_end [] r _ _ he))

/-- C18, on the tree `Sub(8, Mul(3, 2))`, printed as `(8-(3*2))`. -/
theorem C18_print_parse_witness :
    AST ⟨showTree (BinaryOp ND_SUB (Number 8) (BinaryOp ND_MUL (Number 3) (Number 2)))
          ++ [eofTok], .NULL, 0⟩
        = .ok ⟨[eofTok], BinaryOp ND_SUB (Number 8) (BinaryOp ND_MUL (Number 3) (Number 2)),
            5⟩ ∧
      (showTree (BinaryOp ND_SUB (Number 8) (BinaryOp ND_MUL (Number 3) (Number 2)))).map
          Token.text
        = [['('], ['8'], ['-'], ['('], ['3'], ['*'], ['2'], [')'], [')']] :=
  ⟨C18_print_parse (BinaryOp ND_SUB (Number 8) (BinaryOp ND_MUL (Number 3) (Number 2))) eofTok
    .NULL 0
    (Or.inr ⟨Or.inr (Or.inl rfl), rfl, Or.inl ⟨rfl, ⟨8, rfl⟩, rfl, rfl⟩,
      Or.inr ⟨Or.inr (Or.inr (Or.inl rfl)), rfl, Or.inl ⟨rfl, ⟨3, rfl⟩, rfl, rfl⟩,
        Or.inl ⟨rfl, ⟨2, rfl⟩, rfl, rfl⟩⟩⟩) rfl, by decide⟩

/-- C14 (termination). `AST()` ends on every token sequence, with a tree or with an error:
the model is a total function and its recursion budget is never used up, neither in `AST()`
nor in a call of one of the five functions with the budget `Call.need`. A call of
`_num_or_bracket` that returns has moved the cursor forward by at least one token. One turn
of the loop of `_mul_or_div` or of `_add_or_sub` returns the local node with the cursor
unmoved (the loop ends), or aborts, or goes on as the loop from a cursor that is strictly
further. However a call ends, the cursor has not moved backwards. -/
theorem C14_termination :
    (∀ s : State, (∃ s1, AST s = .ok s1) ∨ ∃ e st, AST s = .error (e, st) ∧ e ≠ .out_of_fuel) ∧
    (∀ (c : Call) (s : State) (fuel : Nat), c.need s.token.length ≤ fuel →
      ∀ st, exec c fuel s ≠ .error (.out_of_fuel, st)) ∧
    (∀ (fuel : Nat) (s s1 : State) (n : Node), _num_or_bracket fuel s = .ok (n, s1) →
      s1.token.length < s.token.length ∧ ∃ l, s.token = l ++ s1.token) ∧
    (∀ (fuel : Nat) (node : Node) (s : State),
      _mul_or_div_loop (fuel + 1) node s = .ok (node, s) ∨
      (∃ p, _mul_or_div_loop (fuel + 1) node s = .error p) ∨
      ∃ node1 s1, _mul_or_div_loop (fuel + 1) node s = _mul_or_div_loop fuel node1 s1 ∧
        s1.token.length < s.token.length ∧ ∃ l, s.token = l ++ s1.token) ∧
    (∀ (fuel : Nat) (node : Node) (s : State),
      _add_or_sub_loop (fuel + 1) node s = .ok (node, s) ∨
      (∃ p, _add_or_sub_loop (fuel + 1) node s = .error p) ∨
      ∃ node1 s1, _add_or_sub_loop (fuel + 1) node s = _add_or_sub_loop fuel node1 s1 ∧
        s1.token.length < s.token.length ∧ ∃ l, s.token = l ++ s1.token) ∧
    (∀ (c : Call) (fuel : Nat) (s : State), ∃ l, s.token = l ++ (final (exec c fuel s)).token) ∧
    (∀ s : State, ∃ l, s.token = l ++ (finalAST (AST s)).token) := by
  have turn : ∀ (c : Call) (fuel : Nat) (s : State) (t : Token) (rest : List Token)
      (f : Node × State → Exec (Node × State)) (g : Node × State → Node × State),
      c.isLoop = false → s.token = t :: rest → (∀ a, (g a).2.token = a.2.token) →
      (∃ p, (exec c fuel { s with token := rest }).bind f = .error p) ∨
      ∃ a, (exec c fuel { s with token := rest }).bind f = f a ∧
        (g a).2.token.length < s.token.length ∧ ∃ l, s.token = l ++ (g a).2.token := by
    intro c fuel s t rest f g hc ht hg
    cases hr : exec c fuel { s with token := rest } with
    | error p => exact Or.inl ⟨p, rfl⟩
    | ok a =>
      right
      have hrun := run_of_exec fuel c _ a.1 a.2 hr
      obtain ⟨l, hl, _, _⟩ := hrun.consumed
      have hlt := hrun.length_le
      simp only at hl hlt
      refine ⟨a, rfl, ?_, t :: l, ?_⟩
      · rw [hg, ht, List.length_cons]; omega
      · rw [hg, ht, hl]; simp
  refine ⟨?_, ?_, ?_, ?_, ?_, ?_, ?_⟩
  · intro s
    have hoof := fuel_enough (3 * s.token.length + 3) .as s (Nat.le_refl _)
    rw [AST_eq]
    cases hr : exec .as (3 * s.token.length + 3) s with
    | ok p => exact Or.inl ⟨_, rfl⟩
    | error p =>
      obtain ⟨e, st⟩ := p
      refine Or.inr ⟨e, st, rfl, ?_⟩
      rintro rfl
      exact hoof st hr
  · intro c s fuel hf
    exact fuel_enough fuel c s hf
  · intro fuel s s1 n h
    have hrun := run_of_exec fuel .nob s n s1 h
    obtain ⟨l, hl, _, _⟩ := hrun.consumed
    exact ⟨hrun.length_lt rfl, l, hl⟩
  · intro fuel node s
    cases ht : s.token with
    | nil => exact Or.inr (Or.inl ⟨_, md_loop_nil fuel node ht⟩)
    | cons t rest =>
      rw [md_loop_cons fuel node ht, ← ht]
      by_cases hk : t.kind = TK_EOF
      · rw [if_pos hk]; exact Or.inl rfl
      · rw [if_neg hk]
        split
        · rcases turn .nob fuel s t rest _
            (fun a => (Node.node ND_MUL (.op ['*']) node a.1,
              { a.2 with node_num := wrap_int (a.2.node_num + 1) })) rfl ht (fun _ => rfl) with h | ⟨a, h1, h2⟩
          · exact Or.inr (Or.inl h)
          · exact Or.inr (Or.inr ⟨_, _, h1, h2⟩)
        · split
          · rcases turn .nob fuel s t rest _
              (fun a => (Node.node ND_DIV (.op ['/']) node a.1,
                { a.2 with node_num := wrap_int (a.2.node_num + 1) })) rfl ht (fun _ => rfl)
              with h | ⟨a, h1, h2⟩
            · exact Or.inr (Or.inl h)
            · exact Or.inr (Or.inr ⟨_, _, h1, h2⟩)
          · exact Or.inl rfl
  · intro fuel node s
    cases ht : s.token with
    | nil => exact Or.inr (Or.inl ⟨_, as_loop_nil fuel node ht⟩)
    | cons t rest =>
      rw [as_loop_cons fuel node ht, ← ht]
      by_cases hk : t.kind = TK_EOF
      · rw [if_pos hk]; exact Or.inl rfl
      · rw [if_neg hk]
        split
        · rcases turn .md fuel s t rest _
            (fun a => (Node.node ND_ADD (.op ['+']) node a.1,
              { a.2 with node_num := wrap_int (a.2.node_num + 1) })) rfl ht (fun _ => rfl) with h | ⟨a, h1, h2⟩
          · exact Or.inr (Or.inl h)
          · exact Or.inr (Or.inr ⟨_, _, h1, h2⟩)
        · split
          · rcases turn .md fuel s t rest _
              (fun a => (Node.node ND_SUB (.op ['-']) node a.1,
                { a.2 with node_num := wrap_int (a.2.node_num + 1) })) rfl ht (fun _ => rfl)
              with h | ⟨a, h1, h2⟩
            · exact Or.inr (Or.inl h)
            · exact Or.inr (Or.inr ⟨_, _, h1, h2⟩)
          · exact Or.inl rfl
  · intro c fuel s
    obtain ⟨l, hl, _⟩ := (exec_good fuel c s).1
    exact ⟨l, hl⟩
  · intro s
    obtain ⟨l, hl, _⟩ := (AST_good s).1
    exact ⟨l, hl⟩
/-- C14, on the tokens of `4`: the call of `_num_or_bracket` returns with the cursor one
token further. -/
theorem C14_termination_witness :
    ([eofTok] : List Token).length < [intTok 4 ['4'], eofTok].length ∧
      ∃ l, [intTok 4 ['4'], eofTok] = l ++ [eofTok] :=
  C14_termination.2.2.1 1 ⟨[intTok 4 ['4'], eofTok], .NULL, 0⟩ ⟨[eofTok], .NULL, 1⟩
    (Number 4) rfl

/-- C15 (the cursor never passes the sentinel). On a token sequence `pre` terminated by a
single end-of-input token `e`, the cursor `AST()` ends with, on return or at an abort, stands
on a token of the sequence: the tokens it has moved over are a prefix of `pre`, none of them
is the end-of-input token, and what is left ends with `e`. In the model the cursor is
written by `_eat` only, one token per call (also for the calls made inside `lookahead`), so
the tokens moved over are the tokens on which `_eat` ran; the same holds for every call of
one of the five functions, from any state. No read goes through a `NULL` cursor. -/
theorem C15_cursor_never_passes_sentinel (pre : List Token) (e : Token) (r : Node) (nn : Int)
    (he : e.kind = TK_EOF) :
    (∃ consumed rem, pre = consumed ++ rem ∧ (∀ t ∈ consumed, t.kind ≠ TK_EOF) ∧
      (finalAST (AST ⟨pre ++ [e], r, nn⟩)).token = rem ++ [e]) ∧
    (∀ st, AST ⟨pre ++ [e], r, nn⟩ ≠ .error (.null_deref, st)) ∧
    (∀ (c : Call) (fuel : Nat) (s : State), ∃ consumed,
      s.token = consumed ++ (final (exec c fuel s)).token ∧
        ∀ t ∈ consumed, t.kind ≠ TK_EOF) := by
  have hg := AST_good ⟨pre ++ [e], r, nn⟩
  have hends : EndsEOF (pre ++ [e]) := ⟨pre, e, rfl, he⟩
  refine ⟨?_, ?_, fun c fuel s => (exec_good fuel c s).1⟩
  · obtain ⟨l, hl, hn⟩ := hg.1
    simp only at hl
    obtain ⟨pre1, e1, h1, _⟩ := hends.of_moves hg.1
    rw [h1, ← List.append_assoc] at hl
    have hpe := List.append_inj_left' hl rfl
    have hee := List.append_inj_right' hl rfl
    simp only [List.cons.injEq, and_true] at hee
    subst hee
    exact ⟨l, pre1, hpe, hn, h1⟩
  · intro st h
    rcases hg.2 hends with ⟨s1, h1⟩ | ⟨loc, st1, h1⟩ | ⟨loc, st1, h1⟩ <;>
      rw [h] at h1 <;> cases h1

/-- C15, on the tokens of `(1+2`: at the abort the cursor is on the end-of-input token. -/
theorem C15_cursor_never_passes_sentinel_witness :
    ∃ consumed rem,
      [puncTok ['(', '1', '+', '2'], intTok 1 ['1', '+', '2'], puncTok ['+', '2'],
        intTok 2 ['2']] = consumed ++ rem ∧ (∀ t ∈ consumed, t.kind ≠ TK_EOF) ∧
      (finalAST (AST ⟨[puncTok ['(', '1', '+', '2'], intTok 1 ['1', '+', '2'],
        puncTok ['+', '2'], intTok 2 ['2']] ++ [eofTok], .NULL, 0⟩)).token = rem ++ [eofTok] :=
  (C15_cursor_never_passes_sentinel
    [puncTok ['(', '1', '+', '2'], intTok 1 ['1', '+', '2'], puncTok ['+', '2'],
      intTok 2 ['2']] eofTok .NULL 0 rfl).1

/-- C16 (defensive errors are unreachable). On a token sequence that ends with the
end-of-input token, `AST()` returns, or aborts with "Expect a number", or aborts with
"Expect )". It does not abort with "Expect an operator", with "Expect an integer" or with
the report "Should not be at end" of `lookahead`. -/
theorem C16_defensive_errors_unreachable (s : State) (h : EndsEOF s.token) :
    ((∃ s1, AST s = .ok s1) ∨
      (∃ loc st, AST s = .error (.error_at loc "Expect a number", st)) ∨
      (∃ loc st, AST s = .error (.error_at loc "Expect )", st))) ∧
    (∀ loc st, AST s ≠ .error (.error_at loc "Expect an operator", st)) ∧
    (∀ loc st, AST s ≠ .error (.error_at loc "Expect an integer", st)) ∧
    (∀ st, AST s ≠ .error (.report "Should not be at end", st)) := by
  have hg := (AST_good s).2 h
  refine ⟨hg, ?_, ?_, ?_⟩
  · intro loc st h0
    rcases hg with ⟨s1, h1⟩ | ⟨loc1, st1, h1⟩ | ⟨loc1, st1, h1⟩ <;> rw [h0] at h1 <;>
      simp at h1
  · intro loc st h0
    rcases hg with ⟨s1, h1⟩ | ⟨loc1, st1, h1⟩ | ⟨loc1, st1, h1⟩ <;> rw [h0] at h1 <;>
      simp at h1
  · intro st h0
    rcases hg with ⟨s1, h1⟩ | ⟨loc1, st1, h1⟩ | ⟨loc1, st1, h1⟩ <;> rw [h0] at h1 <;>
      simp at h1

/-- C16, on the tokens of `(1+2`, where `AST()` aborts with "Expect )". -/
theorem C16_defensive_errors_unreachable_witness :
    ((∃ s1, AST ⟨[puncTok ['(', '1', '+', '2'], intTok 1 ['1', '+', '2'], puncTok ['+', '2'],
          intTok 2 ['2'], eofTok], .NULL, 0⟩ = .ok s1) ∨
      (∃ loc st, AST ⟨[puncTok ['(', '1', '+', '2'], intTok 1 ['1', '+', '2'],
          puncTok ['+', '2'], intTok 2 ['2'], eofTok], .NULL, 0⟩
        = .error (.error_at loc "Expect a number", st)) ∨
      (∃ loc st, AST ⟨[puncTok ['(', '1', '+', '2'], intTok 1 ['1', '+', '2'],
          puncTok ['+', '2'], intTok 2 ['2'], eofTok], .NULL, 0⟩
        = .error (.error_at loc "Expect )", st))) :=
  (C16_defensive_errors_unreachable
    ⟨[puncTok ['(', '1', '+', '2'], intTok 1 ['1', '+', '2'], puncTok ['+', '2'],
      intTok 2 ['2'], eofTok], .NULL, 0⟩
    ⟨[puncTok ['(', '1', '+', '2'], intTok 1 ['1', '+', '2'], puncTok ['+', '2'],
      intTok 2 ['2']], eofTok, rfl, rfl⟩).1
/-- C11 (a binary operator with no right operand is an error). When `AST()` on `ts`
followed by EOF succeeds with the cursor on that EOF, and `o` is a `+`, `-`, `*` or `/` token,
`AST()` on `ts`, `o`, EOF does not return the tree of `ts`: the loop consumes `o` and
`_num_or_bracket` aborts with `error_at(token->code, "Expect a number")` at the end-of-input
token, on which the cursor stands at the abort. -/
theorem C11_operator_without_operand (ts : List Token) (o e : Token) (k : NodeKind)
    (t r : Node) (nn nn1 : Int) (ho : IsOpTok k o) (he : e.kind = TK_EOF)
    (h : AST ⟨ts ++ [e], r, nn⟩ = .ok ⟨[e], t, nn1⟩) :
    ∃ st, st.token = [e] ∧
      AST ⟨ts ++ [o, e], r, nn⟩ = .error (.error_at e.code "Expect a number", st) := by
  obtain ⟨st, hst, hf⟩ := (run_of_AST h).fails_op ho he rfl ts rfl rfl (by intro h0; cases h0)
  exact ⟨st, hst, AST_of_fails hf⟩

/-- C11, on the tokens of `2*`. -/
theorem C11_operator_without_operand_witness :
    ∃ st, st.token = [eofTok] ∧
      AST ⟨[intTok 2 ['2', '*']] ++ [puncTok ['*'], eofTok], .NULL, 0⟩
        = .error (.error_at eofTok.code "Expect a number", st) :=
  C11_operator_without_operand [intTok 2 ['2', '*']] (puncTok ['*']) eofTok ND_MUL (Number 2)
    .NULL 0 1 ⟨by decide, rfl, rfl⟩ rfl rfl

end Vcc
